import Mathlib

/-!
Verification of the pattern-defeating quicksort implementation in
`third_party/rust/pdqsort/src/lib.rs` (a `#![no_std]` Rust crate).

Slices `&mut [T]` are modelled as `List α` with index-based reads
(`List.getD`), writes (`List.set`) and `swap`; the element type carries an
`Inhabited` instance so that out-of-range reads are total (they never happen
on the executed paths).  `slice::swap` is a checked operation in Rust; the
model performs the exchange when both indices are in bounds and otherwise
leaves the slice unchanged, which is exactly what the slice contents look
like when the index check fails.  `mem::size_of::<T>()` is a parameter
`tSize` (`usize` is 8 bytes, matching the 64-bit target assumed by the
spec).

Two embeddings are given:

* `Pdq`: the comparator is a pure function `α → α → Ordering`; loops are
  realised by structural recursion on an explicit counter that matches the
  number of iterations the Rust loop performs.  The quicksort recursion uses
  explicit fuel; `Option` marks fuel exhaustion, which is proved unreachable.
* `PdqM`: the comparator is stateful and fallible,
  `σ → α → α → Except ε (Ordering × σ)`, modelling Rust's `FnMut` closures
  that may panic with a payload in `ε`.  Results live in `MRes`, which
  distinguishes normal return, comparator panic (carrying the slice contents
  at the moment the unwind leaves the function, after panic guards ran),
  out-of-bounds unchecked access (`fault`, the shallow image of UB), and fuel
  exhaustion.  The block partition also records every offset value it stores
  into its `u8` buffers, to state the bounds claimed for them.
-/

namespace Pdq

variable {α : Type u} [Inhabited α]

/-- Indexed read of a slice; out of range gives the default element. -/
def get (v : List α) (i : Nat) : α := v.getD i default

/-- `slice::swap`: exchange the elements at indices `i` and `j`.  The Rust
operation is bounds-checked; on an out-of-range index it panics, leaving the
slice unchanged, which the model renders as the identity. -/
def swap (v : List α) (i j : Nat) : List α :=
  if i < v.length ∧ j < v.length then (v.set i (get v j)).set j (get v i)
  else v

/-! ### Pure-comparator embedding of the sort routines

The counter argument of each `..._go` function is the number of loop
iterations that remain; callers pass a value that is at least the number of
iterations the Rust loop performs, so the zero case coincides with normal
loop exit. -/

/-- Loop of `insert_head`: `tmp` has been read out of slot 0, slot `dest`
is the current hole; element `i` is inspected next.  On exit the hole is
filled with `tmp` (in the Rust code, by the `InsertionHole` guard). -/
def insert_head_go (c : α → α → Ordering) (tmp : α) :
    Nat → List α → Nat → Nat → List α
  | 0, v, dest, _ => v.set dest tmp
  | fuel+1, v, dest, i =>
    if i < v.length then
      if c tmp (get v i) ≠ .gt then v.set dest tmp
      else insert_head_go c tmp fuel (v.set (i - 1) (get v i)) i (i + 1)
    else v.set dest tmp

/-- `insert_head`: inserts `v[0]` into the sorted tail `v[1..]`; returns the
new contents and whether anything moved. -/
def insert_head (c : α → α → Ordering) (v : List α) : List α × Bool :=
  if 2 ≤ v.length ∧ c (get v 0) (get v 1) = .gt then
    (insert_head_go c (get v 0) v.length (v.set 0 (get v 1)) 1 2, true)
  else (v, false)

/-- `insert_head` applied to the subslice `v[i..]` of a slice. -/
def insert_head_at (c : α → α → Ordering) (i : Nat) (v : List α) :
    List α × Bool :=
  let p := insert_head c (v.drop i)
  (v.take i ++ p.1, p.2)

/-- Loop of `insertion_sort`: `for i in (0..len-1).rev()`; the argument is
the current index `i`. -/
def insertion_sort_go (c : α → α → Ordering) : Nat → List α → List α
  | 0, v => (insert_head_at c 0 v).1
  | i+1, v => insertion_sort_go c i (insert_head_at c (i + 1) v).1

/-- `insertion_sort`. -/
def insertion_sort (c : α → α → Ordering) (v : List α) : List α :=
  if 2 ≤ v.length then insertion_sort_go c (v.length - 2) v else v

def MAX_INSERTIONS : Nat := 4

/-- Loop of `partial_insertion_sort`; `k` counts insertions made so far. -/
def partial_insertion_sort_go (c : α → α → Ordering) :
    Nat → Nat → List α → List α × Bool
  | 0, k, v =>
    let p := insert_head_at c 0 v
    if p.2 ∧ MAX_INSERTIONS < k + 1 then (p.1, false) else (p.1, true)
  | i+1, k, v =>
    let p := insert_head_at c (i + 1) v
    if p.2 then
      if MAX_INSERTIONS < k + 1 then (p.1, false)
      else partial_insertion_sort_go c i (k + 1) p.1
    else partial_insertion_sort_go c i k p.1

/-- `partial_insertion_sort`: attempts to finish sorting with at most
`MAX_INSERTIONS` insertions; reports success. -/
def partial_insertion_sort (c : α → α → Ordering) (v : List α) :
    List α × Bool :=
  if 2 ≤ v.length then partial_insertion_sort_go c (v.length - 2) 0 v
  else (v, true)

/-- `sift_down` of `heapsort`, restricted to the prefix `v[..bound]` (the
Rust code passes the subslice `&mut v[..i]`). -/
def sift_down (c : α → α → Ordering) :
    Nat → Nat → List α → Nat → List α
  | 0, _, v, _ => v
  | fuel+1, bound, v, x =>
    let l := 2 * x + 1
    let r := 2 * x + 2
    let child := if r < bound ∧ c (get v l) (get v r) = .lt then r else l
    if bound ≤ child ∨ c (get v x) (get v child) ≠ .lt then v
    else sift_down c fuel bound (swap v x child) child

/-- Heap-building loop of `heapsort`: `for i in (0..len/2).rev()`. -/
def heapsort_build (c : α → α → Ordering) : Nat → List α → List α
  | 0, v => sift_down c v.length v.length v 0
  | i+1, v => heapsort_build c i (sift_down c v.length v.length v (i + 1))

/-- Popping loop of `heapsort`: `for i in (1..len).rev()`. -/
def heapsort_pop (c : α → α → Ordering) : Nat → List α → List α
  | 0, v => v
  | i+1, v => heapsort_pop c i (sift_down c v.length (i + 1) (swap v 0 (i + 1)) 0)

/-- `heapsort`. -/
def heapsort (c : α → α → Ordering) (v : List α) : List α :=
  let b := if v.length / 2 = 0 then v else heapsort_build c (v.length / 2 - 1) v
  if 2 ≤ v.length then heapsort_pop c (v.length - 1) b else b

/-- Adjacency scan of `is_presorted`: does `c v[i-1] v[i] = o` hold for some
`i` in `[i₀, len)`? -/
def has_adj (c : α → α → Ordering) (o : Ordering) :
    Nat → Nat → List α → Bool
  | 0, _, _ => false
  | fuel+1, i, v =>
    if i < v.length then
      if c (get v (i - 1)) (get v i) = o then true
      else has_adj c o fuel (i + 1) v
    else false

/-- `is_presorted`: detects ascending or descending input, reversing the
latter; returns the (possibly reversed) slice and whether it is now
ascending. -/
def is_presorted (c : α → α → Ordering) (v : List α) : List α × Bool :=
  if 2 ≤ v.length then
    if c (get v 0) (get v 1) = .gt then
      if has_adj c .lt v.length 2 v then (v, false) else (v.reverse, true)
    else
      if has_adj c .gt v.length 2 v then (v, false) else (v, true)
  else (v, true)

/-- `break_patterns`: fixed swap permutation disrupting adversarial input. -/
def break_patterns (v : List α) : List α :=
  let len := v.length
  if 4 ≤ len then
    let v1 := swap v 0 (len / 2)
    let v2 := swap v1 (len - 1) (len - len / 2)
    if 8 ≤ len then
      swap (swap (swap (swap v2 1 (len / 2 + 1)) 2 (len / 2 + 2))
        (len - 2) (len - len / 2 - 1)) (len - 3) (len - len / 2 - 2)
    else v2
  else v

/-- Local `sort2` of `choose_pivot`. -/
def sort2 (c : α → α → Ordering) (v : List α) (a b : Nat) : List α :=
  if c (get v a) (get v b) = .gt then swap v a b else v

/-- Local `sort3` of `choose_pivot`. -/
def sort3 (c : α → α → Ordering) (v : List α) (a b k : Nat) : List α :=
  sort2 c (sort2 c (sort2 c v a b) b k) a b

def MIN_MEDIAN_OF_MEDIANS : Nat := 256

/-- `choose_pivot`: median-of-three (median-of-medians above the threshold);
returns the shuffled slice and the chosen pivot index. -/
def choose_pivot (c : α → α → Ordering) (v : List α) : List α × Nat :=
  let len := v.length
  let a := len / 4 * 1
  let b := len / 4 * 2
  let k := len / 4 * 3
  if 4 ≤ len then
    let v1 := if MIN_MEDIAN_OF_MEDIANS ≤ len then
        sort3 c (sort3 c (sort3 c v (a - 1) a (k + 1)) (b - 1) b (b + 1))
          (k - 1) k (k + 1)
      else v
    (sort3 c v1 a b k, b)
  else (v, b)

def BLOCK : Nat := 64

/-- State of the `partition_in_blocks` loop, apart from the slice itself.
The two offset buffers are `[u8; 64]` arrays, modelled as lists of 64
naturals (stores reduce the stored value mod 256, as the `as u8` cast
does). -/
structure BState where
  l : Nat
  block_l : Nat
  start_l : Nat
  len_l : Nat
  offsets_l : List Nat
  r : Nat
  block_r : Nat
  start_r : Nat
  len_r : Nat
  offsets_r : List Nat

/-- Shrinking of the block sizes once `r - l <= 2 * BLOCK` (the `is_done`
branch at the head of the loop body). -/
def block_adjust (isd : Bool) (b : BState) : BState :=
  if isd then
    let rem := b.r - b.l -
      (if b.start_l < b.len_l ∨ b.start_r < b.len_r then BLOCK else 0)
    if b.start_l < b.len_l then {b with block_r := rem}
    else if b.start_r < b.len_r then {b with block_l := rem}
    else {b with block_l := rem / 2, block_r := rem - rem / 2}
  else b

/-- Left tracing loop of `partition_in_blocks` (`for i in 0..block_l`): the
store is unconditional, the length increment is the branchless
`(comparison != Less) as usize`. -/
def trace_l_go (c : α → α → Ordering) (piv : α) (v : List α) (l : Nat) :
    Nat → Nat → Nat → List Nat → Nat × List Nat
  | 0, _, len_l, offs => (len_l, offs)
  | k+1, i, len_l, offs =>
    let c0 := if c (get v (l + i)) piv ≠ .lt then 1 else 0
    trace_l_go c piv v l k (i + 1) (len_l + c0) (offs.set len_l (i % 256))

/-- Right tracing loop of `partition_in_blocks` (`for i in 0..block_r`). -/
def trace_r_go (c : α → α → Ordering) (piv : α) (v : List α) (r : Nat) :
    Nat → Nat → Nat → List Nat → Nat × List Nat
  | 0, _, len_r, offs => (len_r, offs)
  | k+1, i, len_r, offs =>
    let c0 := if c (get v (r - i - 1)) piv = .lt then 1 else 0
    trace_r_go c piv v r k (i + 1) (len_r + c0) (offs.set len_r (i % 256))

/-- Tracing step for the left block, when its offsets are exhausted. -/
def block_traceL (c : α → α → Ordering) (piv : α) (v : List α) (b : BState) :
    BState :=
  if b.start_l = b.len_l then
    let t := trace_l_go c piv v b.l b.block_l 0 0 b.offsets_l
    {b with start_l := 0, len_l := t.1, offsets_l := t.2}
  else b

/-- Tracing step for the right block, when its offsets are exhausted. -/
def block_traceR (c : α → α → Ordering) (piv : α) (v : List α) (b : BState) :
    BState :=
  if b.start_r = b.len_r then
    let t := trace_r_go c piv v b.r b.block_r 0 0 b.offsets_r
    {b with start_r := 0, len_r := t.1, offsets_r := t.2}
  else b

/-- Swapping loop of `partition_in_blocks`
(`for _ in 0..min(len_l - start_l, len_r - start_r)`). -/
def swaps_go (osl osr : List Nat) (l r : Nat) :
    Nat → List α → Nat → Nat → List α × Nat × Nat
  | 0, v, sl, sr => (v, sl, sr)
  | k+1, v, sl, sr =>
    swaps_go osl osr l r k
      (swap v (l + osl.getD sl 0) (r - osr.getD sr 0 - 1)) (sl + 1) (sr + 1)

/-- Swapping step between the displaced elements of the two blocks. -/
def block_swaps (v : List α) (b : BState) : List α × BState :=
  let k := min (b.len_l - b.start_l) (b.len_r - b.start_r)
  let w := swaps_go b.offsets_l b.offsets_r b.l b.r k v b.start_l b.start_r
  (w.1, {b with start_l := w.2.1, start_r := w.2.2})

/-- Moving of the bounds over fully exhausted blocks. -/
def block_advance (b : BState) : BState :=
  let b5 := if b.start_l = b.len_l then {b with l := b.l + b.block_l} else b
  if b5.start_r = b5.len_r then {b5 with r := b5.r - b5.block_r} else b5

/-- Final left drain of `partition_in_blocks`: moves the remaining displaced
left elements to the far right; returns the new `r` and the slice. -/
def drain_l_go (l : Nat) (offs : List Nat) :
    Nat → List α → Nat → Nat → Nat × List α
  | 0, v, _, r => (r, v)
  | k+1, v, len_l, r =>
    drain_l_go l offs k (swap v (l + offs.getD (len_l - 1) 0) (r - 1))
      (len_l - 1) (r - 1)

/-- Final right drain of `partition_in_blocks`: moves the remaining displaced
right elements to the far left; returns the new `l` and the slice. -/
def drain_r_go (offs : List Nat) :
    Nat → List α → Nat → Nat → Nat → Nat × List α
  | 0, v, _, l, _ => (l, v)
  | k+1, v, len_r, l, r =>
    drain_r_go offs k (swap v l (r - offs.getD (len_r - 1) 0 - 1))
      (len_r - 1) (l + 1) r

/-- One iteration of the main loop of `partition_in_blocks`. -/
def block_iter (c : α → α → Ordering) (piv : α) (isd : Bool) (v : List α)
    (b : BState) : List α × BState :=
  let b1 := block_adjust isd b
  let b2 := block_traceL c piv v b1
  let b3 := block_traceR c piv v b2
  let p := block_swaps v b3
  (p.1, block_advance p.2)

/-- Patch-up work after the main loop of `partition_in_blocks`. -/
def block_drain (v : List α) (b : BState) : Nat × List α :=
  if b.start_l < b.len_l then
    drain_l_go b.l b.offsets_l (b.len_l - b.start_l) v b.len_l b.r
  else
    drain_r_go b.offsets_r (b.len_r - b.start_r) v b.len_r b.l b.r

/-- Main loop of `partition_in_blocks`. -/
def block_loop (c : α → α → Ordering) (piv : α) :
    Nat → List α → BState → Option (Nat × List α)
  | 0, _, _ => none
  | fuel+1, v, b =>
    let isd := decide (b.r - b.l ≤ 2 * BLOCK)
    let p := block_iter c piv isd v b
    if isd then some (block_drain p.1 p.2) else block_loop c piv fuel p.1 p.2

/-- The initial loop state of `partition_in_blocks` on a slice of length
`n`. -/
def block_init (n : Nat) : BState :=
  ⟨0, BLOCK, 0, 0, List.replicate BLOCK 0, n, BLOCK, 0, 0, List.replicate BLOCK 0⟩

/-- Bookkeeping invariant of the `partition_in_blocks` loop head on a slice
of length `n`: full-width blocks, bounds within the slice, at most one side
with pending displaced elements, and pending offsets within the block. -/
def BInv (n : Nat) (b : BState) : Prop :=
  b.block_l = BLOCK ∧ b.block_r = BLOCK ∧
  b.offsets_l.length = BLOCK ∧ b.offsets_r.length = BLOCK ∧
  b.l ≤ b.r ∧ b.r ≤ n ∧
  b.start_l ≤ b.len_l ∧ b.start_r ≤ b.len_r ∧
  b.len_l ≤ BLOCK ∧ b.len_r ≤ BLOCK ∧
  (¬ (b.start_l < b.len_l ∧ b.start_r < b.len_r)) ∧
  ((b.start_l < b.len_l ∨ b.start_r < b.len_r) → b.l + BLOCK ≤ b.r) ∧
  (∀ j, b.start_l ≤ j → j < b.len_l → b.offsets_l.getD j 0 < BLOCK) ∧
  (∀ j, b.start_r ≤ j → j < b.len_r → b.offsets_r.getD j 0 < BLOCK)

/-- State of the `partition_in_blocks` loop body right after the `is_done`
adjustment: blocks fit side by side between the bounds, and any pending
offsets lie below their block width. -/
def AInv (n : Nat) (b : BState) : Prop :=
  b.offsets_l.length = BLOCK ∧ b.offsets_r.length = BLOCK ∧
  b.start_l ≤ b.len_l ∧ b.start_r ≤ b.len_r ∧
  b.block_l ≤ BLOCK ∧ b.block_r ≤ BLOCK ∧
  b.r ≤ n ∧ b.l + b.block_l + b.block_r ≤ b.r ∧
  (b.start_l < b.len_l → b.len_l ≤ b.block_l ∧
    ∀ j, b.start_l ≤ j → j < b.len_l → b.offsets_l.getD j 0 < b.block_l) ∧
  (b.start_r < b.len_r → b.len_r ≤ b.block_r ∧
    ∀ j, b.start_r ≤ j → j < b.len_r → b.offsets_r.getD j 0 < b.block_r)

/-- `partition_in_blocks`: the BlockQuicksort partition; returns the number
of elements less than the pivot and the permuted slice. -/
def partition_in_blocks (c : α → α → Ordering) (piv : α) (v : List α) :
    Option (Nat × List α) :=
  block_loop c piv (v.length + 2) v (block_init v.length)

/-- First scan of `partition`: `while l < r && compare(v[l], pivot) == Less`. -/
def scan_l (c : α → α → Ordering) (piv : α) (w : List α) :
    Nat → Nat → Nat → Nat
  | 0, l, _ => l
  | fuel+1, l, r =>
    if l < r ∧ c (get w l) piv = .lt then scan_l c piv w fuel (l + 1) r else l

/-- Second scan of `partition`: `while l < r && compare(v[r-1], pivot) != Less`. -/
def scan_r (c : α → α → Ordering) (piv : α) (w : List α) :
    Nat → Nat → Nat → Nat
  | 0, _, r => r
  | fuel+1, l, r =>
    if l < r ∧ c (get w (r - 1)) piv ≠ .lt then scan_r c piv w fuel l (r - 1)
    else r

/-- `partition`: swaps the pivot to slot 0, pre-scans the already partitioned
margins, block-partitions the middle and swaps the pivot into its final slot.
Returns `(mid, was_partitioned, new contents)`. -/
def partition (c : α → α → Ordering) (v : List α) (pivot : Nat) :
    Option (Nat × Bool × List α) :=
  let v1 := swap v 0 pivot
  let piv := get v1 0
  let w := v1.drop 1
  let l := scan_l c piv w (w.length + 1) 0 w.length
  let r := scan_r c piv w (w.length + 1) l w.length
  match partition_in_blocks c piv ((w.take r).drop l) with
  | none => none
  | some (m, sub) =>
    let w2 := (w.take l) ++ sub ++ w.drop r
    let mid := l + m
    some (mid, decide (r ≤ l), swap (v1.take 1 ++ w2) 0 mid)

/-- Equal scan of `partition_equal`: `while l < r && compare(v[l], pivot) == Equal`. -/
def scan_eq_l (c : α → α → Ordering) (piv : α) (w : List α) :
    Nat → Nat → Nat → Nat
  | 0, l, _ => l
  | fuel+1, l, r =>
    if l < r ∧ c (get w l) piv = .eq then scan_eq_l c piv w fuel (l + 1) r
    else l

/-- Greater scan of `partition_equal`: `while l < r && compare(v[r-1], pivot) == Greater`. -/
def scan_gt_r (c : α → α → Ordering) (piv : α) (w : List α) :
    Nat → Nat → Nat → Nat
  | 0, _, r => r
  | fuel+1, l, r =>
    if l < r ∧ c (get w (r - 1)) piv = .gt then scan_gt_r c piv w fuel l (r - 1)
    else r

/-- Outer loop of `partition_equal`. -/
def pe_go (c : α → α → Ordering) (piv : α) :
    Nat → List α → Nat → Nat → Nat × List α
  | 0, w, l, _ => (l, w)
  | fuel+1, w, l, r =>
    if l < r then
      let l2 := scan_eq_l c piv w (r - l) l r
      let r2 := scan_gt_r c piv w (r - l2) l2 r
      if l2 < r2 then pe_go c piv fuel (swap w l2 (r2 - 1)) (l2 + 1) (r2 - 1)
      else (l2, w)
    else (l, w)

/-- `partition_equal`: partitions into elements equal to, then greater than,
`v[mid]`; returns the size of the equal prefix (including the pivot) and the
new contents. -/
def partition_equal (c : α → α → Ordering) (v : List α) (mid : Nat) :
    Nat × List α :=
  let v1 := swap v 0 mid
  let piv := get v1 0
  let w := v1.drop 1
  let p := pe_go c piv (w.length + 1) w 0 w.length
  (p.1 + 1, v1.take 1 ++ p.2)

/-- `quicksort` with explicit recursion fuel; `none` is fuel exhaustion
(proved unreachable for fuel exceeding the slice length). -/
def quicksortF (c : α → α → Ordering) (tSize : Nat) :
    Nat → List α → Option α → Nat → Option (List α)
  | 0, _, _, _ => none
  | fuel+1, v, pred, limit =>
    let max_insertion := if tSize ≤ 2 * 8 then 32 else 16
    let len := v.length
    if len ≤ max_insertion then some (insertion_sort c v)
    else if limit = 0 then some (heapsort c v)
    else
      let cp := choose_pivot c v
      let v1 := cp.1
      let mid := cp.2
      let goEq : Bool := match pred with
        | some p => decide (c p (get v1 mid) = .eq)
        | none => false
      if goEq then
        let pe := partition_equal c v1 mid
        match quicksortF c tSize fuel (pe.2.drop pe.1) pred limit with
        | none => none
        | some w => some (pe.2.take pe.1 ++ w)
      else
        match partition c v1 mid with
        | none => none
        | some (mid2, was_p, v2) =>
          let left := v2.take mid2
          let pivL := (v2.drop mid2).take 1
          let right := v2.drop (mid2 + 1)
          let step : (List α × List α × Nat) ⊕ List α :=
            if left.length < len / 8 ∨ right.length < len / 8 then
              .inl (break_patterns left, break_patterns right, limit - 1)
            else if was_p then
              let pl := partial_insertion_sort c left
              if pl.2 then
                let pr := partial_insertion_sort c right
                if pr.2 then .inr (pl.1 ++ pivL ++ pr.1)
                else .inl (pl.1, pr.1, limit)
              else .inl (pl.1, right, limit)
            else .inl (left, right, limit)
          match step with
          | .inr w => some w
          | .inl (L, R, lim) =>
            match quicksortF c tSize fuel L pred lim with
            | none => none
            | some lw =>
              match quicksortF c tSize fuel R (some (get v2 mid2)) lim with
              | none => none
              | some rw => some (lw ++ pivL ++ rw)

/-- `u64::leading_zeros` on a natural below `2 ^ 64`. -/
def leading_zeros64 (n : Nat) : Nat := 64 - Nat.size n

/-- The initial depth limit computed by `sort_by`:
`64 - (len as u64).leading_zeros() + 1`. -/
def sortByLimit (n : Nat) : Nat := 64 - leading_zeros64 (n % 2 ^ 64) + 1

/-- `sort_by`: the public entry point.  `tSize` is `mem::size_of::<T>()`. -/
def sort_by (tSize : Nat) (c : α → α → Ordering) (v : List α) :
    Option (List α) :=
  if tSize = 0 then some v
  else
    let p := is_presorted c v
    if p.2 then some p.1
    else quicksortF c tSize (v.length + 1) p.1 none (sortByLimit v.length)

end Pdq

/-! ### Stateful, fallible comparator embedding -/

namespace PdqM

open Pdq (get swap BLOCK MAX_INSERTIONS MIN_MEDIAN_OF_MEDIANS break_patterns
  sortByLimit BState block_adjust block_advance block_init BInv AInv)

/-- Result of a routine run against a stateful, fallible comparator:
normal return (with comparator state, slice contents and result), comparator
panic (with payload and the slice contents once the unwind leaves the
routine), `fault` for an out-of-bounds unchecked access (the shallow image of
undefined behaviour; proved unreachable), and `fuelout` for exhausted
recursion fuel (likewise proved unreachable). -/
inductive MRes (σ : Type v) (ε : Type w) (α : Type u) (β : Type x) where
  | fuelout
  | fault
  | panic (e : ε) (v : List α)
  | ok (s : σ) (v : List α) (r : β)

/-- Sequencing of results operating on the same slice. -/
def MRes.bind : MRes σ ε α β → (σ → List α → β → MRes σ ε α γ) → MRes σ ε α γ
  | .fuelout, _ => .fuelout
  | .fault, _ => .fault
  | .panic e v, _ => .panic e v
  | .ok s v r, f => f s v r

/-- A stateful comparator that may fail with a payload in `ε`. -/
abbrev Cmp (σ : Type v) (ε : Type w) (α : Type u) :=
  σ → α → α → Except ε (Ordering × σ)

variable {α : Type u} [Inhabited α] {σ : Type v} {ε : Type w}

/-- Loop of `insert_head`; on a comparator panic the `InsertionHole` guard
copies `tmp` back into the hole at `dest` before the panic propagates. -/
def insert_head_goM (cmp : Cmp σ ε α) (tmp : α) :
    Nat → σ → List α → Nat → Nat → MRes σ ε α Bool
  | 0, s, v, dest, _ => .ok s (v.set dest tmp) true
  | fuel+1, s, v, dest, i =>
    if i < v.length then
      match cmp s tmp (get v i) with
      | .error e => .panic e (v.set dest tmp)
      | .ok (o, s') =>
        if o ≠ .gt then .ok s' (v.set dest tmp) true
        else insert_head_goM cmp tmp fuel s' (v.set (i - 1) (get v i)) i (i + 1)
    else .ok s (v.set dest tmp) true

/-- `insert_head`. -/
def insert_headM (cmp : Cmp σ ε α) (s : σ) (v : List α) : MRes σ ε α Bool :=
  if 2 ≤ v.length then
    match cmp s (get v 0) (get v 1) with
    | .error e => .panic e v
    | .ok (o, s') =>
      if o = .gt then
        insert_head_goM cmp (get v 0) v.length s' (v.set 0 (get v 1)) 1 2
      else .ok s' v false
  else .ok s v false

/-- `insert_head` on the subslice `v[i..]`; a panic inside the subslice is
re-embedded into the whole slice. -/
def insert_head_atM (cmp : Cmp σ ε α) (i : Nat) (s : σ) (v : List α) :
    MRes σ ε α Bool :=
  match insert_headM cmp s (v.drop i) with
  | .fuelout => .fuelout
  | .fault => .fault
  | .panic e w => .panic e (v.take i ++ w)
  | .ok s' w b => .ok s' (v.take i ++ w) b

/-- Loop of `insertion_sort`. -/
def insertion_sort_goM (cmp : Cmp σ ε α) : Nat → σ → List α → MRes σ ε α Unit
  | 0, s, v => (insert_head_atM cmp 0 s v).bind fun s' w _ => .ok s' w ()
  | i+1, s, v =>
    (insert_head_atM cmp (i + 1) s v).bind fun s' w _ =>
      insertion_sort_goM cmp i s' w

/-- `insertion_sort`. -/
def insertion_sortM (cmp : Cmp σ ε α) (s : σ) (v : List α) : MRes σ ε α Unit :=
  if 2 ≤ v.length then insertion_sort_goM cmp (v.length - 2) s v
  else .ok s v ()

/-- Loop of `partial_insertion_sort`. -/
def partial_insertion_sort_goM (cmp : Cmp σ ε α) :
    Nat → Nat → σ → List α → MRes σ ε α Bool
  | 0, k, s, v =>
    (insert_head_atM cmp 0 s v).bind fun s' w moved =>
      if moved ∧ MAX_INSERTIONS < k + 1 then .ok s' w false else .ok s' w true
  | i+1, k, s, v =>
    (insert_head_atM cmp (i + 1) s v).bind fun s' w moved =>
      if moved then
        if MAX_INSERTIONS < k + 1 then .ok s' w false
        else partial_insertion_sort_goM cmp i (k + 1) s' w
      else partial_insertion_sort_goM cmp i k s' w

/-- `partial_insertion_sort`. -/
def partial_insertion_sortM (cmp : Cmp σ ε α) (s : σ) (v : List α) :
    MRes σ ε α Bool :=
  if 2 ≤ v.length then partial_insertion_sort_goM cmp (v.length - 2) 0 s v
  else .ok s v true

/-- `sift_down` on the prefix `v[..bound]`. -/
def sift_downM (cmp : Cmp σ ε α) :
    Nat → Nat → σ → List α → Nat → MRes σ ε α Unit
  | 0, _, s, v, _ => .ok s v ()
  | fuel+1, bound, s, v, x =>
    let l := 2 * x + 1
    let r := 2 * x + 2
    let step1 : MRes σ ε α Nat :=
      if r < bound then
        match cmp s (get v l) (get v r) with
        | .error e => .panic e v
        | .ok (o, s') => .ok s' v (if o = .lt then r else l)
      else .ok s v l
    step1.bind fun s1 v1 child =>
      if bound ≤ child then .ok s1 v1 ()
      else
        match cmp s1 (get v1 x) (get v1 child) with
        | .error e => .panic e v1
        | .ok (o, s2) =>
          if o ≠ .lt then .ok s2 v1 ()
          else sift_downM cmp fuel bound s2 (swap v1 x child) child

/-- Heap-building loop of `heapsort`. -/
def heapsort_buildM (cmp : Cmp σ ε α) : Nat → σ → List α → MRes σ ε α Unit
  | 0, s, v => sift_downM cmp v.length v.length s v 0
  | i+1, s, v =>
    (sift_downM cmp v.length v.length s v (i + 1)).bind fun s' w _ =>
      heapsort_buildM cmp i s' w

/-- Popping loop of `heapsort`. -/
def heapsort_popM (cmp : Cmp σ ε α) : Nat → σ → List α → MRes σ ε α Unit
  | 0, s, v => .ok s v ()
  | i+1, s, v =>
    (sift_downM cmp v.length (i + 1) s (swap v 0 (i + 1)) 0).bind fun s' w _ =>
      heapsort_popM cmp i s' w

/-- `heapsort`. -/
def heapsortM (cmp : Cmp σ ε α) (s : σ) (v : List α) : MRes σ ε α Unit :=
  (if v.length / 2 = 0 then .ok s v ()
   else heapsort_buildM cmp (v.length / 2 - 1) s v).bind fun s' w _ =>
    if 2 ≤ w.length then heapsort_popM cmp (w.length - 1) s' w else .ok s' w ()

/-- Adjacency scan of `is_presorted`. -/
def has_adjM (cmp : Cmp σ ε α) (o : Ordering) :
    Nat → Nat → σ → List α → MRes σ ε α Bool
  | 0, _, s, v => .ok s v false
  | fuel+1, i, s, v =>
    if i < v.length then
      match cmp s (get v (i - 1)) (get v i) with
      | .error e => .panic e v
      | .ok (o', s') =>
        if o' = o then .ok s' v true else has_adjM cmp o fuel (i + 1) s' v
    else .ok s v false

/-- `is_presorted`. -/
def is_presortedM (cmp : Cmp σ ε α) (s : σ) (v : List α) : MRes σ ε α Bool :=
  if 2 ≤ v.length then
    match cmp s (get v 0) (get v 1) with
    | .error e => .panic e v
    | .ok (o, s1) =>
      if o = .gt then
        (has_adjM cmp .lt v.length 2 s1 v).bind fun s2 w found =>
          if found then .ok s2 w false else .ok s2 w.reverse true
      else
        (has_adjM cmp .gt v.length 2 s1 v).bind fun s2 w found =>
          if found then .ok s2 w false else .ok s2 w true
  else .ok s v true

/-- Local `sort2` of `choose_pivot`; reads and the `ptr::swap` are unchecked,
so out-of-range indices fault. -/
def sort2M (cmp : Cmp σ ε α) (s : σ) (v : List α) (a b : Nat) :
    MRes σ ε α Unit :=
  if a < v.length ∧ b < v.length then
    match cmp s (get v a) (get v b) with
    | .error e => .panic e v
    | .ok (o, s') => if o = .gt then .ok s' (swap v a b) () else .ok s' v ()
  else .fault

/-- Local `sort3` of `choose_pivot`. -/
def sort3M (cmp : Cmp σ ε α) (s : σ) (v : List α) (a b k : Nat) :
    MRes σ ε α Unit :=
  (sort2M cmp s v a b).bind fun s1 v1 _ =>
    (sort2M cmp s1 v1 b k).bind fun s2 v2 _ => sort2M cmp s2 v2 a b

/-- `choose_pivot`. -/
def choose_pivotM (cmp : Cmp σ ε α) (s : σ) (v : List α) : MRes σ ε α Nat :=
  let len := v.length
  let a := len / 4 * 1
  let b := len / 4 * 2
  let k := len / 4 * 3
  if 4 ≤ len then
    (if MIN_MEDIAN_OF_MEDIANS ≤ len then
        (sort3M cmp s v (a - 1) a (k + 1)).bind fun s1 v1 _ =>
          (sort3M cmp s1 v1 (b - 1) b (b + 1)).bind fun s2 v2 _ =>
            sort3M cmp s2 v2 (k - 1) k (k + 1)
      else .ok s v ()).bind fun s3 v3 _ =>
      (sort3M cmp s3 v3 a b k).bind fun s4 v4 _ => .ok s4 v4 b
  else .ok s v b

/-- Left tracing loop of `partition_in_blocks`.  The element read and the
offset store are unchecked, so they are bounds-checked here and fault when
out of range; `tr` records each raw loop counter value stored into the `u8`
buffer. -/
def trace_l_goM (cmp : Cmp σ ε α) (piv : α) (l : Nat) :
    Nat → σ → List α → Nat → Nat → List Nat → List Nat →
      MRes σ ε α (Nat × List Nat × List Nat)
  | 0, s, v, _, len_l, offs, tr => .ok s v (len_l, offs, tr)
  | k+1, s, v, i, len_l, offs, tr =>
    if l + i < v.length ∧ len_l < BLOCK then
      match cmp s (get v (l + i)) piv with
      | .error e => .panic e v
      | .ok (o, s') =>
        let c0 := if o ≠ .lt then 1 else 0
        trace_l_goM cmp piv l k s' v (i + 1) (len_l + c0)
          (offs.set len_l (i % 256)) (tr ++ [i])
    else .fault

/-- Right tracing loop of `partition_in_blocks`. -/
def trace_r_goM (cmp : Cmp σ ε α) (piv : α) (r : Nat) :
    Nat → σ → List α → Nat → Nat → List Nat → List Nat →
      MRes σ ε α (Nat × List Nat × List Nat)
  | 0, s, v, _, len_r, offs, tr => .ok s v (len_r, offs, tr)
  | k+1, s, v, i, len_r, offs, tr =>
    if i + 1 ≤ r ∧ r - i - 1 < v.length ∧ len_r < BLOCK then
      match cmp s (get v (r - i - 1)) piv with
      | .error e => .panic e v
      | .ok (o, s') =>
        let c0 := if o = .lt then 1 else 0
        trace_r_goM cmp piv r k s' v (i + 1) (len_r + c0)
          (offs.set len_r (i % 256)) (tr ++ [i])
    else .fault

/-- Swapping loop of `partition_in_blocks`; all accesses are unchecked, so
each is bounds-checked and faults when out of range (`none`). -/
def swaps_goM (osl osr : List Nat) (l r : Nat) :
    Nat → List α → Nat → Nat → Option (List α × Nat × Nat)
  | 0, v, sl, sr => some (v, sl, sr)
  | k+1, v, sl, sr =>
    if sl < BLOCK ∧ sr < BLOCK ∧ l + osl.getD sl 0 < v.length ∧
        osr.getD sr 0 + 1 ≤ r ∧ r - osr.getD sr 0 - 1 < v.length then
      swaps_goM osl osr l r k
        (swap v (l + osl.getD sl 0) (r - osr.getD sr 0 - 1)) (sl + 1) (sr + 1)
    else none

/-- Final left drain of `partition_in_blocks` (unchecked accesses checked). -/
def drain_l_goM (l : Nat) (offs : List Nat) :
    Nat → List α → Nat → Nat → Option (Nat × List α)
  | 0, v, _, r => some (r, v)
  | k+1, v, len_l, r =>
    if len_l - 1 < BLOCK ∧ l + offs.getD (len_l - 1) 0 < v.length ∧
        1 ≤ r ∧ r - 1 < v.length then
      drain_l_goM l offs k (swap v (l + offs.getD (len_l - 1) 0) (r - 1))
        (len_l - 1) (r - 1)
    else none

/-- Final right drain of `partition_in_blocks` (unchecked accesses checked). -/
def drain_r_goM (offs : List Nat) :
    Nat → List α → Nat → Nat → Nat → Option (Nat × List α)
  | 0, v, _, l, _ => some (l, v)
  | k+1, v, len_r, l, r =>
    if len_r - 1 < BLOCK ∧ l < v.length ∧ offs.getD (len_r - 1) 0 + 1 ≤ r ∧
        r - offs.getD (len_r - 1) 0 - 1 < v.length then
      drain_r_goM offs k (swap v l (r - offs.getD (len_r - 1) 0 - 1))
        (len_r - 1) (l + 1) r
    else none

/-- Monadic tracing step for the left block. -/
def block_traceLM (cmp : Cmp σ ε α) (piv : α) (s : σ) (v : List α)
    (b : BState) (tr : List Nat) : MRes σ ε α (BState × List Nat) :=
  if b.start_l = b.len_l then
    (trace_l_goM cmp piv b.l b.block_l s v 0 0 b.offsets_l tr).bind
      fun s' v' t =>
        let b' : BState := {b with start_l := 0, len_l := t.1, offsets_l := t.2.1}
        .ok s' v' (b', t.2.2)
  else .ok s v (b, tr)

/-- Monadic tracing step for the right block. -/
def block_traceRM (cmp : Cmp σ ε α) (piv : α) (s : σ) (v : List α)
    (b : BState) (tr : List Nat) : MRes σ ε α (BState × List Nat) :=
  if b.start_r = b.len_r then
    (trace_r_goM cmp piv b.r b.block_r s v 0 0 b.offsets_r tr).bind
      fun s' v' t =>
        let b' : BState := {b with start_r := 0, len_r := t.1, offsets_r := t.2.1}
        .ok s' v' (b', t.2.2)
  else .ok s v (b, tr)

/-- One iteration of the main loop of `partition_in_blocks`. -/
def block_iterM (cmp : Cmp σ ε α) (piv : α) (isd : Bool) (s : σ) (v : List α)
    (b : BState) (tr : List Nat) : MRes σ ε α (BState × List Nat) :=
  (block_traceLM cmp piv s v (block_adjust isd b) tr).bind fun s2 v2 p2 =>
    (block_traceRM cmp piv s2 v2 p2.1 p2.2).bind fun s3 v3 p3 =>
      match swaps_goM p3.1.offsets_l p3.1.offsets_r p3.1.l p3.1.r
          (min (p3.1.len_l - p3.1.start_l) (p3.1.len_r - p3.1.start_r)) v3
          p3.1.start_l p3.1.start_r with
      | none => .fault
      | some (v4, sl, sr) =>
        .ok s3 v4 (block_advance {p3.1 with start_l := sl, start_r := sr}, p3.2)

/-- Patch-up work after the main loop of `partition_in_blocks`. -/
def block_drainM (b : BState) (v : List α) : Option (Nat × List α) :=
  if b.start_l < b.len_l then
    drain_l_goM b.l b.offsets_l (b.len_l - b.start_l) v b.len_l b.r
  else
    drain_r_goM b.offsets_r (b.len_r - b.start_r) v b.len_r b.l b.r

/-- Main loop of `partition_in_blocks`. -/
def block_loopM (cmp : Cmp σ ε α) (piv : α) :
    Nat → σ → List α → BState → List Nat → MRes σ ε α (Nat × List Nat)
  | 0, _, _, _, _ => .fuelout
  | fuel+1, s, v, b, tr =>
    let isd := decide (b.r - b.l ≤ 2 * BLOCK)
    (block_iterM cmp piv isd s v b tr).bind fun s' v' p =>
      if isd then
        match block_drainM p.1 v' with
        | none => .fault
        | some (m, v2) => .ok s' v2 (m, p.2)
      else block_loopM cmp piv fuel s' v' p.1 p.2

/-- `partition_in_blocks`; the result also carries the trace of raw offset
values stored into the two `u8` buffers. -/
def partition_in_blocksM (cmp : Cmp σ ε α) (piv : α) (s : σ) (v : List α) :
    MRes σ ε α (Nat × List Nat) :=
  block_loopM cmp piv (v.length + 2) s v (block_init v.length) []

/-- First scan of `partition`. -/
def scan_lM (cmp : Cmp σ ε α) (piv : α) :
    Nat → σ → List α → Nat → Nat → MRes σ ε α Nat
  | 0, s, v, l, _ => .ok s v l
  | fuel+1, s, v, l, r =>
    if l < r then
      match cmp s (get v l) piv with
      | .error e => .panic e v
      | .ok (o, s') =>
        if o = .lt then scan_lM cmp piv fuel s' v (l + 1) r else .ok s' v l
    else .ok s v l

/-- Second scan of `partition`. -/
def scan_rM (cmp : Cmp σ ε α) (piv : α) :
    Nat → σ → List α → Nat → Nat → MRes σ ε α Nat
  | 0, s, v, _, r => .ok s v r
  | fuel+1, s, v, l, r =>
    if l < r then
      match cmp s (get v (r - 1)) piv with
      | .error e => .panic e v
      | .ok (o, s') =>
        if o ≠ .lt then scan_rM cmp piv fuel s' v l (r - 1) else .ok s' v r
    else .ok s v r

/-- `partition`; panics raised while working on the tail subslice are
re-embedded into the whole slice (the pivot sits in slot 0 meanwhile). -/
def partitionM (cmp : Cmp σ ε α) (s : σ) (v : List α) (pivot : Nat) :
    MRes σ ε α (Nat × Bool) :=
  let v1 := swap v 0 pivot
  let piv := get v1 0
  let w := v1.drop 1
  match scan_lM cmp piv (w.length + 1) s w 0 w.length with
  | .fuelout => .fuelout
  | .fault => .fault
  | .panic e w' => .panic e (v1.take 1 ++ w')
  | .ok s1 w1 l =>
    match scan_rM cmp piv (w.length + 1) s1 w1 l w.length with
    | .fuelout => .fuelout
    | .fault => .fault
    | .panic e w' => .panic e (v1.take 1 ++ w')
    | .ok s2 w2 r =>
      match partition_in_blocksM cmp piv s2 ((w2.take r).drop l) with
      | .fuelout => .fuelout
      | .fault => .fault
      | .panic e subv => .panic e (v1.take 1 ++ (w2.take l ++ subv ++ w2.drop r))
      | .ok s3 subv p =>
        let w3 := w2.take l ++ subv ++ w2.drop r
        let mid := l + p.1
        .ok s3 (swap (v1.take 1 ++ w3) 0 mid) (mid, decide (r ≤ l))

/-- Equal scan of `partition_equal`. -/
def scan_eq_lM (cmp : Cmp σ ε α) (piv : α) :
    Nat → σ → List α → Nat → Nat → MRes σ ε α Nat
  | 0, s, v, l, _ => .ok s v l
  | fuel+1, s, v, l, r =>
    if l < r then
      match cmp s (get v l) piv with
      | .error e => .panic e v
      | .ok (o, s') =>
        if o = .eq then scan_eq_lM cmp piv fuel s' v (l + 1) r else .ok s' v l
    else .ok s v l

/-- Greater scan of `partition_equal`. -/
def scan_gt_rM (cmp : Cmp σ ε α) (piv : α) :
    Nat → σ → List α → Nat → Nat → MRes σ ε α Nat
  | 0, s, v, _, r => .ok s v r
  | fuel+1, s, v, l, r =>
    if l < r then
      match cmp s (get v (r - 1)) piv with
      | .error e => .panic e v
      | .ok (o, s') =>
        if o = .gt then scan_gt_rM cmp piv fuel s' v l (r - 1) else .ok s' v r
    else .ok s v r

/-- Outer loop of `partition_equal`. -/
def pe_goM (cmp : Cmp σ ε α) (piv : α) :
    Nat → σ → List α → Nat → Nat → MRes σ ε α Nat
  | 0, s, w, l, _ => .ok s w l
  | fuel+1, s, w, l, r =>
    if l < r then
      (scan_eq_lM cmp piv (r - l) s w l r).bind fun s1 w1 l2 =>
        (scan_gt_rM cmp piv (r - l2) s1 w1 l2 r).bind fun s2 w2 r2 =>
          if l2 < r2 then
            pe_goM cmp piv fuel s2 (swap w2 l2 (r2 - 1)) (l2 + 1) (r2 - 1)
          else .ok s2 w2 l2
    else .ok s w l

/-- `partition_equal`. -/
def partition_equalM (cmp : Cmp σ ε α) (s : σ) (v : List α) (mid : Nat) :
    MRes σ ε α Nat :=
  let v1 := swap v 0 mid
  let piv := get v1 0
  let w := v1.drop 1
  match pe_goM cmp piv (w.length + 1) s w 0 w.length with
  | .fuelout => .fuelout
  | .fault => .fault
  | .panic e w' => .panic e (v1.take 1 ++ w')
  | .ok s1 w1 l => .ok s1 (v1.take 1 ++ w1) (l + 1)

/-- The branch of `quicksort` that runs between partitioning and the
recursive calls: pattern breaking on imbalance (decrementing the limit), or
the optimistic partial insertion sorts.  Returns either the slices and limit
to recurse on (`Sum.inl`) or the final contents on the early-exit path
(`Sum.inr`). -/
def qs_stepM (cmp : Cmp σ ε α) (s3 : σ) (v3 : List α) (mid2 : Nat)
    (was_p : Bool) (len limit : Nat) :
    MRes σ ε α ((List α × List α × Nat) ⊕ List α) :=
  let left := v3.take mid2
  let pivL := (v3.drop mid2).take 1
  let right := v3.drop (mid2 + 1)
  if left.length < len / 8 ∨ right.length < len / 8 then
    .ok s3 v3 (.inl (break_patterns left, break_patterns right, limit - 1))
  else if was_p then
    match partial_insertion_sortM cmp s3 left with
    | .fuelout => .fuelout
    | .fault => .fault
    | .panic e w => .panic e (w ++ pivL ++ right)
    | .ok s4 lw lok =>
      if lok then
        match partial_insertion_sortM cmp s4 right with
        | .fuelout => .fuelout
        | .fault => .fault
        | .panic e w => .panic e (lw ++ pivL ++ w)
        | .ok s5 rw rok =>
          if rok then .ok s5 (lw ++ pivL ++ rw) (.inr (lw ++ pivL ++ rw))
          else .ok s5 (lw ++ pivL ++ rw) (.inl (lw, rw, limit))
      else .ok s4 (lw ++ pivL ++ right) (.inl (lw, right, limit))
  else .ok s3 v3 (.inl (left, right, limit))

/-- `quicksort` with explicit recursion fuel. -/
def quicksortMF (cmp : Cmp σ ε α) (tSize : Nat) :
    Nat → σ → List α → Option α → Nat → MRes σ ε α Unit
  | 0, _, _, _, _ => .fuelout
  | fuel+1, s, v, pred, limit =>
    let max_insertion := if tSize ≤ 2 * 8 then 32 else 16
    let len := v.length
    if len ≤ max_insertion then insertion_sortM cmp s v
    else if limit = 0 then heapsortM cmp s v
    else
      (choose_pivotM cmp s v).bind fun s1 v1 mid =>
        let chk : MRes σ ε α Bool := match pred with
          | some p =>
            match cmp s1 p (get v1 mid) with
            | .error e => .panic e v1
            | .ok (o, s2) => .ok s2 v1 (decide (o = .eq))
          | none => .ok s1 v1 false
        chk.bind fun s2 v2 goEq =>
          if goEq then
            (partition_equalM cmp s2 v2 mid).bind fun s3 v3 mid2 =>
              match quicksortMF cmp tSize fuel s3 (v3.drop mid2) pred limit with
              | .fuelout => .fuelout
              | .fault => .fault
              | .panic e w => .panic e (v3.take mid2 ++ w)
              | .ok s4 w _ => .ok s4 (v3.take mid2 ++ w) ()
          else
            (partitionM cmp s2 v2 mid).bind fun s3 v3 p =>
              (qs_stepM cmp s3 v3 p.1 p.2 len limit).bind fun s6 _ st =>
                let pivL := (v3.drop p.1).take 1
                match st with
                | .inr w => .ok s6 w ()
                | .inl (L, R, lim) =>
                  match quicksortMF cmp tSize fuel s6 L pred lim with
                  | .fuelout => .fuelout
                  | .fault => .fault
                  | .panic e w => .panic e (w ++ pivL ++ R)
                  | .ok s7 lw _ =>
                    match quicksortMF cmp tSize fuel s7 R
                        (some (get v3 p.1)) lim with
                    | .fuelout => .fuelout
                    | .fault => .fault
                    | .panic e w => .panic e (lw ++ pivL ++ w)
                    | .ok s8 rw _ => .ok s8 (lw ++ pivL ++ rw) ()

/-- `sort_by`. -/
def sort_byM (cmp : Cmp σ ε α) (tSize : Nat) (s : σ) (v : List α) :
    MRes σ ε α Unit :=
  if tSize = 0 then .ok s v ()
  else
    (is_presortedM cmp s v).bind fun s1 v1 pre =>
      if pre then .ok s1 v1 ()
      else quicksortMF cmp tSize (v1.length + 1) s1 v1 none
        (sortByLimit v1.length)

end PdqM

/-! ### Specification vocabulary and concrete comparators -/

namespace Pdq

variable {α : Type u}

/-- A total-order (more precisely, total-preorder) comparator: swapping the
arguments swaps the verdict, and `≤` (that is, "not Greater") is
transitive.  This is the strict-weak-order contract of the Rust API. -/
structure IsTotalCmp (c : α → α → Ordering) : Prop where
  symm : ∀ a b, (c a b).swap = c b a
  le_trans : ∀ a b k, c a b ≠ .gt → c b k ≠ .gt → c a k ≠ .gt

/-- A slice is ascending under `c` when no adjacent pair compares Greater. -/
def Ascending (c : α → α → Ordering) (v : List α) : Prop :=
  List.Chain' (fun a b => c a b ≠ .gt) v

/-- The natural-order comparator on `Nat`, for concrete instances. -/
def natCmp : Nat → Nat → Ordering := compare

/-- `j` lies in the heap subtree rooted at `x` under the parent map
`j ↦ (j-1)/2`. -/
def isDesc (x j : Nat) : Bool :=
  if j ≤ x then decide (j = x) else isDesc x ((j - 1) / 2)
termination_by j
decreasing_by omega

/-- Binary-heap order on the prefix `[0, bound)` restricted to nodes whose
parent index is at least `a`: every such node compares at most its parent. -/
def HeapFrom [Inhabited α] (c : α → α → Ordering) (v : List α)
    (bound a : Nat) : Prop :=
  ∀ j, 0 < j → j < bound → a ≤ (j - 1) / 2 →
    c (get v ((j - 1) / 2)) (get v j) ≠ .lt

/-- Pending displaced elements of the left block of `partition_in_blocks`:
the offsets in `[start, len)` mark the positions of `[l, l + width)` whose
element is not Less than the pivot, every unmarked position of the block
holds an element Less than the pivot, and the pending offsets are strictly
increasing. -/
def PendL [Inhabited α] (c : α → α → Ordering) (piv : α) (v : List α)
    (l width : Nat) (offs : List Nat) (start len : Nat) : Prop :=
  (∀ j, start ≤ j → j < len → c (get v (l + offs.getD j 0)) piv ≠ .lt) ∧
  (∀ i, l ≤ i → i < l + width →
    (∀ j, start ≤ j → j < len → i ≠ l + offs.getD j 0) →
    c (get v i) piv = .lt) ∧
  (∀ j1 j2, start ≤ j1 → j1 < j2 → j2 < len →
    offs.getD j1 0 < offs.getD j2 0)

/-- Pending displaced elements of the right block of `partition_in_blocks`:
the offsets in `[start, len)` mark the positions of `[r - width, r)` (counted
down from `r`) whose element is Less than the pivot, every unmarked position
of the block holds an element not Less than the pivot, and the pending
offsets are strictly increasing. -/
def PendR [Inhabited α] (c : α → α → Ordering) (piv : α) (v : List α)
    (r width : Nat) (offs : List Nat) (start len : Nat) : Prop :=
  (∀ j, start ≤ j → j < len → c (get v (r - offs.getD j 0 - 1)) piv = .lt) ∧
  (∀ i, r - width ≤ i → i < r →
    (∀ j, start ≤ j → j < len → i ≠ r - offs.getD j 0 - 1) →
    c (get v i) piv ≠ .lt) ∧
  (∀ j1 j2, start ≤ j1 → j1 < j2 → j2 < len →
    offs.getD j1 0 < offs.getD j2 0)

/-- Semantic invariant of the `partition_in_blocks` main loop on a slice `v`
of length `n`: everything left of `l` is Less than the pivot, everything
from `r` on is not, and the (at most one) pending block satisfies its
pending-displacement predicate at full block width. -/
def SInv [Inhabited α] (c : α → α → Ordering) (piv : α) (n : Nat)
    (v : List α) (b : BState) : Prop :=
  (∀ i, i < b.l → c (get v i) piv = .lt) ∧
  (∀ i, b.r ≤ i → i < n → c (get v i) piv ≠ .lt) ∧
  (b.start_l < b.len_l →
    PendL c piv v b.l BLOCK b.offsets_l b.start_l b.len_l) ∧
  (b.start_r < b.len_r →
    PendR c piv v b.r BLOCK b.offsets_r b.start_r b.len_r)

end Pdq

namespace PdqM

variable {α : Type u} {σ : Type v} {ε : Type w}

/-- A pure comparator as a stateless, never-failing `Cmp`. -/
def liftCmp (c : α → α → Ordering) : Cmp Unit ε α :=
  fun s a b => .ok (c a b, s)

/-- A pure comparator instrumented to count its calls in the state. -/
def countCmp (c : α → α → Ordering) : Cmp Nat ε α :=
  fun s a b => .ok (c a b, s + 1)

/-- A comparator that always fails, with payload `e`. -/
def failCmp (e : ε) : Cmp Unit ε α := fun _ _ _ => .error e

/-- Every failure payload the comparator can produce lies in `P`. -/
def FailsIn (cmp : Cmp σ ε α) (P : Set ε) : Prop :=
  ∀ s a b e, cmp s a b = .error e → e ∈ P

/-- The comparator never fails: all of its calls return normally. -/
def NeverFails (cmp : Cmp σ ε α) : Prop :=
  ∀ s a b, ∃ o s', cmp s a b = .ok (o, s')

/-- The multiset-preservation contract of a result relative to the routine's
input `v₀`: on normal return the slice is a permutation of `v₀`, and on a
comparator panic the slice observed by the unwinder is a permutation of `v₀`
and the payload is one the comparator produced (drawn from `P`). -/
def GoodRes (P : Set ε) (v₀ : List α) : MRes σ ε α β → Prop
  | .fuelout => True
  | .fault => True
  | .panic e v => e ∈ P ∧ v.Perm v₀
  | .ok _ v _ => v.Perm v₀

/-- Like `GoodRes`, but for routines that do not write to the slice at all:
the contents are returned unchanged. -/
def QuietRes (P : Set ε) (v₀ : List α) : MRes σ ε α β → Prop
  | .fuelout => True
  | .fault => True
  | .panic e v => e ∈ P ∧ v = v₀
  | .ok _ v _ => v = v₀

/-- The run landed: it neither ran out of recursion fuel nor performed an
out-of-bounds unchecked access (it returned normally or propagated a
comparator panic). -/
def Lands : MRes σ ε α β → Prop
  | .fuelout => False
  | .fault => False
  | .panic _ _ => True
  | .ok _ _ _ => True

end PdqM

/-! ## Theorems -/

namespace Pdq

variable {α : Type u} [Inhabited α]

@[simp] theorem length_swap (v : List α) (i j : Nat) :
    (swap v i j).length = v.length := by
  unfold swap; split <;> simp

theorem get_eq_getElem (v : List α) (i : Nat) (h : i < v.length) :
    get v i = v[i] := by
  simp [get, List.getD_eq_getElem?_getD, List.getElem?_eq_getElem h]

@[simp] theorem get_set_self (v : List α) (i : Nat) (a : α) (h : i < v.length) :
    get (v.set i a) i = a := by
  rw [get_eq_getElem _ _ (by simpa using h)]
  simp

theorem get_set_ne (v : List α) (i j : Nat) (a : α) (hij : i ≠ j) :
    get (v.set i a) j = get v j := by
  simp [get, List.getD_eq_getElem?_getD, List.getElem?_set_ne hij]

/-- Auxiliary: pulling the `k`-th element of a list to the front, after
overwriting that slot with `a`, is a permutation of putting `a` in front. -/
theorem get_cons_set_perm (t : List α) (k : Nat) (a : α) (hk : k < t.length) :
    (get t k :: t.set k a).Perm (a :: t) := by
  induction t generalizing k with
  | nil => simp at hk
  | cons b s ih =>
    cases k with
    | zero =>
      simpa [get] using List.Perm.swap a b s
    | succ k =>
      have hk' : k < s.length := by simpa using hk
      have h1 : (get (b :: s) (k + 1) :: (b :: s).set (k + 1) a) =
          get s k :: b :: s.set k a := by
        simp [get, List.getD]
      rw [h1]
      exact ((List.Perm.swap b (get s k) (s.set k a)).trans
        (((ih k hk').cons b))).trans (List.Perm.swap a b s)

theorem swap_self (v : List α) (i : Nat) : swap v i i = v := by
  unfold swap
  split
  next h =>
    apply List.ext_getElem
    · simp
    · intro j h1 h2
      rcases Decidable.em (i = j) with rfl | hne
      · simp [get_eq_getElem _ _ h.1]
      · rw [List.getElem_set_ne hne, List.getElem_set_ne hne]
  next => rfl

theorem set_get_self (v : List α) (i : Nat) : v.set i (get v i) = v := by
  rcases Nat.lt_or_ge i v.length with h | h
  · apply List.ext_getElem
    · simp
    · intro j h1 h2
      rcases Decidable.em (i = j) with rfl | hne
      · simp [get_eq_getElem _ _ h]
      · rw [List.getElem_set_ne hne]
  · exact List.set_eq_of_length_le h

theorem swap_comm (v : List α) (i j : Nat) : swap v i j = swap v j i := by
  rcases Decidable.em (i = j) with rfl | hne
  · rfl
  · unfold swap
    rcases Decidable.em (i < v.length ∧ j < v.length) with h | h
    · rw [if_pos h, if_pos ⟨h.2, h.1⟩, List.set_comm _ _ _ hne]
    · rw [if_neg h, if_neg (fun hc => h ⟨hc.2, hc.1⟩)]

theorem swap_perm_aux (v : List α) (i j : Nat) (hi : i < v.length)
    (hj : j < v.length) : ((v.set i (get v j)).set j (get v i)).Perm v := by
  induction v generalizing i j with
  | nil => simp at hi
  | cons a t ih =>
    cases i with
    | zero =>
      cases j with
      | zero =>
        have h1 : (((a :: t).set 0 (get (a :: t) 0)).set 0 (get (a :: t) 0)) =
            a :: t := by simp [get, List.getD]
        exact h1 ▸ List.Perm.refl _
      | succ j =>
        have hjl : j < t.length := by simpa using hj
        have h1 : ((a :: t).set 0 (get (a :: t) (j + 1))).set (j + 1)
            (get (a :: t) 0) = get t j :: t.set j a := by
          simp [get, List.getD]
        rw [h1]
        exact get_cons_set_perm t j a hjl
    | succ i =>
      cases j with
      | zero =>
        have hil : i < t.length := by simpa using hi
        have h1 : ((a :: t).set (i + 1) (get (a :: t) 0)).set 0
            (get (a :: t) (i + 1)) = get t i :: t.set i a := by
          simp [get, List.getD]
        rw [h1]
        exact get_cons_set_perm t i a hil
      | succ j =>
        have h1 : ((a :: t).set (i + 1) (get (a :: t) (j + 1))).set
            (j + 1) (get (a :: t) (i + 1)) =
            a :: (t.set i (get t j)).set j (get t i) := by
          simp [get, List.getD]
        rw [h1]
        exact (ih i j (by simpa using hi) (by simpa using hj)).cons a

/-- A swap is always a permutation of the original slice. -/
theorem swap_perm (v : List α) (i j : Nat) : (swap v i j).Perm v := by
  unfold swap
  split
  next h => exact swap_perm_aux v i j h.1 h.2
  next => exact List.Perm.refl v

/-! ### Pivot selection (C4) -/

theorem sort2_perm (c : α → α → Ordering) (v : List α) (a b : Nat) :
    (sort2 c v a b).Perm v := by
  unfold sort2
  split
  · exact swap_perm v a b
  · exact List.Perm.refl v

theorem sort3_perm (c : α → α → Ordering) (v : List α) (a b k : Nat) :
    (sort3 c v a b k).Perm v :=
  ((sort2_perm c _ a b).trans (sort2_perm c _ b k)).trans (sort2_perm c v a b)

theorem choose_pivot_perm (c : α → α → Ordering) (v : List α) :
    (choose_pivot c v).1.Perm v := by
  simp only [choose_pivot]
  split
  · refine (sort3_perm c _ _ _ _).trans ?_
    split
    · exact ((sort3_perm c _ _ _ _).trans (sort3_perm c _ _ _ _)).trans
        (sort3_perm c _ _ _ _)
    · exact List.Perm.refl v
  · exact List.Perm.refl v

/-- C4 (amended): for `n ≥ 4`, `choose_pivot` samples around `a = n/4`,
`b = 2*(n/4)`, `c = 3*(n/4)` — the Rust code computes `len / 4 * 2`, not
`n / 2`, and `len / 4 * 3`, not `3*n/4` — applies `sort3 a b c` (preceded,
for `n ≥ 256`, by `sort3 (a-1) a (c+1)`, `sort3 (b-1) b (b+1)`,
`sort3 (c-1) c (c+1)`), permutes the slice, and returns the index
`b = 2*(n/4)`. -/
theorem choose_pivot_spec (c : α → α → Ordering) (v : List α)
    (h : 4 ≤ v.length) :
    (choose_pivot c v).2 = 2 * (v.length / 4) ∧
    (choose_pivot c v).1.Perm v ∧
    (choose_pivot c v).1 =
      sort3 c
        (if 256 ≤ v.length then
          sort3 c
            (sort3 c
              (sort3 c v (v.length / 4 - 1) (v.length / 4)
                (3 * (v.length / 4) + 1))
              (2 * (v.length / 4) - 1) (2 * (v.length / 4))
              (2 * (v.length / 4) + 1))
            (3 * (v.length / 4) - 1) (3 * (v.length / 4))
            (3 * (v.length / 4) + 1)
         else v)
        (v.length / 4) (2 * (v.length / 4)) (3 * (v.length / 4)) := by
  have e1 : v.length / 4 * 1 = v.length / 4 := by ring
  have e2 : v.length / 4 * 2 = 2 * (v.length / 4) := by ring
  have e3 : v.length / 4 * 3 = 3 * (v.length / 4) := by ring
  refine ⟨?_, choose_pivot_perm c v, ?_⟩
  · simp only [choose_pivot, MIN_MEDIAN_OF_MEDIANS]
    rw [if_pos h]
    exact e2
  · simp only [choose_pivot, MIN_MEDIAN_OF_MEDIANS]
    rw [if_pos h]
    show sort3 c _ _ _ _ = _
    rw [e1, e2, e3]

/-- C4 (counterexample): on a slice of length 6 the returned pivot index is
`6 / 4 * 2 = 2`, not `n / 2 = 3` as the claim states. -/
theorem choose_pivot_counterexample :
    (choose_pivot natCmp [0, 1, 2, 3, 4, 5]).2 = 2 ∧
    ([0, 1, 2, 3, 4, 5] : List Nat).length / 2 = 3 ∧
    (choose_pivot natCmp [0, 1, 2, 3, 4, 5]).2 ≠
      ([0, 1, 2, 3, 4, 5] : List Nat).length / 2 := by
  refine ⟨rfl, rfl, ?_⟩
  decide

/-- C4 witness: the amended statement at a concrete slice of length 6. -/
theorem choose_pivot_spec_witness :
    4 ≤ ([3, 1, 2, 0, 5, 4] : List Nat).length ∧
    (choose_pivot natCmp [3, 1, 2, 0, 5, 4]).2 =
      2 * (([3, 1, 2, 0, 5, 4] : List Nat).length / 4) :=
  ⟨by decide, (choose_pivot_spec natCmp [3, 1, 2, 0, 5, 4] (by decide)).1⟩

/-! ### The depth-limit formula (C5) -/

/-- C5 (amended): `sort_by` computes the limit as
`64 - (len as u64).leading_zeros() + 1`; for `1 ≤ n < 2^64` this equals
`floor(log2 n) + 2` (not `floor(log2 n) + 1`), and `n = 0` yields `1` (not
`65`, because `u64::leading_zeros(0) = 64`). -/
theorem sortByLimit_spec :
    sortByLimit 0 = 1 ∧
    ∀ n : Nat, 1 ≤ n → n < 2 ^ 64 → sortByLimit n = Nat.log2 n + 2 := by
  constructor
  · simp [sortByLimit, leading_zeros64]
  · intro n h1 h2
    have hmod : n % 2 ^ 64 = n := Nat.mod_eq_of_lt h2
    unfold sortByLimit leading_zeros64
    rw [hmod]
    have hsle : Nat.size n ≤ 64 := Nat.size_le.mpr h2
    have h3 : Nat.size n ≤ Nat.log2 n + 1 := by
      refine Nat.size_le.mpr ?_
      rw [Nat.log2_eq_log_two]
      exact Nat.lt_pow_succ_log_self (by norm_num) n
    have h4 : Nat.log2 n < Nat.size n := by
      refine Nat.lt_size.mpr ?_
      rw [Nat.log2_eq_log_two]
      exact Nat.pow_log_le_self 2 (by omega)
    omega

/-- C5 (counterexample): at `n = 0` the computed limit is `1`, not the
claimed `65`; at `n = 1` it is `2`, not `floor(log2 1) + 1 = 1`. -/
theorem sortByLimit_counterexample :
    sortByLimit 0 = 1 ∧ sortByLimit 0 ≠ 65 ∧
    sortByLimit 1 = 2 ∧ Nat.log2 1 + 1 = 1 ∧
    sortByLimit 1 ≠ Nat.log2 1 + 1 := by
  have h0 : sortByLimit 0 = 1 := by simp [sortByLimit, leading_zeros64]
  have h1 : sortByLimit 1 = 2 := by
    simp [sortByLimit, leading_zeros64, Nat.mod_eq_of_lt (by norm_num : (1:Nat) < 2 ^ 64)]
  have h2 : Nat.log2 1 + 1 = 1 := by norm_num [Nat.log2]
  exact ⟨h0, by omega, h1, h2, by omega⟩

/-- C5 witness: the amended statement evaluated at `n = 5`. -/
theorem sortByLimit_spec_witness :
    1 ≤ 5 ∧ 5 < 2 ^ 64 ∧ sortByLimit 5 = Nat.log2 5 + 2 :=
  ⟨by norm_num, by norm_num,
    sortByLimit_spec.2 5 (by norm_num) (by norm_num)⟩

/-! ### Further permutation facts about the pure helpers -/

theorem break_patterns_perm (v : List α) : (break_patterns v).Perm v := by
  simp only [break_patterns]
  split
  · split
    · exact (swap_perm _ _ _).trans ((swap_perm _ _ _).trans
        ((swap_perm _ _ _).trans ((swap_perm _ _ _).trans
          ((swap_perm _ _ _).trans (swap_perm _ _ _)))))
    · exact (swap_perm _ _ _).trans (swap_perm _ _ _)
  · exact List.Perm.refl v

/-- Splitting a slice at a pivot slot and reassembling gives it back. -/
theorem take_piv_drop (v : List α) (i : Nat) :
    v.take i ++ ((v.drop i).take 1 ++ v.drop (i + 1)) = v := by
  have h1 : v.drop (i + 1) = (v.drop i).drop 1 := by
    rw [List.drop_drop]
  rw [h1, List.take_append_drop, List.take_append_drop]

theorem take_piv_drop' (v : List α) (i : Nat) :
    (v.take i ++ (v.drop i).take 1) ++ v.drop (i + 1) = v := by
  rw [List.append_assoc, take_piv_drop]

theorem take_middle_eq (w : List α) (l r : Nat) (h : l ≤ r) :
    w.take l ++ (w.take r).drop l = w.take r := by
  conv_lhs => rw [show w.take l = (w.take r).take l by
    rw [List.take_take, Nat.min_eq_left h]]
  rw [List.take_append_drop]

/-! ### Order facts of a total comparator -/

theorem cmp_swap_gt (c : α → α → Ordering) (hc : IsTotalCmp c) (a b : α)
    (h : c a b = .gt) : c b a = .lt := by
  have h2 := hc.symm a b
  rw [h] at h2
  exact h2.symm

theorem cmp_swap_lt (c : α → α → Ordering) (hc : IsTotalCmp c) (a b : α)
    (h : c a b = .lt) : c b a = .gt := by
  have h2 := hc.symm a b
  rw [h] at h2
  exact h2.symm

theorem cmp_swap_eq (c : α → α → Ordering) (hc : IsTotalCmp c) (a b : α)
    (h : c a b = .eq) : c b a = .eq := by
  have h2 := hc.symm a b
  rw [h] at h2
  exact h2.symm

theorem cmp_swap_le (c : α → α → Ordering) (hc : IsTotalCmp c) (a b : α)
    (h : c a b ≠ .gt) : c b a ≠ .lt := by
  intro h2
  have h3 := hc.symm b a
  rw [h2] at h3
  exact h h3.symm

theorem cmp_swap_ge (c : α → α → Ordering) (hc : IsTotalCmp c) (a b : α)
    (h : c a b ≠ .lt) : c b a ≠ .gt := by
  intro h2
  have h3 := hc.symm b a
  rw [h2] at h3
  exact h h3.symm

theorem cmp_ge_trans (c : α → α → Ordering) (hc : IsTotalCmp c) (a b k : α)
    (h1 : c a b ≠ .lt) (h2 : c b k ≠ .lt) : c a k ≠ .lt :=
  cmp_swap_le c hc k a
    (hc.le_trans k b a (cmp_swap_ge c hc b k h2) (cmp_swap_ge c hc a b h1))

/-! ### List splitting utilities -/

theorem set_eq_tcd (v : List α) (n : Nat) (a : α) (h : n < v.length) :
    v.set n a = v.take n ++ a :: v.drop (n + 1) := by
  rw [List.set_eq_take_append_cons_drop, if_pos h]

theorem take_set_succ (v : List α) (n : Nat) (a : α) (h : n < v.length) :
    (v.set n a).take (n + 1) = v.take n ++ [a] := by
  rw [set_eq_tcd v n a h]
  rw [show n + 1 = (v.take n).length + 1 from by rw [List.length_take]; omega]
  rw [List.take_append]
  rfl

theorem drop_set_succ (v : List α) (n m : Nat) (a : α) (h : n < m) :
    (v.set n a).drop m = v.drop m :=
  List.drop_set_of_lt a v h

theorem drop_get_cons (v : List α) (i : Nat) (h : i < v.length) :
    v.drop i = get v i :: v.drop (i + 1) := by
  rw [get_eq_getElem v i h]
  exact List.drop_eq_getElem_cons h

theorem mem_take_get (v : List α) (b : Nat) (x : α) (h : x ∈ v.take b) :
    ∃ j, j < b ∧ j < v.length ∧ x = get v j := by
  obtain ⟨i, hi, hx⟩ := List.getElem_of_mem h
  have hib : i < b := by
    have := hi
    rw [List.length_take] at this
    omega
  have hiv : i < v.length := by
    have := hi
    rw [List.length_take] at this
    omega
  refine ⟨i, hib, hiv, ?_⟩
  rw [get_eq_getElem v i hiv, ← hx, List.getElem_take]

theorem mem_drop_get (v : List α) (b : Nat) (x : α) (h : x ∈ v.drop b) :
    ∃ j, b ≤ j ∧ j < v.length ∧ x = get v j := by
  obtain ⟨i, hi, hx⟩ := List.getElem_of_mem h
  have hiv : b + i < v.length := by
    have := hi
    rw [List.length_drop] at this
    omega
  refine ⟨b + i, by omega, hiv, ?_⟩
  rw [get_eq_getElem v (b + i) hiv, ← hx, List.getElem_drop]

/-- Gluing a sorted prefix, a middle element and a sorted suffix. -/
theorem ascending_glue (c : α → α → Ordering) (L R : List α) (p : α)
    (hL : Ascending c L) (hR : Ascending c R)
    (h1 : ∀ x ∈ L, c x p ≠ .gt) (h2 : ∀ y ∈ R.head?, c p y ≠ .gt) :
    Ascending c (L ++ p :: R) := by
  rw [Ascending, List.chain'_append]
  refine ⟨hL, ?_, ?_⟩
  · rw [List.chain'_cons']
    exact ⟨h2, hR⟩
  · intro x hx y hy
    have hy2 : y = p := by
      simp at hy
      exact hy.symm
    subst hy2
    exact h1 x (List.mem_of_mem_getLast? hx)

/-! ### Correctness of `insert_head` and the insertion sorts -/

theorem insert_head_go_spec (c : α → α → Ordering) (hc : IsTotalCmp c)
    (tmp : α) :
    ∀ fuel (v : List α) dest i, dest + 1 = i → 1 ≤ dest → i ≤ v.length →
      v.length ≤ fuel + i →
      Ascending c (v.take dest ++ v.drop i) →
      (∀ x ∈ v.take dest, c tmp x = .gt) →
      Ascending c (insert_head_go c tmp fuel v dest i) ∧
      (insert_head_go c tmp fuel v dest i).Perm
        (v.take dest ++ tmp :: v.drop i) := by
  intro fuel
  induction fuel with
  | zero =>
    intro v dest i hd h1 hil hfl hasc hpre
    unfold insert_head_go
    have hi : i = v.length := by omega
    have hdrop : v.drop i = ([] : List α) := List.drop_eq_nil_of_le (by omega)
    rw [set_eq_tcd v dest tmp (by omega), hd, hdrop]
    refine ⟨?_, List.Perm.refl _⟩
    rw [hdrop] at hasc
    rw [List.append_nil] at hasc
    refine ascending_glue c _ _ tmp hasc List.chain'_nil ?_ ?_
    · intro x hx
      have h2 := cmp_swap_gt c hc tmp x (hpre x hx)
      rw [h2]
      decide
    · intro y hy
      simp at hy
  | succ fuel ih =>
    intro v dest i hd h1 hil hfl hasc hpre
    unfold insert_head_go
    by_cases hi : i < v.length
    · rw [if_pos hi]
      by_cases hcm : c tmp (get v i) ≠ .gt
      · rw [if_pos hcm]
        rw [set_eq_tcd v dest tmp (by omega), hd]
        refine ⟨?_, List.Perm.refl _⟩
        rw [Ascending, List.chain'_append] at hasc
        refine ascending_glue c _ _ tmp hasc.1 hasc.2.1 ?_ ?_
        · intro x hx
          have h2 := cmp_swap_gt c hc tmp x (hpre x hx)
          rw [h2]
          decide
        · intro y hy
          rw [drop_get_cons v i hi] at hy
          simp at hy
          subst hy
          exact hcm
      · rw [if_neg hcm]
        have hgt := not_not.mp hcm
        have hdi : i - 1 = dest := by omega
        rw [hdi]
        have htk : (v.set dest (get v i)).take i = v.take dest ++ [get v i] := by
          have h0 := take_set_succ v dest (get v i) (by omega)
          rw [hd] at h0
          exact h0
        have hdr : (v.set dest (get v i)).drop (i + 1) = v.drop (i + 1) :=
          drop_set_succ v dest (i + 1) (get v i) (by omega)
        have hih := ih (v.set dest (get v i)) i (i + 1) rfl (by omega)
          (by rw [List.length_set]; omega) (by rw [List.length_set]; omega)
          (by
            rw [htk, hdr, List.append_assoc]
            rw [drop_get_cons v i hi] at hasc
            exact hasc)
          (by
            intro x hx
            rw [htk] at hx
            rcases List.mem_append.mp hx with h | h
            · exact hpre x h
            · have hx2 : x = get v i := by simpa using h
              rw [hx2]
              exact hgt)
        refine ⟨hih.1, hih.2.trans ?_⟩
        rw [htk, hdr, drop_get_cons v i hi, List.append_assoc]
        refine List.Perm.append_left (v.take dest) ?_
        exact List.Perm.swap tmp (get v i) (v.drop (i + 1))
    · rw [if_neg hi]
      have hdrop : v.drop i = ([] : List α) := List.drop_eq_nil_of_le (by omega)
      rw [set_eq_tcd v dest tmp (by omega), hd, hdrop]
      refine ⟨?_, List.Perm.refl _⟩
      rw [hdrop, List.append_nil] at hasc
      refine ascending_glue c _ _ tmp hasc List.chain'_nil ?_ ?_
      · intro x hx
        have h2 := cmp_swap_gt c hc tmp x (hpre x hx)
        rw [h2]
        decide
      · intro y hy
        simp at hy

theorem insert_head_spec (c : α → α → Ordering) (hc : IsTotalCmp c)
    (v : List α) (h : Ascending c (v.drop 1)) :
    Ascending c (insert_head c v).1 ∧ (insert_head c v).1.Perm v := by
  unfold insert_head
  by_cases hcond : 2 ≤ v.length ∧ c (get v 0) (get v 1) = .gt
  · rw [if_pos hcond]
    obtain ⟨h2, hgt⟩ := hcond
    have htk : (v.set 0 (get v 1)).take 1 = [get v 1] := by
      have := take_set_succ v 0 (get v 1) (by omega)
      simpa using this
    have hdr : (v.set 0 (get v 1)).drop 2 = v.drop 2 :=
      drop_set_succ v 0 2 (get v 1) (by omega)
    have hspec := insert_head_go_spec c hc (get v 0) v.length
      (v.set 0 (get v 1)) 1 2 rfl (Nat.le_refl 1)
      (by rw [List.length_set]; omega) (by rw [List.length_set]; omega)
      (by
        rw [htk, hdr]
        rw [drop_get_cons v 1 (by omega)] at h
        exact h)
      (by
        intro x hx
        rw [htk] at hx
        have hx2 : x = get v 1 := by simpa using hx
        rw [hx2]
        exact hgt)
    refine ⟨hspec.1, hspec.2.trans ?_⟩
    rw [htk, hdr]
    have hv : v = get v 0 :: get v 1 :: v.drop 2 := by
      conv_lhs => rw [← List.take_append_drop 0 v]
      rw [drop_get_cons v 0 (by omega), drop_get_cons v 1 (by omega)]
      rfl
    conv_rhs => rw [hv]
    exact List.Perm.swap (get v 0) (get v 1) (v.drop 2)
  · rw [if_neg hcond]
    refine ⟨?_, List.Perm.refl v⟩
    by_cases h2 : 2 ≤ v.length
    · have hng : c (get v 0) (get v 1) ≠ .gt := by
        intro hgt
        exact hcond ⟨h2, hgt⟩
      have hv : v = get v 0 :: v.drop 1 := by
        conv_lhs => rw [← List.take_append_drop 0 v]
        rw [drop_get_cons v 0 (by omega)]
        rfl
      rw [hv, Ascending, List.chain'_cons']
      refine ⟨?_, h⟩
      intro y hy
      rw [drop_get_cons v 1 (by omega)] at hy
      simp at hy
      subst hy
      exact hng
    · match v with
      | [] => exact List.chain'_nil
      | [a] => exact List.chain'_singleton a
      | a :: b :: t => simp at h2

theorem ascending_short (c : α → α → Ordering) (l : List α)
    (h : l.length ≤ 1) : Ascending c l := by
  match l with
  | [] => exact List.chain'_nil
  | [a] => exact List.chain'_singleton a
  | a :: b :: l => simp at h

theorem insert_head_at_spec (c : α → α → Ordering) (hc : IsTotalCmp c)
    (i : Nat) (v : List α) (hiv : i ≤ v.length)
    (h : Ascending c (v.drop (i + 1))) :
    Ascending c ((insert_head_at c i v).1.drop i) ∧
    (insert_head_at c i v).1.Perm v ∧
    (insert_head_at c i v).1.take i = v.take i ∧
    (insert_head_at c i v).1.length = v.length := by
  unfold insert_head_at
  dsimp only
  have hdd : (v.drop i).drop 1 = v.drop (i + 1) := by
    rw [List.drop_drop, Nat.add_comm]
  have hspec := insert_head_spec c hc (v.drop i) (by rw [hdd]; exact h)
  have htkl : (v.take i).length = i := by
    rw [List.length_take]
    omega
  have hperm : (v.take i ++ (insert_head c (v.drop i)).1).Perm v := by
    refine (List.Perm.append_left _ hspec.2).trans ?_
    rw [List.take_append_drop]
  refine ⟨?_, hperm, ?_, ?_⟩
  · rw [List.drop_append_of_le_length (by omega)]
    rw [List.drop_eq_nil_of_le (by omega), List.nil_append]
    exact hspec.1
  · rw [List.take_append_of_le_length (by omega), List.take_take]
    simp
  · exact hperm.length_eq

theorem insertion_sort_go_spec (c : α → α → Ordering) (hc : IsTotalCmp c) :
    ∀ i (v : List α), i + 2 ≤ v.length →
      Ascending c (v.drop (i + 1)) →
      Ascending c (insertion_sort_go c i v) ∧
      (insertion_sort_go c i v).Perm v := by
  intro i
  induction i with
  | zero =>
    intro v hlen h
    unfold insertion_sort_go
    have hs := insert_head_at_spec c hc 0 v (by omega) h
    constructor
    · have h2 := hs.1
      simpa using h2
    · exact hs.2.1
  | succ i ih =>
    intro v hlen h
    unfold insertion_sort_go
    have hs := insert_head_at_spec c hc (i + 1) v (by omega) h
    have hrec := ih (insert_head_at c (i + 1) v).1
      (by rw [hs.2.2.2]; omega) hs.1
    exact ⟨hrec.1, hrec.2.trans hs.2.1⟩

theorem insertion_sort_spec (c : α → α → Ordering) (hc : IsTotalCmp c)
    (v : List α) :
    Ascending c (insertion_sort c v) ∧ (insertion_sort c v).Perm v := by
  unfold insertion_sort
  by_cases h2 : 2 ≤ v.length
  · rw [if_pos h2]
    refine insertion_sort_go_spec c hc (v.length - 2) v (by omega) ?_
    exact ascending_short c _ (by rw [List.length_drop]; omega)
  · rw [if_neg h2]
    exact ⟨ascending_short c v (by omega), List.Perm.refl v⟩

theorem partial_insertion_sort_go_spec (c : α → α → Ordering)
    (hc : IsTotalCmp c) :
    ∀ i k (v : List α), i + 2 ≤ v.length →
      Ascending c (v.drop (i + 1)) →
      ((partial_insertion_sort_go c i k v).2 = true →
        Ascending c (partial_insertion_sort_go c i k v).1) ∧
      (partial_insertion_sort_go c i k v).1.Perm v := by
  intro i
  induction i with
  | zero =>
    intro k v hlen h
    unfold partial_insertion_sort_go
    dsimp only
    have hs := insert_head_at_spec c hc 0 v (by omega) h
    split
    · exact ⟨fun hb => absurd hb Bool.false_ne_true, hs.2.1⟩
    · refine ⟨fun _ => ?_, hs.2.1⟩
      have h2 := hs.1
      simpa using h2
  | succ i ih =>
    intro k v hlen h
    unfold partial_insertion_sort_go
    dsimp only
    have hs := insert_head_at_spec c hc (i + 1) v (by omega) h
    split
    · split
      · exact ⟨fun hb => absurd hb Bool.false_ne_true, hs.2.1⟩
      · have hrec := ih (k + 1) (insert_head_at c (i + 1) v).1
          (by rw [hs.2.2.2]; omega) hs.1
        exact ⟨hrec.1, hrec.2.trans hs.2.1⟩
    · have hrec := ih k (insert_head_at c (i + 1) v).1
        (by rw [hs.2.2.2]; omega) hs.1
      exact ⟨hrec.1, hrec.2.trans hs.2.1⟩

theorem partial_insertion_sort_spec (c : α → α → Ordering)
    (hc : IsTotalCmp c) (v : List α) :
    ((partial_insertion_sort c v).2 = true →
      Ascending c (partial_insertion_sort c v).1) ∧
    (partial_insertion_sort c v).1.Perm v := by
  unfold partial_insertion_sort
  by_cases h2 : 2 ≤ v.length
  · rw [if_pos h2]
    exact partial_insertion_sort_go_spec c hc (v.length - 2) 0 v (by omega)
      (ascending_short c _ (by rw [List.length_drop]; omega))
  · rw [if_neg h2]
    exact ⟨fun _ => ascending_short c v (by omega), List.Perm.refl v⟩

/-! ### Heap vocabulary: swap reads, reflexivity, subtree facts -/

theorem get_swap_right (v : List α) (i j : Nat) (hi : i < v.length)
    (hj : j < v.length) : get (swap v i j) j = get v i := by
  unfold swap
  rw [if_pos ⟨hi, hj⟩]
  exact get_set_self _ j _ (by simpa using hj)

theorem get_swap_left (v : List α) (i j : Nat) (hi : i < v.length)
    (hj : j < v.length) : get (swap v i j) i = get v j := by
  unfold swap
  rw [if_pos ⟨hi, hj⟩]
  by_cases hij : i = j
  · subst hij
    exact get_set_self _ i _ (by simpa using hi)
  · rw [get_set_ne _ j i _ (Ne.symm hij)]
    exact get_set_self _ i _ (by simpa using hi)

theorem get_swap_other (v : List α) (i j k : Nat) (hki : k ≠ i) (hkj : k ≠ j) :
    get (swap v i j) k = get v k := by
  unfold swap
  split
  · rw [get_set_ne _ j k _ (Ne.symm hkj), get_set_ne _ i k _ (Ne.symm hki)]
  · rfl

theorem cmp_refl_ne_lt (c : α → α → Ordering) (hc : IsTotalCmp c) (a : α) :
    c a a ≠ .lt := by
  intro h
  have h2 := hc.symm a a
  rw [h] at h2
  exact absurd h2 (by decide)

theorem cmp_refl_ne_gt (c : α → α → Ordering) (hc : IsTotalCmp c) (a : α) :
    c a a ≠ .gt := by
  intro h
  have h2 := hc.symm a a
  rw [h] at h2
  exact absurd h2 (by decide)

theorem get_mem_take (v : List α) (b j : Nat) (hjb : j < b)
    (hjv : j < v.length) : get v j ∈ v.take b := by
  rw [get_eq_getElem v j hjv]
  refine List.mem_iff_getElem.mpr ⟨j, by rw [List.length_take]; omega, ?_⟩
  simp

theorem drop_eq_of_get_eq (v w : List α) (m : Nat) (hlen : v.length = w.length)
    (h : ∀ i, m ≤ i → i < v.length → get v i = get w i) :
    v.drop m = w.drop m := by
  apply List.ext_getElem
  · rw [List.length_drop, List.length_drop, hlen]
  · intro i h1 h2
    rw [List.getElem_drop, List.getElem_drop]
    have hi : m + i < v.length := by
      rw [List.length_drop] at h1
      omega
    have h3 := h (m + i) (by omega) hi
    rw [get_eq_getElem _ _ hi, get_eq_getElem _ _ (by omega)] at h3
    exact h3

theorem isDesc_eq (x j : Nat) :
    isDesc x j = if j ≤ x then decide (j = x) else isDesc x ((j - 1) / 2) := by
  rw [isDesc]

theorem isDesc_self (x : Nat) : isDesc x x = true := by
  rw [isDesc_eq, if_pos (le_refl x)]
  simp

theorem isDesc_of_lt (x j : Nat) (h : j < x) : isDesc x j = false := by
  rw [isDesc_eq, if_pos (by omega)]
  simp
  omega

theorem isDesc_le (x j : Nat) (h : isDesc x j = true) : x ≤ j := by
  by_contra hlt
  rw [isDesc_of_lt x j (by omega)] at h
  exact Bool.false_ne_true h

theorem isDesc_step (x j : Nat) (h : x < j) :
    isDesc x j = isDesc x ((j - 1) / 2) := by
  rw [isDesc_eq, if_neg (by omega)]

theorem isDesc_parent (k j : Nat) (h : isDesc k j = true) (hne : j ≠ k) :
    isDesc k ((j - 1) / 2) = true := by
  have hle := isDesc_le k j h
  rw [isDesc_step k j (by omega)] at h
  exact h

theorem isDesc_trans_child (x k : Nat) (hx : (k - 1) / 2 = x) (hxk : x < k) :
    ∀ j, isDesc k j = true → isDesc x j = true := by
  have H : ∀ n j, j < n → isDesc k j = true → isDesc x j = true := by
    intro n
    induction n with
    | zero => exact fun j hj _ => absurd hj (Nat.not_lt_zero j)
    | succ n ih =>
      intro j hjn h
      by_cases hjk : j ≤ k
      · have hj : j = k := by
          have := isDesc_le k j h
          omega
        subst hj
        rw [isDesc_step x j hxk, hx]
        exact isDesc_self x
      · rw [isDesc_step k j (by omega)] at h
        have h2 := ih ((j - 1) / 2) (by omega) h
        rw [isDesc_step x j (by omega)]
        exact h2
  exact fun j => H (j + 1) j (by omega)

theorem isDesc_child_false (x k j : Nat) (hx : (k - 1) / 2 = x) (hxk : x < k)
    (h : isDesc x j = false) : isDesc k j = false := by
  by_contra h2
  rw [Bool.not_eq_false] at h2
  rw [isDesc_trans_child x k hx hxk j h2] at h
  exact absurd h (by decide)

/-- Full specification of `sift_down` under a total comparator: it preserves
length and multiset, leaves every slot outside the subtree of `x` (and every
slot past `bound`) untouched, restores the heap order at `x` when all deeper
parents already satisfy it, and places at `x` an element dominated by any `t`
dominating `v[x]` and the children of `x`. -/
theorem sift_down_spec (c : α → α → Ordering) (hc : IsTotalCmp c) :
    ∀ fuel bound (v : List α) x, bound ≤ fuel + x + 1 → bound ≤ v.length →
      (sift_down c fuel bound v x).length = v.length ∧
      (sift_down c fuel bound v x).Perm v ∧
      (∀ i, isDesc x i = false ∨ bound ≤ i →
        get (sift_down c fuel bound v x) i = get v i) ∧
      (HeapFrom c v bound (x + 1) →
        HeapFrom c (sift_down c fuel bound v x) bound x) ∧
      (∀ t, c t (get v x) ≠ .lt →
        (2 * x + 1 < bound → c t (get v (2 * x + 1)) ≠ .lt) →
        (2 * x + 2 < bound → c t (get v (2 * x + 2)) ≠ .lt) →
        c t (get (sift_down c fuel bound v x) x) ≠ .lt) := by
  intro fuel
  induction fuel with
  | zero =>
    intro bound v x hfuel hbl
    refine ⟨rfl, List.Perm.refl v, fun i _ => rfl, ?_, fun t h1 _ _ => h1⟩
    intro hH j hj0 hjb hp
    by_cases hpx : x + 1 ≤ (j - 1) / 2
    · exact hH j hj0 hjb hpx
    · exfalso
      omega
  | succ fuel ih =>
    intro bound v x hfuel hbl
    simp only [sift_down]
    have main : ∀ ch (w : List α), ch = 2 * x + 1 ∨ ch = 2 * x + 2 →
        (ch = 2 * x + 2 → 2 * x + 2 < bound) →
        (∀ j, j = 2 * x + 1 ∨ j = 2 * x + 2 → j < bound →
          c (get v ch) (get v j) ≠ .lt) →
        w = (if bound ≤ ch ∨ c (get v x) (get v ch) ≠ .lt then v
             else sift_down c fuel bound (swap v x ch) ch) →
        w.length = v.length ∧ w.Perm v ∧
        (∀ i, isDesc x i = false ∨ bound ≤ i → get w i = get v i) ∧
        (HeapFrom c v bound (x + 1) → HeapFrom c w bound x) ∧
        (∀ t, c t (get v x) ≠ .lt →
          (2 * x + 1 < bound → c t (get v (2 * x + 1)) ≠ .lt) →
          (2 * x + 2 < bound → c t (get v (2 * x + 2)) ≠ .lt) →
          c t (get w x) ≠ .lt) := by
      intro ch w hch hchb hdom hw
      by_cases hret : bound ≤ ch ∨ c (get v x) (get v ch) ≠ .lt
      · rw [if_pos hret] at hw
        subst w
        refine ⟨rfl, List.Perm.refl v, fun i _ => rfl, ?_, fun t h1 _ _ => h1⟩
        intro hH j hj0 hjb hp
        by_cases hpx : x + 1 ≤ (j - 1) / 2
        · exact hH j hj0 hjb hpx
        · have hj12 : j = 2 * x + 1 ∨ j = 2 * x + 2 := by omega
          have hxch : c (get v x) (get v ch) ≠ .lt := by
            rcases hret with hb | hgood
            · exfalso
              rcases hch with h' | h'
              · omega
              · have := hchb h'
                omega
            · exact hgood
          rw [show (j - 1) / 2 = x from by omega]
          exact cmp_ge_trans c hc _ _ _ hxch (hdom j hj12 hjb)
      · rw [if_neg hret] at hw
        push_neg at hret
        obtain ⟨hbch, hlt⟩ := hret
        subst w
        have hxch : x < ch := by rcases hch with h' | h' <;> omega
        have hchpar : (ch - 1) / 2 = x := by rcases hch with h' | h' <;> omega
        have hchlen : ch < v.length := by omega
        have hxlen : x < v.length := by omega
        obtain ⟨ihlen, ihperm, ihfroz, ihheap, ihdom⟩ :=
          ih bound (swap v x ch) ch (by omega)
            (by rw [length_swap]; omega)
        have hwx : get (sift_down c fuel bound (swap v x ch) ch) x =
            get v ch := by
          rw [ihfroz x (Or.inl (isDesc_of_lt ch x hxch))]
          exact get_swap_left v x ch hxlen hchlen
        refine ⟨?_, ?_, ?_, ?_, ?_⟩
        · rw [ihlen, length_swap]
        · exact ihperm.trans (swap_perm v x ch)
        · intro i hi
          have hich : isDesc ch i = false ∨ bound ≤ i := by
            rcases hi with hi | hi
            · exact Or.inl (isDesc_child_false x ch i hchpar hxch hi)
            · exact Or.inr hi
          rw [ihfroz i hich]
          have hix : i ≠ x := by
            rcases hi with hi | hi
            · intro he
              rw [he, isDesc_self] at hi
              exact absurd hi (by decide)
            · omega
          have hic : i ≠ ch := by
            rcases hi with hi | hi
            · intro he
              rw [he,
                isDesc_trans_child x ch hchpar hxch ch (isDesc_self ch)] at hi
              exact absurd hi (by decide)
            · omega
          exact get_swap_other v x ch i hix hic
        · intro hH
          have hHs : HeapFrom c (swap v x ch) bound (ch + 1) := by
            intro j hj0 hjb hp
            have h1 : get (swap v x ch) ((j - 1) / 2) = get v ((j - 1) / 2) :=
              get_swap_other v x ch _ (by omega) (by omega)
            have h2 : get (swap v x ch) j = get v j :=
              get_swap_other v x ch j (by omega) (by omega)
            rw [h1, h2]
            exact hH j hj0 hjb (by omega)
          have hW := ihheap hHs
          intro j hj0 hjb hp
          by_cases hpch : ch ≤ (j - 1) / 2
          · exact hW j hj0 hjb hpch
          · by_cases hpx : (j - 1) / 2 = x
            · have hj12 : j = 2 * x + 1 ∨ j = 2 * x + 2 := by omega
              rw [hpx, hwx]
              by_cases hjch : j = ch
              · rw [hjch]
                refine ihdom (get v ch) ?_ ?_ ?_
                · rw [get_swap_right v x ch hxlen hchlen]
                  rw [cmp_swap_lt c hc _ _ hlt]
                  decide
                · intro hb1
                  rw [get_swap_other v x ch (2 * ch + 1) (by omega) (by omega)]
                  have h5 := hH (2 * ch + 1) (by omega) hb1 (by omega)
                  rw [show (2 * ch + 1 - 1) / 2 = ch from by omega] at h5
                  exact h5
                · intro hb2
                  rw [get_swap_other v x ch (2 * ch + 2) (by omega) (by omega)]
                  have h5 := hH (2 * ch + 2) (by omega) hb2 (by omega)
                  rw [show (2 * ch + 2 - 1) / 2 = ch from by omega] at h5
                  exact h5
              · have hjf : get (sift_down c fuel bound (swap v x ch) ch) j =
                    get v j := by
                  have hdesc : isDesc ch j = false := by
                    rcases hj12 with hj' | hj'
                    · have hch' : ch = 2 * x + 2 := by
                        rcases hch with h' | h' <;> omega
                      rw [hj', hch']
                      exact isDesc_of_lt _ _ (by omega)
                    · have hch' : ch = 2 * x + 1 := by
                        rcases hch with h' | h' <;> omega
                      rw [hj', hch', isDesc_step _ _ (by omega)]
                      rw [show (2 * x + 2 - 1) / 2 = x from by omega]
                      exact isDesc_of_lt _ _ (by omega)
                  rw [ihfroz j (Or.inl hdesc)]
                  exact get_swap_other v x ch j (by omega) hjch
                rw [hjf]
                exact hdom j hj12 hjb
            · have h1 : get (sift_down c fuel bound (swap v x ch) ch)
                  ((j - 1) / 2) = get v ((j - 1) / 2) := by
                rw [ihfroz _ (Or.inl (isDesc_of_lt ch _ (by omega)))]
                exact get_swap_other v x ch _ (by omega) (by omega)
              have h2 : get (sift_down c fuel bound (swap v x ch) ch) j =
                  get v j := by
                have hdesc : isDesc ch j = false := by
                  by_contra hd
                  rw [Bool.not_eq_false] at hd
                  have hjne : j ≠ ch := by omega
                  have h6 := isDesc_parent ch j hd hjne
                  have h7 := isDesc_le ch _ h6
                  omega
                rw [ihfroz j (Or.inl hdesc)]
                exact get_swap_other v x ch j (by omega) (by omega)
              rw [h1, h2]
              exact hH j hj0 hjb (by omega)
        · intro t h1 h2 h3
          rw [hwx]
          rcases hch with hch' | hch'
          · rw [hch']
            exact h2 (by omega)
          · rw [hch']
            exact h3 (by omega)
    by_cases hsel : 2 * x + 2 < bound ∧
        c (get v (2 * x + 1)) (get v (2 * x + 2)) = Ordering.lt
    · rw [if_pos hsel]
      refine main (2 * x + 2) _ (Or.inr rfl) (fun _ => hsel.1) ?_ rfl
      intro j hj hjb
      rcases hj with hj | hj
      · rw [hj, cmp_swap_lt c hc _ _ hsel.2]
        decide
      · rw [hj]
        exact cmp_refl_ne_lt c hc _
    · rw [if_neg hsel]
      refine main (2 * x + 1) _ (Or.inl rfl) (fun h => by omega) ?_ rfl
      intro j hj hjb
      rcases hj with hj | hj
      · rw [hj]
        exact cmp_refl_ne_lt c hc _
      · rw [hj] at hjb ⊢
        intro hl
        exact hsel ⟨hjb, hl⟩

theorem heap_root_ge (c : α → α → Ordering) (hc : IsTotalCmp c)
    (v : List α) (b : Nat) (hH : HeapFrom c v b 0) :
    ∀ j, j < b → c (get v 0) (get v j) ≠ .lt := by
  have H : ∀ n j, j < n → j < b → c (get v 0) (get v j) ≠ .lt := by
    intro n
    induction n with
    | zero => exact fun j hj _ => absurd hj (Nat.not_lt_zero j)
    | succ n ih =>
      intro j hjn hjb
      by_cases hj0 : j = 0
      · rw [hj0]
        exact cmp_refl_ne_lt c hc _
      · exact cmp_ge_trans c hc _ _ _ (ih ((j - 1) / 2) (by omega) (by omega))
          (hH j (by omega) hjb (by omega))
  exact fun j hjb => H (j + 1) j (by omega) hjb

theorem heapsort_build_spec (c : α → α → Ordering) (hc : IsTotalCmp c) :
    ∀ i (v : List α), HeapFrom c v v.length (i + 1) →
      HeapFrom c (heapsort_build c i v) v.length 0 ∧
      (heapsort_build c i v).Perm v ∧
      (heapsort_build c i v).length = v.length := by
  intro i
  induction i with
  | zero =>
    intro v hH
    simp only [heapsort_build]
    obtain ⟨slen, sperm, _, sheap, _⟩ :=
      sift_down_spec c hc v.length v.length v 0 (by omega) (le_refl _)
    exact ⟨sheap hH, sperm, slen⟩
  | succ i ih =>
    intro v hH
    simp only [heapsort_build]
    obtain ⟨slen, sperm, _, sheap, _⟩ :=
      sift_down_spec c hc v.length v.length v (i + 1) (by omega) (le_refl _)
    have hH2 : HeapFrom c (sift_down c v.length v.length v (i + 1))
        (sift_down c v.length v.length v (i + 1)).length (i + 1) := by
      rw [slen]
      exact sheap hH
    obtain ⟨ra, rb, rc⟩ := ih _ hH2
    rw [slen] at ra rc
    exact ⟨ra, rb.trans sperm, rc⟩

theorem heapsort_pop_spec (c : α → α → Ordering) (hc : IsTotalCmp c) :
    ∀ k (v : List α), k + 1 ≤ v.length →
      HeapFrom c v (k + 1) 0 →
      Ascending c (v.drop (k + 1)) →
      (∀ x ∈ v.take (k + 1), ∀ y ∈ v.drop (k + 1), c x y ≠ .gt) →
      Ascending c (heapsort_pop c k v) ∧ (heapsort_pop c k v).Perm v := by
  intro k
  induction k with
  | zero =>
    intro v hkn hH hasc hbnd
    simp only [heapsort_pop]
    have hv : v = get v 0 :: v.drop 1 := by
      have h1 := drop_get_cons v 0 (by omega)
      rw [List.drop_zero] at h1
      exact h1
    constructor
    · rw [hv]
      refine List.chain'_cons'.mpr ⟨?_, hasc⟩
      intro y hy
      exact hbnd (get v 0) (get_mem_take v 1 0 (by omega) (by omega)) y
        (List.mem_of_mem_head? hy)
    · exact List.Perm.refl v
  | succ k ih =>
    intro v hkn hH hasc hbnd
    simp only [heapsort_pop]
    have hlu : (swap v 0 (k + 1)).length = v.length := length_swap v 0 (k + 1)
    obtain ⟨slen, sperm, sfroz, sheap, _⟩ :=
      sift_down_spec c hc v.length (k + 1) (swap v 0 (k + 1)) 0 (by omega)
        (by rw [hlu]; omega)
    have hn : (sift_down c v.length (k + 1) (swap v 0 (k + 1)) 0).length =
        v.length := by
      rw [slen, hlu]
    have hu1 : HeapFrom c (swap v 0 (k + 1)) (k + 1) 1 := by
      intro j hj0 hjb hp
      have e1 : get (swap v 0 (k + 1)) ((j - 1) / 2) = get v ((j - 1) / 2) :=
        get_swap_other v 0 (k + 1) _ (by omega) (by omega)
      have e2 : get (swap v 0 (k + 1)) j = get v j :=
        get_swap_other v 0 (k + 1) j (by omega) (by omega)
      rw [e1, e2]
      exact hH j hj0 (by omega) (by omega)
    have hW := sheap hu1
    have hfr : ∀ i, k + 2 ≤ i →
        get (sift_down c v.length (k + 1) (swap v 0 (k + 1)) 0) i =
          get v i := by
      intro i hi
      rw [sfroz i (Or.inr (by omega))]
      exact get_swap_other v 0 (k + 1) i (by omega) (by omega)
    have hwk1 : get (sift_down c v.length (k + 1) (swap v 0 (k + 1)) 0)
        (k + 1) = get v 0 := by
      rw [sfroz (k + 1) (Or.inr (le_refl _))]
      exact get_swap_right v 0 (k + 1) (by omega) (by omega)
    have hdropeq : (sift_down c v.length (k + 1) (swap v 0 (k + 1)) 0).drop
        (k + 2) = v.drop (k + 2) :=
      drop_eq_of_get_eq _ v (k + 2) hn (fun i h1 _ => hfr i h1)
    have hdrop : (sift_down c v.length (k + 1) (swap v 0 (k + 1)) 0).drop
        (k + 1) = get v 0 :: v.drop (k + 2) := by
      rw [drop_get_cons _ (k + 1) (by rw [hn]; omega)]
      rw [hwk1, hdropeq]
    have hrootge := heap_root_ge c hc v (k + 2) hH
    have hasc' : Ascending c
        ((sift_down c v.length (k + 1) (swap v 0 (k + 1)) 0).drop (k + 1)) := by
      rw [hdrop]
      refine List.chain'_cons'.mpr ⟨?_, hasc⟩
      intro y hy
      exact hbnd (get v 0) (get_mem_take v (k + 2) 0 (by omega) (by omega)) y
        (List.mem_of_mem_head? hy)
    have hxmem : ∀ x ∈ (sift_down c v.length (k + 1)
        (swap v 0 (k + 1)) 0).take (k + 1),
        ∃ m, m < k + 2 ∧ m < v.length ∧ x = get v m := by
      intro x hx
      have hdeq : (sift_down c v.length (k + 1) (swap v 0 (k + 1)) 0).drop
          (k + 1) = (swap v 0 (k + 1)).drop (k + 1) := by
        rw [hdrop, drop_get_cons (swap v 0 (k + 1)) (k + 1) (by omega)]
        have e1 : get (swap v 0 (k + 1)) (k + 1) = get v 0 :=
          get_swap_right v 0 (k + 1) (by omega) (by omega)
        have e2 : (swap v 0 (k + 1)).drop (k + 2) = v.drop (k + 2) :=
          drop_eq_of_get_eq _ v (k + 2) hlu
            (fun i h1 _ => get_swap_other v 0 (k + 1) i (by omega) (by omega))
        rw [e1, e2]
      have hperm2 : ((sift_down c v.length (k + 1)
          (swap v 0 (k + 1)) 0).take (k + 1) ++
          (sift_down c v.length (k + 1) (swap v 0 (k + 1)) 0).drop
            (k + 1)).Perm
          ((swap v 0 (k + 1)).take (k + 1) ++
          (swap v 0 (k + 1)).drop (k + 1)) := by
        rw [List.take_append_drop, List.take_append_drop]
        exact sperm
      rw [hdeq] at hperm2
      have hperm_t := (List.perm_append_right_iff _).mp hperm2
      have hxu : x ∈ (swap v 0 (k + 1)).take (k + 1) := hperm_t.mem_iff.mp hx
      obtain ⟨j, hj1, hj2, hj3⟩ := mem_take_get _ (k + 1) x hxu
      rw [hlu] at hj2
      by_cases hj0 : j = 0
      · refine ⟨k + 1, by omega, by omega, ?_⟩
        rw [hj3, hj0]
        exact get_swap_left v 0 (k + 1) (by omega) (by omega)
      · refine ⟨j, by omega, by omega, ?_⟩
        rw [hj3]
        exact get_swap_other v 0 (k + 1) j hj0 (by omega)
    have hbnd' : ∀ x ∈ (sift_down c v.length (k + 1)
        (swap v 0 (k + 1)) 0).take (k + 1),
        ∀ y ∈ (sift_down c v.length (k + 1) (swap v 0 (k + 1)) 0).drop (k + 1),
        c x y ≠ .gt := by
      intro x hx y hy
      obtain ⟨m, hm1, hm2, hm3⟩ := hxmem x hx
      rw [hdrop] at hy
      rcases List.mem_cons.mp hy with hy0 | hy'
      · rw [hm3, hy0]
        exact cmp_swap_ge c hc _ _ (hrootge m hm1)
      · rw [hm3]
        exact hbnd (get v m) (get_mem_take v (k + 2) m hm1 hm2) y hy'
    obtain ⟨iha, ihp⟩ := ih (sift_down c v.length (k + 1) (swap v 0 (k + 1)) 0)
      (by omega) hW hasc' hbnd'
    exact ⟨iha, ihp.trans (sperm.trans (swap_perm v 0 (k + 1)))⟩

theorem heapsort_spec (c : α → α → Ordering) (hc : IsTotalCmp c)
    (v : List α) :
    Ascending c (heapsort c v) ∧ (heapsort c v).Perm v := by
  unfold heapsort
  dsimp only
  by_cases h0 : v.length / 2 = 0
  · rw [if_pos h0, if_neg (by omega : ¬2 ≤ v.length)]
    exact ⟨ascending_short c v (by omega), List.Perm.refl v⟩
  · rw [if_neg h0, if_pos (by omega : 2 ≤ v.length)]
    have hpre : HeapFrom c v v.length (v.length / 2 - 1 + 1) := by
      intro j hj0 hjb hp
      exfalso
      omega
    obtain ⟨hb, hbp, hbl⟩ := heapsort_build_spec c hc (v.length / 2 - 1) v hpre
    obtain ⟨pa, pp⟩ := heapsort_pop_spec c hc (v.length - 1)
      (heapsort_build c (v.length / 2 - 1) v)
      (by rw [hbl]; omega)
      (by rw [show v.length - 1 + 1 = v.length from by omega]; exact hb)
      (by rw [show v.length - 1 + 1 = v.length from by omega,
            List.drop_eq_nil_of_le (by omega)]
          exact List.chain'_nil)
      (by intro x hx y hy
          rw [show v.length - 1 + 1 = v.length from by omega,
            List.drop_eq_nil_of_le (by omega)] at hy
          exact absurd hy (List.not_mem_nil y))
    exact ⟨pa, pp.trans hbp⟩

/-! ### Scan loops of `partition` and `partition_equal` -/

theorem scan_l_spec (c : α → α → Ordering) (piv : α) (w : List α) :
    ∀ fuel l r, r ≤ l + fuel →
      l ≤ scan_l c piv w fuel l r ∧
      (l ≤ r → scan_l c piv w fuel l r ≤ r) ∧
      (∀ i, l ≤ i → i < scan_l c piv w fuel l r →
        c (get w i) piv = .lt) ∧
      (scan_l c piv w fuel l r < r →
        c (get w (scan_l c piv w fuel l r)) piv ≠ .lt) := by
  intro fuel
  induction fuel with
  | zero =>
    intro l r hf
    simp only [scan_l]
    exact ⟨le_refl l, fun h => by omega, fun i h1 h2 => by omega,
      fun h => by omega⟩
  | succ fuel ih =>
    intro l r hf
    simp only [scan_l]
    by_cases hcond : l < r ∧ c (get w l) piv = Ordering.lt
    · rw [if_pos hcond]
      obtain ⟨h1, h2, h3, h4⟩ := ih (l + 1) r (by omega)
      refine ⟨by omega, fun _ => h2 (by omega), ?_, h4⟩
      intro i hi1 hi2
      by_cases hil : i = l
      · rw [hil]
        exact hcond.2
      · exact h3 i (by omega) hi2
    · rw [if_neg hcond]
      refine ⟨le_refl l, fun h => by omega, fun i h1 h2 => by omega, ?_⟩
      intro hlr hlt
      exact hcond ⟨hlr, hlt⟩

theorem scan_r_spec (c : α → α → Ordering) (piv : α) (w : List α) :
    ∀ fuel l r, r ≤ l + fuel →
      scan_r c piv w fuel l r ≤ r ∧
      (l ≤ r → l ≤ scan_r c piv w fuel l r) ∧
      (∀ i, scan_r c piv w fuel l r ≤ i → i < r →
        c (get w i) piv ≠ .lt) ∧
      (l < scan_r c piv w fuel l r →
        c (get w (scan_r c piv w fuel l r - 1)) piv = .lt) := by
  intro fuel
  induction fuel with
  | zero =>
    intro l r hf
    simp only [scan_r]
    exact ⟨le_refl r, fun h => h, fun i h1 h2 => by omega, fun h => by omega⟩
  | succ fuel ih =>
    intro l r hf
    simp only [scan_r]
    by_cases hcond : l < r ∧ c (get w (r - 1)) piv ≠ Ordering.lt
    · rw [if_pos hcond]
      obtain ⟨h1, h2, h3, h4⟩ := ih l (r - 1) (by omega)
      refine ⟨by omega, fun _ => h2 (by omega), ?_, h4⟩
      intro i hi1 hi2
      by_cases hir : i = r - 1
      · rw [hir]
        exact hcond.2
      · exact h3 i hi1 (by omega)
    · rw [if_neg hcond]
      refine ⟨le_refl r, fun h => h, fun i h1 h2 => by omega, ?_⟩
      intro hlr
      by_contra hne
      exact hcond ⟨hlr, hne⟩

theorem scan_eq_l_spec (c : α → α → Ordering) (piv : α) (w : List α) :
    ∀ fuel l r, r ≤ l + fuel →
      l ≤ scan_eq_l c piv w fuel l r ∧
      (l ≤ r → scan_eq_l c piv w fuel l r ≤ r) ∧
      (∀ i, l ≤ i → i < scan_eq_l c piv w fuel l r →
        c (get w i) piv = .eq) ∧
      (scan_eq_l c piv w fuel l r < r →
        c (get w (scan_eq_l c piv w fuel l r)) piv ≠ .eq) := by
  intro fuel
  induction fuel with
  | zero =>
    intro l r hf
    simp only [scan_eq_l]
    exact ⟨le_refl l, fun h => by omega, fun i h1 h2 => by omega,
      fun h => by omega⟩
  | succ fuel ih =>
    intro l r hf
    simp only [scan_eq_l]
    by_cases hcond : l < r ∧ c (get w l) piv = Ordering.eq
    · rw [if_pos hcond]
      obtain ⟨h1, h2, h3, h4⟩ := ih (l + 1) r (by omega)
      refine ⟨by omega, fun _ => h2 (by omega), ?_, h4⟩
      intro i hi1 hi2
      by_cases hil : i = l
      · rw [hil]
        exact hcond.2
      · exact h3 i (by omega) hi2
    · rw [if_neg hcond]
      refine ⟨le_refl l, fun h => by omega, fun i h1 h2 => by omega, ?_⟩
      intro hlr hlt
      exact hcond ⟨hlr, hlt⟩

theorem scan_gt_r_spec (c : α → α → Ordering) (piv : α) (w : List α) :
    ∀ fuel l r, r ≤ l + fuel →
      scan_gt_r c piv w fuel l r ≤ r ∧
      (l ≤ r → l ≤ scan_gt_r c piv w fuel l r) ∧
      (∀ i, scan_gt_r c piv w fuel l r ≤ i → i < r →
        c (get w i) piv = .gt) ∧
      (l < scan_gt_r c piv w fuel l r →
        c (get w (scan_gt_r c piv w fuel l r - 1)) piv ≠ .gt) := by
  intro fuel
  induction fuel with
  | zero =>
    intro l r hf
    simp only [scan_gt_r]
    exact ⟨le_refl r, fun h => h, fun i h1 h2 => by omega, fun h => by omega⟩
  | succ fuel ih =>
    intro l r hf
    simp only [scan_gt_r]
    by_cases hcond : l < r ∧ c (get w (r - 1)) piv = Ordering.gt
    · rw [if_pos hcond]
      obtain ⟨h1, h2, h3, h4⟩ := ih l (r - 1) (by omega)
      refine ⟨by omega, fun _ => h2 (by omega), ?_, h4⟩
      intro i hi1 hi2
      by_cases hir : i = r - 1
      · rw [hir]
        exact hcond.2
      · exact h3 i hi1 (by omega)
    · rw [if_neg hcond]
      refine ⟨le_refl r, fun h => h, fun i h1 h2 => by omega, ?_⟩
      intro hlr hne
      exact hcond ⟨hlr, hne⟩

/-! ### Offset-buffer reads -/

theorem offsGet_set_eq (t : List Nat) (i a : Nat) (h : i < t.length) :
    (t.set i a).getD i 0 = a := by
  rw [List.getD_eq_getElem?_getD, List.getElem?_set_self' ]
  simp [List.getElem?_eq_getElem h]

theorem offsGet_set_ne (t : List Nat) (i j a : Nat) (h : i ≠ j) :
    (t.set i a).getD j 0 = t.getD j 0 := by
  rw [List.getD_eq_getElem?_getD, List.getElem?_set_ne h,
    ← List.getD_eq_getElem?_getD]

/-! ### Tracing loops of `partition_in_blocks` -/

theorem trace_l_spec (c : α → α → Ordering) (piv : α) (v : List α) (l : Nat) :
    ∀ k i len offs, i + k ≤ BLOCK → len ≤ i → offs.length = BLOCK →
      (∀ j, j < len → offs.getD j 0 < i) →
      (∀ j, j < len → c (get v (l + offs.getD j 0)) piv ≠ .lt) →
      (∀ o, o < i → (∀ j, j < len → o ≠ offs.getD j 0) →
        c (get v (l + o)) piv = .lt) →
      (∀ j1 j2, j1 < j2 → j2 < len → offs.getD j1 0 < offs.getD j2 0) →
      (trace_l_go c piv v l k i len offs).2.length = BLOCK ∧
      len ≤ (trace_l_go c piv v l k i len offs).1 ∧
      (trace_l_go c piv v l k i len offs).1 ≤ i + k ∧
      (∀ j, j < (trace_l_go c piv v l k i len offs).1 →
        (trace_l_go c piv v l k i len offs).2.getD j 0 < i + k) ∧
      (∀ j, j < (trace_l_go c piv v l k i len offs).1 →
        c (get v (l + (trace_l_go c piv v l k i len offs).2.getD j 0)) piv
          ≠ .lt) ∧
      (∀ o, o < i + k →
        (∀ j, j < (trace_l_go c piv v l k i len offs).1 →
          o ≠ (trace_l_go c piv v l k i len offs).2.getD j 0) →
        c (get v (l + o)) piv = .lt) ∧
      (∀ j1 j2, j1 < j2 → j2 < (trace_l_go c piv v l k i len offs).1 →
        (trace_l_go c piv v l k i len offs).2.getD j1 0 <
          (trace_l_go c piv v l k i len offs).2.getD j2 0) := by
  have hB : BLOCK = 64 := rfl
  intro k
  induction k with
  | zero =>
    intro i len offs hik hli hol hbnd hmk humk hinc
    simp only [trace_l_go]
    exact ⟨hol, le_refl len, by omega, fun j hj => by
        have := hbnd j (by omega)
        omega,
      fun j hj => hmk j (by omega), fun o ho h2 => humk o (by omega) h2, hinc⟩
  | succ k ih =>
    intro i len offs hik hli hol hbnd hmk humk hinc
    simp only [trace_l_go]
    rw [show i % 256 = i from by omega]
    have hlenB : len < offs.length := by omega
    by_cases hcmp : c (get v (l + i)) piv ≠ Ordering.lt
    · rw [if_pos hcmp]
      have hres := ih (i + 1) (len + 1) (offs.set len i) (by omega) (by omega)
        (by rw [List.length_set]; exact hol)
        (by intro j hj
            by_cases hjl : j = len
            · rw [hjl, offsGet_set_eq offs len i hlenB]
              omega
            · rw [offsGet_set_ne offs len j i (Ne.symm hjl)]
              have := hbnd j (by omega)
              omega)
        (by intro j hj
            by_cases hjl : j = len
            · rw [hjl, offsGet_set_eq offs len i hlenB]
              exact hcmp
            · rw [offsGet_set_ne offs len j i (Ne.symm hjl)]
              exact hmk j (by omega))
        (by intro o ho hno
            by_cases hoi : o = i
            · exfalso
              refine hno len (by omega) ?_
              rw [offsGet_set_eq offs len i hlenB, hoi]
            · refine humk o (by omega) ?_
              intro j hj
              have := hno j (by omega)
              rw [offsGet_set_ne offs len j i (by omega)] at this
              exact this)
        (by intro j1 j2 h12 h2l
            by_cases hj2 : j2 = len
            · rw [hj2, offsGet_set_eq offs len i hlenB,
                offsGet_set_ne offs len j1 i (by omega)]
              have := hbnd j1 (by omega)
              omega
            · rw [offsGet_set_ne offs len j2 i (Ne.symm hj2),
                offsGet_set_ne offs len j1 i (by omega)]
              exact hinc j1 j2 h12 (by omega))
      refine ⟨hres.1, by have := hres.2.1; omega, by have := hres.2.2.1; omega,
        ?_, hres.2.2.2.2.1, ?_, hres.2.2.2.2.2.2⟩
      · intro j hj
        have := hres.2.2.2.1 j hj
        omega
      · intro o ho h2
        exact hres.2.2.2.2.2.1 o (by omega) h2
    · rw [if_neg hcmp]
      simp only [Nat.add_zero]
      rw [not_not] at hcmp
      have hres := ih (i + 1) len (offs.set len i) (by omega) (by omega)
        (by rw [List.length_set]; exact hol)
        (by intro j hj
            rw [offsGet_set_ne offs len j i (by omega)]
            have := hbnd j hj
            omega)
        (by intro j hj
            rw [offsGet_set_ne offs len j i (by omega)]
            exact hmk j hj)
        (by intro o ho hno
            by_cases hoi : o = i
            · rw [hoi]
              exact hcmp
            · refine humk o (by omega) ?_
              intro j hj
              have := hno j hj
              rw [offsGet_set_ne offs len j i (by omega)] at this
              exact this)
        (by intro j1 j2 h12 h2l
            rw [offsGet_set_ne offs len j2 i (by omega),
              offsGet_set_ne offs len j1 i (by omega)]
            exact hinc j1 j2 h12 h2l)
      refine ⟨hres.1, by have := hres.2.1; omega, by have := hres.2.2.1; omega,
        ?_, hres.2.2.2.2.1, ?_, hres.2.2.2.2.2.2⟩
      · intro j hj
        have := hres.2.2.2.1 j hj
        omega
      · intro o ho h2
        exact hres.2.2.2.2.2.1 o (by omega) h2

theorem trace_r_spec (c : α → α → Ordering) (piv : α) (v : List α) (r : Nat) :
    ∀ k i len offs, i + k ≤ BLOCK → i + k ≤ r → len ≤ i →
      offs.length = BLOCK →
      (∀ j, j < len → offs.getD j 0 < i) →
      (∀ j, j < len → c (get v (r - offs.getD j 0 - 1)) piv = .lt) →
      (∀ o, o < i → (∀ j, j < len → o ≠ offs.getD j 0) →
        c (get v (r - o - 1)) piv ≠ .lt) →
      (∀ j1 j2, j1 < j2 → j2 < len → offs.getD j1 0 < offs.getD j2 0) →
      (trace_r_go c piv v r k i len offs).2.length = BLOCK ∧
      len ≤ (trace_r_go c piv v r k i len offs).1 ∧
      (trace_r_go c piv v r k i len offs).1 ≤ i + k ∧
      (∀ j, j < (trace_r_go c piv v r k i len offs).1 →
        (trace_r_go c piv v r k i len offs).2.getD j 0 < i + k) ∧
      (∀ j, j < (trace_r_go c piv v r k i len offs).1 →
        c (get v (r - (trace_r_go c piv v r k i len offs).2.getD j 0 - 1)) piv
          = .lt) ∧
      (∀ o, o < i + k →
        (∀ j, j < (trace_r_go c piv v r k i len offs).1 →
          o ≠ (trace_r_go c piv v r k i len offs).2.getD j 0) →
        c (get v (r - o - 1)) piv ≠ .lt) ∧
      (∀ j1 j2, j1 < j2 → j2 < (trace_r_go c piv v r k i len offs).1 →
        (trace_r_go c piv v r k i len offs).2.getD j1 0 <
          (trace_r_go c piv v r k i len offs).2.getD j2 0) := by
  have hB : BLOCK = 64 := rfl
  intro k
  induction k with
  | zero =>
    intro i len offs hik hir hli hol hbnd hmk humk hinc
    simp only [trace_r_go]
    exact ⟨hol, le_refl len, by omega, fun j hj => by
        have := hbnd j (by omega)
        omega,
      fun j hj => hmk j (by omega), fun o ho h2 => humk o (by omega) h2, hinc⟩
  | succ k ih =>
    intro i len offs hik hir hli hol hbnd hmk humk hinc
    simp only [trace_r_go]
    rw [show i % 256 = i from by omega]
    have hlenB : len < offs.length := by omega
    by_cases hcmp : c (get v (r - i - 1)) piv = Ordering.lt
    · rw [if_pos hcmp]
      have hres := ih (i + 1) (len + 1) (offs.set len i) (by omega) (by omega)
        (by omega) (by rw [List.length_set]; exact hol)
        (by intro j hj
            by_cases hjl : j = len
            · rw [hjl, offsGet_set_eq offs len i hlenB]
              omega
            · rw [offsGet_set_ne offs len j i (Ne.symm hjl)]
              have := hbnd j (by omega)
              omega)
        (by intro j hj
            by_cases hjl : j = len
            · rw [hjl, offsGet_set_eq offs len i hlenB]
              exact hcmp
            · rw [offsGet_set_ne offs len j i (Ne.symm hjl)]
              exact hmk j (by omega))
        (by intro o ho hno
            by_cases hoi : o = i
            · exfalso
              refine hno len (by omega) ?_
              rw [offsGet_set_eq offs len i hlenB, hoi]
            · refine humk o (by omega) ?_
              intro j hj
              have := hno j (by omega)
              rw [offsGet_set_ne offs len j i (by omega)] at this
              exact this)
        (by intro j1 j2 h12 h2l
            by_cases hj2 : j2 = len
            · rw [hj2, offsGet_set_eq offs len i hlenB,
                offsGet_set_ne offs len j1 i (by omega)]
              have := hbnd j1 (by omega)
              omega
            · rw [offsGet_set_ne offs len j2 i (Ne.symm hj2),
                offsGet_set_ne offs len j1 i (by omega)]
              exact hinc j1 j2 h12 (by omega))
      refine ⟨hres.1, by have := hres.2.1; omega, by have := hres.2.2.1; omega,
        ?_, hres.2.2.2.2.1, ?_, hres.2.2.2.2.2.2⟩
      · intro j hj
        have := hres.2.2.2.1 j hj
        omega
      · intro o ho h2
        exact hres.2.2.2.2.2.1 o (by omega) h2
    · rw [if_neg hcmp]
      simp only [Nat.add_zero]
      have hres := ih (i + 1) len (offs.set len i) (by omega) (by omega)
        (by omega) (by rw [List.length_set]; exact hol)
        (by intro j hj
            rw [offsGet_set_ne offs len j i (by omega)]
            have := hbnd j hj
            omega)
        (by intro j hj
            rw [offsGet_set_ne offs len j i (by omega)]
            exact hmk j hj)
        (by intro o ho hno
            by_cases hoi : o = i
            · rw [hoi]
              exact hcmp
            · refine humk o (by omega) ?_
              intro j hj
              have := hno j hj
              rw [offsGet_set_ne offs len j i (by omega)] at this
              exact this)
        (by intro j1 j2 h12 h2l
            rw [offsGet_set_ne offs len j2 i (by omega),
              offsGet_set_ne offs len j1 i (by omega)]
            exact hinc j1 j2 h12 h2l)
      refine ⟨hres.1, by have := hres.2.1; omega, by have := hres.2.2.1; omega,
        ?_, hres.2.2.2.2.1, ?_, hres.2.2.2.2.2.2⟩
      · intro j hj
        have := hres.2.2.2.1 j hj
        omega
      · intro o ho h2
        exact hres.2.2.2.2.2.1 o (by omega) h2

/-! ### Swapping and draining loops of `partition_in_blocks` -/

theorem swaps_go_spec (c : α → α → Ordering) (piv : α)
    (osl osr : List Nat) (l r wl wr len_l len_r : Nat) :
    ∀ k (v : List α) sl sr,
      sl + k ≤ len_l → sr + k ≤ len_r →
      l + wl ≤ r - wr → wr ≤ r → r ≤ v.length →
      (∀ j, sl ≤ j → j < len_l → osl.getD j 0 < wl) →
      (∀ j, sr ≤ j → j < len_r → osr.getD j 0 < wr) →
      PendL c piv v l wl osl sl len_l →
      PendR c piv v r wr osr sr len_r →
      (swaps_go osl osr l r k v sl sr).2.1 = sl + k ∧
      (swaps_go osl osr l r k v sl sr).2.2 = sr + k ∧
      (swaps_go osl osr l r k v sl sr).1.length = v.length ∧
      (swaps_go osl osr l r k v sl sr).1.Perm v ∧
      (∀ i, i < l ∨ (l + wl ≤ i ∧ i < r - wr) ∨ r ≤ i →
        get (swaps_go osl osr l r k v sl sr).1 i = get v i) ∧
      PendL c piv (swaps_go osl osr l r k v sl sr).1 l wl osl (sl + k) len_l ∧
      PendR c piv (swaps_go osl osr l r k v sl sr).1 r wr osr (sr + k)
        len_r := by
  intro k
  induction k with
  | zero =>
    intro v sl sr h1 h2 h3 h4 h5 hbl hbr hPL hPR
    dsimp only [swaps_go]
    exact ⟨rfl, rfl, rfl, List.Perm.refl v, fun i _ => rfl, hPL, hPR⟩
  | succ k ih =>
    intro v sl sr h1 h2 h3 h4 h5 hbl hbr hPL hPR
    simp only [swaps_go]
    obtain ⟨hmkL, humkL, hincL⟩ := hPL
    obtain ⟨hmkR, humkR, hincR⟩ := hPR
    have hosl : osl.getD sl 0 < wl := hbl sl (le_refl sl) (by omega)
    have hosr : osr.getD sr 0 < wr := hbr sr (le_refl sr) (by omega)
    have hpLr : l + osl.getD sl 0 < r - osr.getD sr 0 - 1 := by omega
    have hpLn : l + osl.getD sl 0 < v.length := by omega
    have hpRn : r - osr.getD sr 0 - 1 < v.length := by omega
    have hPL' : PendL c piv (swap v (l + osl.getD sl 0)
        (r - osr.getD sr 0 - 1)) l wl osl (sl + 1) len_l := by
      refine ⟨?_, ?_, fun j1 j2 h1 h2 h3 => hincL j1 j2 (by omega) h2 h3⟩
      · intro j hj1 hj2
        have hne1 : l + osl.getD j 0 ≠ l + osl.getD sl 0 := by
          have := hincL sl j (le_refl sl) (by omega) hj2
          omega
        have hne2 : l + osl.getD j 0 ≠ r - osr.getD sr 0 - 1 := by
          have := hbl j (by omega) hj2
          omega
        rw [get_swap_other v _ _ _ hne1 hne2]
        exact hmkL j (by omega) hj2
      · intro i hi1 hi2 hno
        by_cases hip : i = l + osl.getD sl 0
        · rw [hip, get_swap_left v _ _ hpLn hpRn]
          exact hmkR sr (le_refl sr) (by omega)
        · have hne2 : i ≠ r - osr.getD sr 0 - 1 := by omega
          rw [get_swap_other v _ _ _ hip hne2]
          refine humkL i hi1 hi2 ?_
          intro j hj1 hj2
          by_cases hjsl : j = sl
          · rw [hjsl]
            exact hip
          · exact hno j (by omega) hj2
    have hPR' : PendR c piv (swap v (l + osl.getD sl 0)
        (r - osr.getD sr 0 - 1)) r wr osr (sr + 1) len_r := by
      refine ⟨?_, ?_, fun j1 j2 h1 h2 h3 => hincR j1 j2 (by omega) h2 h3⟩
      · intro j hj1 hj2
        have hne2 : r - osr.getD j 0 - 1 ≠ r - osr.getD sr 0 - 1 := by
          have := hincR sr j (le_refl sr) (by omega) hj2
          have := hbr j (by omega) hj2
          omega
        have hne1 : r - osr.getD j 0 - 1 ≠ l + osl.getD sl 0 := by
          have := hbr j (by omega) hj2
          omega
        rw [get_swap_other v _ _ _ hne1 hne2]
        exact hmkR j (by omega) hj2
      · intro i hi1 hi2 hno
        by_cases hip : i = r - osr.getD sr 0 - 1
        · rw [hip, get_swap_right v _ _ hpLn hpRn]
          exact hmkL sl (le_refl sl) (by omega)
        · have hne1 : i ≠ l + osl.getD sl 0 := by omega
          rw [get_swap_other v _ _ _ hne1 hip]
          refine humkR i hi1 hi2 ?_
          intro j hj1 hj2
          by_cases hjsr : j = sr
          · rw [hjsr]
            exact hip
          · exact hno j (by omega) hj2
    obtain ⟨q1, q2, q3, q4, q5, q6, q7⟩ := ih
      (swap v (l + osl.getD sl 0) (r - osr.getD sr 0 - 1)) (sl + 1) (sr + 1)
      (by omega) (by omega) h3 h4 (by rw [length_swap]; exact h5)
      (fun j h1 h2 => hbl j (by omega) h2) (fun j h1 h2 => hbr j (by omega) h2)
      hPL' hPR'
    refine ⟨by omega, by omega, by rw [q3, length_swap], ?_, ?_, ?_, ?_⟩
    · exact q4.trans (swap_perm v _ _)
    · intro i hi
      rw [q5 i hi]
      exact get_swap_other v _ _ i (by omega) (by omega)
    · rw [show sl + (k + 1) = sl + 1 + k from by omega]
      exact q6
    · rw [show sr + (k + 1) = sr + 1 + k from by omega]
      exact q7

theorem drain_l_spec (c : α → α → Ordering) (piv : α) (l : Nat)
    (offs : List Nat) (n : Nat) :
    ∀ k (v : List α) len r,
      v.length = n → k ≤ len → r ≤ n →
      (∀ j, len - k ≤ j → j < len → l + offs.getD j 0 < r) →
      (∀ j1 j2, len - k ≤ j1 → j1 < j2 → j2 < len →
        offs.getD j1 0 < offs.getD j2 0) →
      (∀ j, len - k ≤ j → j < len →
        c (get v (l + offs.getD j 0)) piv ≠ .lt) →
      (∀ i, i < r → (∀ j, len - k ≤ j → j < len → i ≠ l + offs.getD j 0) →
        c (get v i) piv = .lt) →
      (∀ i, r ≤ i → i < n → c (get v i) piv ≠ .lt) →
      (drain_l_go l offs k v len r).1 = r - k ∧
      (drain_l_go l offs k v len r).2.length = n ∧
      (drain_l_go l offs k v len r).2.Perm v ∧
      (∀ i, i < r - k →
        c (get (drain_l_go l offs k v len r).2 i) piv = .lt) ∧
      (∀ i, r - k ≤ i → i < n →
        c (get (drain_l_go l offs k v len r).2 i) piv ≠ .lt) := by
  intro k
  induction k with
  | zero =>
    intro v len r hv hk hr hpos hinc hmk humk hge
    simp only [drain_l_go]
    refine ⟨by omega, hv, List.Perm.refl v, ?_, ?_⟩
    · intro i hi
      exact humk i (by omega) (fun j hj1 hj2 => by omega)
    · intro i hi1 hi2
      exact hge i (by omega) hi2
  | succ k ih =>
    intro v len r hv hk hr hpos hinc hmk humk hge
    simp only [drain_l_go]
    have hpT : l + offs.getD (len - 1) 0 < r :=
      hpos (len - 1) (by omega) (by omega)
    have hr1 : r - 1 < v.length := by omega
    have hpTn : l + offs.getD (len - 1) 0 < v.length := by omega
    obtain ⟨q1, q2, q3, q4, q5⟩ := ih
      (swap v (l + offs.getD (len - 1) 0) (r - 1)) (len - 1) (r - 1)
      (by rw [length_swap]; exact hv) (by omega) (by omega)
      (by intro j hj1 hj2
          have := hinc j (len - 1) (by omega) (by omega) (by omega)
          omega)
      (by intro j1 j2 ha hb hcn
          exact hinc j1 j2 (by omega) hb (by omega))
      (by intro j hj1 hj2
          have hlt : l + offs.getD j 0 < l + offs.getD (len - 1) 0 :=
            by
              have := hinc j (len - 1) (by omega) (by omega) (by omega)
              omega
          rw [get_swap_other v _ _ _ (by omega) (by omega)]
          exact hmk j (by omega) (by omega))
      (by intro i hi hno
          by_cases hip : i = l + offs.getD (len - 1) 0
          · rw [hip, get_swap_left v _ _ hpTn hr1]
            refine humk (r - 1) (by omega) ?_
            intro j hj1 hj2
            by_cases hjl : j = len - 1
            · rw [hjl]
              omega
            · have := hinc j (len - 1) (by omega) (by omega) (by omega)
              omega
          · rw [get_swap_other v _ _ _ hip (by omega)]
            refine humk i (by omega) ?_
            intro j hj1 hj2
            by_cases hjl : j = len - 1
            · rw [hjl]
              exact fun h => hip (by rw [h])
            · exact hno j (by omega) (by omega))
      (by intro i hi1 hi2
          by_cases hir : i = r - 1
          · rw [hir, get_swap_right v _ _ hpTn hr1]
            exact hmk (len - 1) (by omega) (by omega)
          · rw [get_swap_other v _ _ _ (by omega) hir]
            exact hge i (by omega) hi2)
    refine ⟨by omega, q2, q3.trans (swap_perm v _ _), ?_, ?_⟩
    · intro i hi
      exact q4 i (by omega)
    · intro i hi1 hi2
      exact q5 i (by omega) hi2

theorem drain_r_spec (c : α → α → Ordering) (piv : α)
    (offs : List Nat) (n : Nat) :
    ∀ k (v : List α) len l r,
      v.length = n → k ≤ len → r ≤ n →
      (∀ j, len - k ≤ j → j < len →
        l ≤ r - offs.getD j 0 - 1 ∧ offs.getD j 0 < r) →
      (∀ j1 j2, len - k ≤ j1 → j1 < j2 → j2 < len →
        offs.getD j1 0 < offs.getD j2 0) →
      (∀ j, len - k ≤ j → j < len →
        c (get v (r - offs.getD j 0 - 1)) piv = .lt) →
      (∀ i, l ≤ i → i < r →
        (∀ j, len - k ≤ j → j < len → i ≠ r - offs.getD j 0 - 1) →
        c (get v i) piv ≠ .lt) →
      (∀ i, i < l → c (get v i) piv = .lt) →
      (∀ i, r ≤ i → i < n → c (get v i) piv ≠ .lt) →
      (drain_r_go offs k v len l r).1 = l + k ∧
      (drain_r_go offs k v len l r).2.length = n ∧
      (drain_r_go offs k v len l r).2.Perm v ∧
      (∀ i, i < l + k →
        c (get (drain_r_go offs k v len l r).2 i) piv = .lt) ∧
      (∀ i, l + k ≤ i → i < n →
        c (get (drain_r_go offs k v len l r).2 i) piv ≠ .lt) := by
  intro k
  induction k with
  | zero =>
    intro v len l r hv hk hr hpos hinc hmk humk hlt hge
    simp only [drain_r_go]
    refine ⟨by omega, hv, List.Perm.refl v, ?_, ?_⟩
    · intro i hi
      exact hlt i (by omega)
    · intro i hi1 hi2
      by_cases hir : i < r
      · exact humk i (by omega) hir (fun j hj1 hj2 => by omega)
      · exact hge i (by omega) hi2
  | succ k ih =>
    intro v len l r hv hk hr hpos hinc hmk humk hlt hge
    simp only [drain_r_go]
    have hpos1 := hpos (len - 1) (by omega) (by omega)
    have hpn : r - offs.getD (len - 1) 0 - 1 < v.length := by omega
    have hln : l < v.length := by omega
    obtain ⟨q1, q2, q3, q4, q5⟩ := ih
      (swap v l (r - offs.getD (len - 1) 0 - 1)) (len - 1) (l + 1) r
      (by rw [length_swap]; exact hv) (by omega) hr
      (by intro j hj1 hj2
          have := hinc j (len - 1) (by omega) (by omega) (by omega)
          have := hpos j (by omega) (by omega)
          omega)
      (by intro j1 j2 ha hb hcn
          exact hinc j1 j2 (by omega) hb (by omega))
      (by intro j hj1 hj2
          have h6 := hinc j (len - 1) (by omega) (by omega) (by omega)
          have h7 := hpos j (by omega) (by omega)
          rw [get_swap_other v _ _ _ (by omega) (by omega)]
          exact hmk j (by omega) (by omega))
      (by intro i hi1 hi2 hno
          by_cases hip : i = r - offs.getD (len - 1) 0 - 1
          · rw [hip, get_swap_right v _ _ hln hpn]
            refine humk l (le_refl l) (by omega) ?_
            intro j hj1 hj2
            by_cases hjl : j = len - 1
            · rw [hjl]
              omega
            · have := hinc j (len - 1) (by omega) (by omega) (by omega)
              have := hpos j (by omega) (by omega)
              omega
          · rw [get_swap_other v _ _ _ (by omega) hip]
            refine humk i (by omega) hi2 ?_
            intro j hj1 hj2
            by_cases hjl : j = len - 1
            · rw [hjl]
              exact fun h => hip (by rw [h])
            · exact hno j (by omega) (by omega))
      (by intro i hi
          by_cases hil : i = l
          · rw [hil, get_swap_left v _ _ hln hpn]
            exact hmk (len - 1) (by omega) (by omega)
          · rw [get_swap_other v _ _ _ hil (by omega)]
            exact hlt i (by omega))
      (by intro i hi1 hi2
          rw [get_swap_other v _ _ _ (by omega) (by omega)]
          exact hge i hi1 hi2)
    refine ⟨by omega, q2, q3.trans (swap_perm v _ _), ?_, ?_⟩
    · intro i hi
      exact q4 i (by omega)
    · intro i hi1 hi2
      exact q5 i (by omega) hi2

/-! ### Trace steps at the `BState` level -/

theorem block_traceL_spec (c : α → α → Ordering) (piv : α) (v : List α)
    (b : BState)
    (hol : b.offsets_l.length = BLOCK) (hsl : b.start_l ≤ b.len_l)
    (hbl : b.block_l ≤ BLOCK)
    (hpl : b.start_l < b.len_l → b.len_l ≤ BLOCK ∧ b.block_l = BLOCK ∧
      ∀ j, b.start_l ≤ j → j < b.len_l → b.offsets_l.getD j 0 < BLOCK)
    (hsem3 : b.start_l < b.len_l →
      PendL c piv v b.l BLOCK b.offsets_l b.start_l b.len_l) :
    ∃ st len offs, block_traceL c piv v b =
      {b with start_l := st, len_l := len, offsets_l := offs} ∧
      st ≤ len ∧ len ≤ b.block_l ∧ offs.length = BLOCK ∧
      (∀ j, st ≤ j → j < len → offs.getD j 0 < b.block_l) ∧
      PendL c piv v b.l b.block_l offs st len := by
  unfold block_traceL
  by_cases hA : b.start_l = b.len_l
  · rw [if_pos hA]
    dsimp only
    obtain ⟨t1, t2, t3, t4, t5, t6, t7⟩ := trace_l_spec c piv v b.l
      b.block_l 0 0 b.offsets_l (by omega) (le_refl 0) hol
      (fun j hj => absurd hj (Nat.not_lt_zero j))
      (fun j hj => absurd hj (Nat.not_lt_zero j))
      (fun o ho _ => absurd ho (Nat.not_lt_zero o))
      (fun j1 j2 h1 h2 => absurd h2 (Nat.not_lt_zero j2))
    refine ⟨0, (trace_l_go c piv v b.l b.block_l 0 0 b.offsets_l).1,
      (trace_l_go c piv v b.l b.block_l 0 0 b.offsets_l).2, rfl,
      by omega, by omega, t1, ?_, ?_, ?_, ?_⟩
    · intro j hj1 hj2
      have := t4 j hj2
      omega
    · intro j hj1 hj2
      exact t5 j hj2
    · intro i hi1 hi2 hno
      rw [show i = b.l + (i - b.l) from by omega]
      refine t6 (i - b.l) (by omega) ?_
      intro j hj
      have := hno j (by omega) hj
      omega
    · intro j1 j2 h1 h2 h3
      exact t7 j1 j2 h2 h3
  · rw [if_neg hA]
    have hpend : b.start_l < b.len_l := by omega
    obtain ⟨w1, w2, w3⟩ := hpl hpend
    have hP := hsem3 hpend
    refine ⟨b.start_l, b.len_l, b.offsets_l, rfl, hsl, by omega, hol, ?_, ?_⟩
    · intro j hj1 hj2
      have := w3 j hj1 hj2
      omega
    · rw [w2]
      exact hP

theorem block_traceR_spec (c : α → α → Ordering) (piv : α) (v : List α)
    (b : BState)
    (hor : b.offsets_r.length = BLOCK) (hsr : b.start_r ≤ b.len_r)
    (hbr : b.block_r ≤ BLOCK) (hwr : b.block_r ≤ b.r)
    (hpr : b.start_r < b.len_r → b.len_r ≤ BLOCK ∧ b.block_r = BLOCK ∧
      ∀ j, b.start_r ≤ j → j < b.len_r → b.offsets_r.getD j 0 < BLOCK)
    (hsem4 : b.start_r < b.len_r →
      PendR c piv v b.r BLOCK b.offsets_r b.start_r b.len_r) :
    ∃ st len offs, block_traceR c piv v b =
      {b with start_r := st, len_r := len, offsets_r := offs} ∧
      st ≤ len ∧ len ≤ b.block_r ∧ offs.length = BLOCK ∧
      (∀ j, st ≤ j → j < len → offs.getD j 0 < b.block_r) ∧
      PendR c piv v b.r b.block_r offs st len := by
  unfold block_traceR
  by_cases hA : b.start_r = b.len_r
  · rw [if_pos hA]
    dsimp only
    obtain ⟨t1, t2, t3, t4, t5, t6, t7⟩ := trace_r_spec c piv v b.r
      b.block_r 0 0 b.offsets_r (by omega) (by omega) (le_refl 0) hor
      (fun j hj => absurd hj (Nat.not_lt_zero j))
      (fun j hj => absurd hj (Nat.not_lt_zero j))
      (fun o ho _ => absurd ho (Nat.not_lt_zero o))
      (fun j1 j2 h1 h2 => absurd h2 (Nat.not_lt_zero j2))
    refine ⟨0, (trace_r_go c piv v b.r b.block_r 0 0 b.offsets_r).1,
      (trace_r_go c piv v b.r b.block_r 0 0 b.offsets_r).2, rfl,
      by omega, by omega, t1, ?_, ?_, ?_, ?_⟩
    · intro j hj1 hj2
      have := t4 j hj2
      omega
    · intro j hj1 hj2
      exact t5 j hj2
    · intro i hi1 hi2 hno
      rw [show i = b.r - (b.r - i - 1) - 1 from by omega]
      refine t6 (b.r - i - 1) (by omega) ?_
      intro j hj
      have := hno j (by omega) hj
      have := t4 j hj
      omega
    · intro j1 j2 h1 h2 h3
      exact t7 j1 j2 h2 h3
  · rw [if_neg hA]
    have hpend : b.start_r < b.len_r := by omega
    obtain ⟨w1, w2, w3⟩ := hpr hpend
    have hP := hsem4 hpend
    refine ⟨b.start_r, b.len_r, b.offsets_r, rfl, hsr, by omega, hor, ?_, ?_⟩
    · intro j hj1 hj2
      have := w3 j hj1 hj2
      omega
    · rw [w2]
      exact hP

/-- One non-final iteration body of the `partition_in_blocks` loop, stated
for an arbitrary post-adjustment state: numeric bookkeeping and the semantic
classification both advance. -/
theorem block_body_spec (c : α → α → Ordering) (piv : α) (n : Nat)
    (v : List α) (b : BState)
    (hv : v.length = n)
    (hol : b.offsets_l.length = BLOCK) (hor : b.offsets_r.length = BLOCK)
    (hsl : b.start_l ≤ b.len_l) (hsr : b.start_r ≤ b.len_r)
    (hbl : b.block_l ≤ BLOCK) (hbr : b.block_r ≤ BLOCK)
    (hrn : b.r ≤ n) (hgeom : b.l + b.block_l + b.block_r ≤ b.r)
    (hpl : b.start_l < b.len_l → b.len_l ≤ BLOCK ∧ b.block_l = BLOCK ∧
      ∀ j, b.start_l ≤ j → j < b.len_l → b.offsets_l.getD j 0 < BLOCK)
    (hpr : b.start_r < b.len_r → b.len_r ≤ BLOCK ∧ b.block_r = BLOCK ∧
      ∀ j, b.start_r ≤ j → j < b.len_r → b.offsets_r.getD j 0 < BLOCK)
    (hsem1 : ∀ i, i < b.l → c (get v i) piv = .lt)
    (hsem2 : ∀ i, b.r ≤ i → i < n → c (get v i) piv ≠ .lt)
    (hsem3 : b.start_l < b.len_l →
      PendL c piv v b.l BLOCK b.offsets_l b.start_l b.len_l)
    (hsem4 : b.start_r < b.len_r →
      PendR c piv v b.r BLOCK b.offsets_r b.start_r b.len_r) :
    ∀ v' b', block_iter c piv false v b = (v', b') →
      v'.length = n ∧ v'.Perm v ∧
      b'.offsets_l.length = BLOCK ∧ b'.offsets_r.length = BLOCK ∧
      b'.block_l = b.block_l ∧ b'.block_r = b.block_r ∧
      b'.start_l ≤ b'.len_l ∧ b'.start_r ≤ b'.len_r ∧
      b'.len_l ≤ b.block_l ∧ b'.len_r ≤ b.block_r ∧
      ¬(b'.start_l < b'.len_l ∧ b'.start_r < b'.len_r) ∧
      (b'.start_l < b'.len_l → b'.l = b.l) ∧
      (¬b'.start_l < b'.len_l → b'.l = b.l + b.block_l) ∧
      (b'.start_r < b'.len_r → b'.r = b.r) ∧
      (¬b'.start_r < b'.len_r → b'.r = b.r - b.block_r) ∧
      (∀ j, b'.start_l ≤ j → j < b'.len_l →
        b'.offsets_l.getD j 0 < b.block_l) ∧
      (∀ j, b'.start_r ≤ j → j < b'.len_r →
        b'.offsets_r.getD j 0 < b.block_r) ∧
      (∀ i, i < b'.l → c (get v' i) piv = .lt) ∧
      (∀ i, b'.r ≤ i → i < n → c (get v' i) piv ≠ .lt) ∧
      (b'.start_l < b'.len_l →
        PendL c piv v' b'.l b.block_l b'.offsets_l b'.start_l b'.len_l) ∧
      (b'.start_r < b'.len_r →
        PendR c piv v' b'.r b.block_r b'.offsets_r b'.start_r b'.len_r) := by
  intro v' b' heq
  obtain ⟨stL, lenL, offsL, hTLeq, hTL1, hTL2, hTL3, hTL4, hTLP⟩ :=
    block_traceL_spec c piv v b hol hsl hbl hpl hsem3
  obtain ⟨stR, lenR, offsR, hTReq, hTR1, hTR2, hTR3, hTR4, hTRP⟩ :=
    block_traceR_spec c piv v
      {b with start_l := stL, len_l := lenL, offsets_l := offsL}
      hor hsr hbr (show b.block_r ≤ b.r by omega) hpr hsem4
  unfold block_iter at heq
  dsimp only at heq
  rw [show block_adjust false b = b from rfl] at heq
  rw [hTLeq, hTReq] at heq
  unfold block_swaps at heq
  dsimp only at heq
  obtain ⟨q1, q2, q3, q4, q5, q6, q7⟩ := swaps_go_spec c piv offsL offsR
    b.l b.r b.block_l b.block_r lenL lenR
    (min (lenL - stL) (lenR - stR)) v stL stR
    (by omega) (by omega) (by omega) (by omega) (by omega) hTL4 hTR4 hTLP hTRP
  rw [q1, q2] at heq
  unfold block_advance at heq
  dsimp only at heq
  have hone2 : stL + min (lenL - stL) (lenR - stR) = lenL ∨
      stR + min (lenL - stL) (lenR - stR) = lenR := by omega
  have hpre0 : ∀ i, i < b.l →
      c (get (swaps_go offsL offsR b.l b.r
        (min (lenL - stL) (lenR - stR)) v stL stR).1 i) piv = .lt := by
    intro i hi
    rw [q5 i (Or.inl hi)]
    exact hsem1 i hi
  have hsuf0 : ∀ i, b.r ≤ i → i < n →
      c (get (swaps_go offsL offsR b.l b.r
        (min (lenL - stL) (lenR - stR)) v stL stR).1 i) piv ≠ .lt := by
    intro i hi1 hi2
    rw [q5 i (Or.inr (Or.inr hi1))]
    exact hsem2 i hi1 hi2
  have hpreB : stL + min (lenL - stL) (lenR - stR) = lenL →
      ∀ i, i < b.l + b.block_l →
      c (get (swaps_go offsL offsR b.l b.r
        (min (lenL - stL) (lenR - stR)) v stL stR).1 i) piv = .lt := by
    intro hEL i hi
    by_cases hil : i < b.l
    · exact hpre0 i hil
    · exact q6.2.1 i (by omega) hi (fun j hj1 hj2 => by omega)
  have hsufB : stR + min (lenL - stL) (lenR - stR) = lenR →
      ∀ i, b.r - b.block_r ≤ i → i < n →
      c (get (swaps_go offsL offsR b.l b.r
        (min (lenL - stL) (lenR - stR)) v stL stR).1 i) piv ≠ .lt := by
    intro hER i hi1 hi2
    by_cases hir : b.r ≤ i
    · exact hsuf0 i hir hi2
    · exact q7.2.1 i (by omega) (by omega) (fun j hj1 hj2 => by omega)
  by_cases hEL : stL + min (lenL - stL) (lenR - stR) = lenL
  · rw [if_pos hEL] at heq
    dsimp only at heq
    by_cases hER : stR + min (lenL - stL) (lenR - stR) = lenR
    · rw [if_pos hER] at heq
      injection heq with hv'eq hb'eq
      subst v'
      subst b'
      dsimp only
      refine ⟨by rw [q3, hv], q4, hTL3, hTR3, rfl, rfl, by omega, by omega,
        hTL2, hTR2, by omega, fun h => absurd h (by omega), fun _ => rfl,
        fun h => absurd h (by omega), fun _ => rfl,
        fun j hj1 hj2 => hTL4 j (by omega) hj2,
        fun j hj1 hj2 => hTR4 j (by omega) hj2,
        hpreB hEL, hsufB hER,
        fun h => absurd h (by omega), fun h => absurd h (by omega)⟩
    · rw [if_neg hER] at heq
      injection heq with hv'eq hb'eq
      subst v'
      subst b'
      dsimp only
      refine ⟨by rw [q3, hv], q4, hTL3, hTR3, rfl, rfl, by omega, by omega,
        hTL2, hTR2, by omega, fun h => absurd h (by omega), fun _ => rfl,
        fun _ => rfl, fun h => absurd (by omega : stR +
          min (lenL - stL) (lenR - stR) ≤ lenR) (by omega),
        fun j hj1 hj2 => hTL4 j (by omega) hj2,
        fun j hj1 hj2 => hTR4 j (by omega) hj2,
        hpreB hEL, hsuf0, fun h => absurd h (by omega), fun _ => q7⟩
  · rw [if_neg hEL] at heq
    dsimp only at heq
    have hER : stR + min (lenL - stL) (lenR - stR) = lenR := by omega
    rw [if_pos hER] at heq
    injection heq with hv'eq hb'eq
    subst v'
    subst b'
    dsimp only
    refine ⟨by rw [q3, hv], q4, hTL3, hTR3, rfl, rfl, by omega, by omega,
      hTL2, hTR2, by omega, fun _ => rfl,
      fun h => absurd (by omega : stL + min (lenL - stL) (lenR - stR) ≤ lenL)
        (by omega),
      fun h => absurd h (by omega), fun _ => rfl,
      fun j hj1 hj2 => hTL4 j (by omega) hj2,
      fun j hj1 hj2 => hTR4 j (by omega) hj2,
      hpre0, hsufB hER, fun _ => q6, fun h => absurd h (by omega)⟩

theorem block_iter_adjust (c : α → α → Ordering) (piv : α) (v : List α)
    (b : BState) :
    block_iter c piv true v b =
      block_iter c piv false v (block_adjust true b) := rfl

set_option maxHeartbeats 1600000 in
/-- Master specification of the `partition_in_blocks` main loop: given the
bookkeeping and semantic invariants and enough fuel, it returns a boundary
`m` and a permutation of the slice with all elements Less than the pivot
before `m` and none after. -/
theorem block_loop_spec (c : α → α → Ordering) (piv : α) (n : Nat) :
    ∀ fuel (v : List α) b, v.length = n → BInv n b → SInv c piv n v b →
      b.r - b.l + 1 ≤ fuel →
      ∃ m w, block_loop c piv fuel v b = some (m, w) ∧ m ≤ n ∧
        w.length = n ∧ w.Perm v ∧
        (∀ i, i < m → c (get w i) piv = .lt) ∧
        (∀ i, m ≤ i → i < n → c (get w i) piv ≠ .lt) := by
  have hB64 : BLOCK = 64 := rfl
  intro fuel
  induction fuel with
  | zero =>
    intro v b hv hB hS hf
    omega
  | succ fuel ih =>
    intro v b hv hB hS hf
    obtain ⟨i1, i2, i3, i4, i5, i6, i7, i8, i9, i10, i11, i12, i13, i14⟩ := hB
    obtain ⟨s1, s2, s3, s4⟩ := hS
    simp only [block_loop]
    by_cases hisd : b.r - b.l ≤ 2 * BLOCK
    · rw [decide_eq_true hisd, if_pos rfl]
      rw [block_iter_adjust c piv v b]
      have hA : (block_adjust true b).l = b.l ∧
          (block_adjust true b).r = b.r ∧
          (block_adjust true b).start_l = b.start_l ∧
          (block_adjust true b).len_l = b.len_l ∧
          (block_adjust true b).offsets_l = b.offsets_l ∧
          (block_adjust true b).start_r = b.start_r ∧
          (block_adjust true b).len_r = b.len_r ∧
          (block_adjust true b).offsets_r = b.offsets_r ∧
          (block_adjust true b).block_l ≤ BLOCK ∧
          (block_adjust true b).block_r ≤ BLOCK ∧
          b.l + (block_adjust true b).block_l +
            (block_adjust true b).block_r = b.r ∧
          (b.start_l < b.len_l → (block_adjust true b).block_l = BLOCK) ∧
          (b.start_r < b.len_r → (block_adjust true b).block_r = BLOCK) := by
        unfold block_adjust
        rw [if_pos rfl]
        dsimp only
        by_cases hPL : b.start_l < b.len_l
        · rw [if_pos (Or.inl hPL : b.start_l < b.len_l ∨
            b.start_r < b.len_r), if_pos hPL]
          dsimp only
          have h12 := i12 (Or.inl hPL)
          refine ⟨rfl, rfl, rfl, rfl, rfl, rfl, rfl, rfl, by omega, by omega,
            by omega, fun _ => i1, fun h => absurd ⟨hPL, h⟩ i11⟩
        · by_cases hPR : b.start_r < b.len_r
          · rw [if_pos (Or.inr hPR : b.start_l < b.len_l ∨
              b.start_r < b.len_r), if_neg hPL, if_pos hPR]
            dsimp only
            have h12 := i12 (Or.inr hPR)
            refine ⟨rfl, rfl, rfl, rfl, rfl, rfl, rfl, rfl, by omega,
              by omega, by omega, fun h => absurd h hPL, fun _ => i2⟩
          · rw [if_neg (fun h => h.elim hPL hPR :
              ¬(b.start_l < b.len_l ∨ b.start_r < b.len_r)),
              if_neg hPL, if_neg hPR]
            dsimp only
            refine ⟨rfl, rfl, rfl, rfl, rfl, rfl, rfl, rfl, by omega,
              by omega, by omega, fun h => absurd h hPL,
              fun h => absurd h hPR⟩
      obtain ⟨a1, a2, a3, a4, a5, a6, a7, a8, a9, a10, a11, a12, a13⟩ := hA
      rcases hX : block_iter c piv false v (block_adjust true b)
        with ⟨P1, B1⟩
      obtain ⟨k1, k2, k3, k4, k5, k6, k7, k8, k9, k10, k11, k12, k13, k14,
          k15, k16, k17, k18, k19, k20, k21⟩ :=
        block_body_spec c piv n v (block_adjust true b) hv
          (by rw [a5]; exact i3) (by rw [a8]; exact i4)
          (by rw [a3, a4]; exact i7) (by rw [a6, a7]; exact i8)
          a9 a10 (by rw [a2]; exact i6) (by rw [a1, a2]; omega)
          (by rw [a3, a4, a5]
              intro h
              exact ⟨i9, a12 h, i13⟩)
          (by rw [a6, a7, a8]
              intro h
              exact ⟨i10, a13 h, i14⟩)
          (by rw [a1]; exact s1) (by rw [a2]; exact s2)
          (by rw [a1, a3, a4, a5]; exact s3)
          (by rw [a2, a6, a7, a8]; exact s4)
          P1 B1 hX
      unfold block_drain
      by_cases hDL : B1.start_l < B1.len_l
      · rw [if_pos hDL]
        have hL1 := k12 hDL
        have hnR : ¬B1.start_r < B1.len_r := fun h => k11 ⟨hDL, h⟩
        have hR1 := k15 hnR
        obtain ⟨pM, pU, pI⟩ := k20 hDL
        obtain ⟨d1, d2, d3, d4, d5⟩ := drain_l_spec c piv
          B1.l B1.offsets_l n (B1.len_l - B1.start_l) P1 B1.len_l B1.r
          k1 (by omega) (by omega)
          (by intro j hj1 hj2
              have := k16 j (by omega) hj2
              omega)
          (by intro j1 j2 h1 h2 h3
              exact pI j1 j2 (by omega) h2 h3)
          (by intro j hj1 hj2
              exact pM j (by omega) hj2)
          (by intro i hi hno
              by_cases hil : i < B1.l
              · exact k18 i hil
              · refine pU i (by omega) (by omega) ?_
                intro j hj1 hj2
                exact hno j (by omega) hj2)
          (by intro i hi1 hi2
              exact k19 i hi1 hi2)
        refine ⟨_, _, rfl, ?_, d2, d3.trans k2, ?_, ?_⟩
        · rw [d1]
          omega
        · intro i hi
          rw [d1] at hi
          exact d4 i hi
        · intro i hi1 hi2
          rw [d1] at hi1
          exact d5 i hi1 hi2
      · rw [if_neg hDL]
        have hL1 := k13 hDL
        by_cases hDR : B1.start_r < B1.len_r
        · have hR1 := k14 hDR
          obtain ⟨pM, pU, pI⟩ := k21 hDR
          obtain ⟨d1, d2, d3, d4, d5⟩ := drain_r_spec c piv
            B1.offsets_r n (B1.len_r - B1.start_r) P1 B1.len_r B1.l B1.r
            k1 (by omega) (by omega)
            (by intro j hj1 hj2
                have := k17 j (by omega) hj2
                omega)
            (by intro j1 j2 h1 h2 h3
                exact pI j1 j2 (by omega) h2 h3)
            (by intro j hj1 hj2
                exact pM j (by omega) hj2)
            (by intro i hi1 hi2 hno
                refine pU i (by omega) hi2 ?_
                intro j hj1 hj2
                exact hno j (by omega) hj2)
            (by intro i hi
                exact k18 i hi)
            (by intro i hi1 hi2
                exact k19 i hi1 hi2)
          refine ⟨_, _, rfl, ?_, d2, d3.trans k2, ?_, ?_⟩
          · rw [d1]
            omega
          · intro i hi
            rw [d1] at hi
            exact d4 i hi
          · intro i hi1 hi2
            rw [d1] at hi1
            exact d5 i hi1 hi2
        · have hR1 := k15 hDR
          obtain ⟨d1, d2, d3, d4, d5⟩ := drain_r_spec c piv
            B1.offsets_r n (B1.len_r - B1.start_r) P1 B1.len_r B1.l B1.r
            k1 (by omega) (by omega)
            (by intro j hj1 hj2
                exact absurd hj2 (by omega))
            (by intro j1 j2 h1 h2 h3
                exact absurd h3 (by omega))
            (by intro j hj1 hj2
                exact absurd hj2 (by omega))
            (by intro i hi1 hi2 hno
                exact absurd hi2 (by omega))
            (by intro i hi
                exact k18 i hi)
            (by intro i hi1 hi2
                exact k19 i hi1 hi2)
          refine ⟨_, _, rfl, ?_, d2, d3.trans k2, ?_, ?_⟩
          · rw [d1]
            omega
          · intro i hi
            rw [d1] at hi
            exact d4 i hi
          · intro i hi1 hi2
            rw [d1] at hi1
            exact d5 i hi1 hi2
    · rw [decide_eq_false hisd, if_neg Bool.false_ne_true]
      rcases hX : block_iter c piv false v b with ⟨P1, B1⟩
      obtain ⟨k1, k2, k3, k4, k5, k6, k7, k8, k9, k10, k11, k12, k13, k14,
          k15, k16, k17, k18, k19, k20, k21⟩ :=
        block_body_spec c piv n v b hv i3 i4 i7 i8 (by omega) (by omega) i6
          (by omega) (fun h => ⟨i9, i1, i13⟩) (fun h => ⟨i10, i2, i14⟩)
          s1 s2 s3 s4 P1 B1 hX
      have hBInv : BInv n B1 := by
        refine ⟨by rw [k5]; exact i1, by rw [k6]; exact i2, k3, k4, ?_, ?_,
          k7, k8, by omega, by omega, k11, ?_, ?_, ?_⟩
        · by_cases hL : B1.start_l < B1.len_l
          · have h1 := k12 hL
            have h2 : ¬B1.start_r < B1.len_r := fun h => k11 ⟨hL, h⟩
            have h3 := k15 h2
            omega
          · have h1 := k13 hL
            by_cases hR : B1.start_r < B1.len_r
            · have h2 := k14 hR
              omega
            · have h2 := k15 hR
              omega
        · by_cases hR : B1.start_r < B1.len_r
          · rw [k14 hR]
            exact i6
          · have h2 := k15 hR
            omega
        · intro hp
          rcases hp with hL | hR
          · have h1 := k12 hL
            have h2 : ¬B1.start_r < B1.len_r := fun h => k11 ⟨hL, h⟩
            have h3 := k15 h2
            omega
          · have h2 := k14 hR
            have h1 : ¬B1.start_l < B1.len_l := fun h => k11 ⟨h, hR⟩
            have h3 := k13 h1
            omega
        · intro j hj1 hj2
          have := k16 j hj1 hj2
          omega
        · intro j hj1 hj2
          have := k17 j hj1 hj2
          omega
      have hSInv : SInv c piv n P1 B1 := by
        refine ⟨k18, k19, ?_, ?_⟩
        · intro h
          have h2 := k20 h
          rw [i1] at h2
          exact h2
        · intro h
          have h2 := k21 h
          rw [i2] at h2
          exact h2
      have hfuel : B1.r - B1.l + 1 ≤ fuel := by
        by_cases hL : B1.start_l < B1.len_l
        · have h1 := k12 hL
          have h2 : ¬B1.start_r < B1.len_r := fun h => k11 ⟨hL, h⟩
          have h3 := k15 h2
          omega
        · have h1 := k13 hL
          by_cases hR : B1.start_r < B1.len_r
          · have h2 := k14 hR
            omega
          · have h2 := k15 hR
            omega
      obtain ⟨m, w, e1, e2, e3, e4, e5, e6⟩ := ih P1 B1 k1 hBInv hSInv hfuel
      exact ⟨m, w, e1, e2, e3, e4.trans k2, e5, e6⟩

theorem partition_in_blocks_spec (c : α → α → Ordering) (piv : α)
    (u : List α) (m : Nat) (sub : List α)
    (h : partition_in_blocks c piv u = some (m, sub)) :
    m ≤ u.length ∧ sub.length = u.length ∧ sub.Perm u ∧
    (∀ i, i < m → c (get sub i) piv = .lt) ∧
    (∀ i, m ≤ i → i < u.length → c (get sub i) piv ≠ .lt) := by
  have hBi : BInv u.length (block_init u.length) := by
    unfold BInv block_init
    dsimp only
    refine ⟨rfl, rfl, by rw [List.length_replicate], by rw [List.length_replicate],
      by omega, le_refl _, le_refl 0, le_refl 0, by omega, by omega,
      by omega, by omega, fun j h1 h2 => absurd h2 (by omega),
      fun j h1 h2 => absurd h2 (by omega)⟩
  have hSi : SInv c piv u.length u (block_init u.length) := by
    unfold SInv block_init
    dsimp only
    exact ⟨fun i hi => absurd hi (by omega),
      fun i hi1 hi2 => absurd hi1 (by omega),
      fun h => absurd h (by omega), fun h => absurd h (by omega)⟩
  obtain ⟨m2, w, e1, e2, e3, e4, e5, e6⟩ := block_loop_spec c piv u.length
    (u.length + 2) u (block_init u.length) rfl hBi hSi
    (by unfold block_init; dsimp only; omega)
  unfold partition_in_blocks at h
  rw [e1] at h
  injection h with h2
  injection h2 with hm hw
  subst m
  subst sub
  exact ⟨e2, e3, e4, e5, e6⟩

/-! ### Reads through append, take and drop -/

theorem get_cons_succ (a : α) (t : List α) (j : Nat) :
    get (a :: t) (j + 1) = get t j := by
  simp [get]

theorem get_cons_zero (a : α) (t : List α) : get (a :: t) 0 = a := rfl

theorem get_take_eq (w : List α) (b o : Nat) (h1 : o < b)
    (h2 : o < w.length) : get (w.take b) o = get w o := by
  rw [get_eq_getElem _ _ (by rw [List.length_take]; omega),
    get_eq_getElem _ _ h2]
  simp

theorem get_drop_eq (w : List α) (a o : Nat) (h : a + o < w.length) :
    get (w.drop a) o = get w (a + o) := by
  rw [get_eq_getElem _ _ (by rw [List.length_drop]; omega),
    get_eq_getElem _ _ h]
  exact List.getElem_drop _

theorem get_append_left_eq (A B : List α) (o : Nat) (h : o < A.length) :
    get (A ++ B) o = get A o := by
  rw [get_eq_getElem _ _ (by rw [List.length_append]; omega),
    get_eq_getElem _ _ h]
  exact List.getElem_append_left _

theorem get_append_right_eq (A B : List α) (o : Nat) (h1 : A.length ≤ o)
    (h2 : o - A.length < B.length) :
    get (A ++ B) o = get B (o - A.length) := by
  rw [get_eq_getElem _ _ (by rw [List.length_append]; omega),
    get_eq_getElem _ _ h2]
  exact List.getElem_append_right h1

/-- Specification of `partition`: the returned slice is a permutation, the
element at the returned index is the pivot, everything before it is Less
than the pivot and nothing after it is. -/
theorem partition_spec (c : α → α → Ordering) (v : List α) (pivot : Nat)
    (hlen : 0 < v.length) (mid2 : Nat) (wasp : Bool) (v2 : List α)
    (h : partition c v pivot = some (mid2, wasp, v2)) :
    v2.Perm v ∧ v2.length = v.length ∧ mid2 < v.length ∧
    (∀ x ∈ v2.take mid2, c x (get v2 mid2) = .lt) ∧
    (∀ x ∈ v2.drop (mid2 + 1), c x (get v2 mid2) ≠ .lt) := by
  unfold partition at h
  dsimp only at h
  set v1 := swap v 0 pivot with hv1
  set piv := get v1 0 with hpiv
  set w := v1.drop 1 with hw
  set l := scan_l c piv w (w.length + 1) 0 w.length with hl
  set r := scan_r c piv w (w.length + 1) l w.length with hr
  have hv1len : v1.length = v.length := by
    rw [hv1, length_swap]
  have hwlen : w.length = v.length - 1 := by
    rw [hw, List.length_drop, hv1len]
  obtain ⟨sl1, sl2, sl3, sl4⟩ := scan_l_spec c piv w (w.length + 1) 0
    w.length (by omega)
  rw [← hl] at sl1 sl2 sl3 sl4
  have hlw : l ≤ w.length := sl2 (by omega)
  obtain ⟨sr1, sr2, sr3, sr4⟩ := scan_r_spec c piv w (w.length + 1) l
    w.length (by omega)
  rw [← hr] at sr1 sr2 sr3 sr4
  have hlr : l ≤ r := sr2 hlw
  cases hm : partition_in_blocks c piv ((w.take r).drop l) with
  | none =>
    rw [hm] at h
    exact Option.noConfusion h
  | some p =>
    rcases p with ⟨m, sub⟩
    rw [hm] at h
    injection h with h2
    injection h2 with hmid h3
    injection h3 with hwas hv2
    subst mid2
    subst v2
    have hul : ((w.take r).drop l).length = r - l := by
      rw [List.length_drop, List.length_take]
      omega
    obtain ⟨pb1, pb2, pb3, pb4, pb5⟩ :=
      partition_in_blocks_spec c piv ((w.take r).drop l) m sub hm
    rw [hul] at pb1 pb2 pb5
    have hsublen : sub.length = r - l := pb2
    have hw2 : (w.take l ++ sub ++ w.drop r).Perm w := by
      have h1 : (w.take l ++ sub).Perm (w.take l ++ (w.take r).drop l) :=
        List.Perm.append_left _ pb3
      refine (h1.append_right (w.drop r)).trans ?_
      rw [take_middle_eq w l r hlr, List.take_append_drop]
    have hfull : (v1.take 1 ++ (w.take l ++ sub ++ w.drop r)).Perm v := by
      have h1 : (v1.take 1 ++ (w.take l ++ sub ++ w.drop r)).Perm
          (v1.take 1 ++ w) := List.Perm.append_left _ hw2
      refine h1.trans ?_
      rw [hw, List.take_append_drop, hv1]
      exact swap_perm v 0 pivot
    have hfl : (v1.take 1 ++ (w.take l ++ sub ++ w.drop r)).length =
        v.length := hfull.length_eq
    have hmidlt : l + m < v.length := by omega
    have hv1take : v1.take 1 = [piv] := by
      have h1 := drop_get_cons v1 0 (by omega)
      rw [List.drop_zero, ← hpiv, ← hw] at h1
      rw [h1]
      rfl
    have hfull0 : get (v1.take 1 ++ (w.take l ++ sub ++ w.drop r)) 0 =
        piv := by
      rw [hv1take]
      rfl
    have hpivval : get (swap (v1.take 1 ++ (w.take l ++ sub ++ w.drop r)) 0
        (l + m)) (l + m) = piv := by
      rw [get_swap_right _ 0 (l + m) (by rw [hfl]; omega) (by rw [hfl]; omega)]
      exact hfull0
    have htklen : (w.take l).length = l := by
      rw [List.length_take]
      omega
    have hW2lt : ∀ o, o < l + m →
        c (get (w.take l ++ sub ++ w.drop r) o) piv = .lt := by
      intro o ho
      by_cases hol : o < l
      · rw [get_append_left_eq _ _ o (by rw [List.length_append, htklen]; omega)]
        rw [get_append_left_eq _ _ o (by rw [htklen]; omega)]
        rw [get_take_eq w l o hol (by omega)]
        exact sl3 o (by omega) hol
      · rw [get_append_left_eq _ _ o (by rw [List.length_append, htklen]; omega)]
        rw [get_append_right_eq _ _ o (by rw [htklen]; omega)
          (by rw [htklen]; omega)]
        rw [htklen]
        exact pb4 (o - l) (by omega)
    have hW2ge : ∀ o, l + m ≤ o → o < w.length →
        c (get (w.take l ++ sub ++ w.drop r) o) piv ≠ .lt := by
      intro o ho1 ho2
      by_cases hor : o < r
      · rw [get_append_left_eq _ _ o (by rw [List.length_append, htklen]; omega)]
        rw [get_append_right_eq _ _ o (by rw [htklen]; omega)
          (by rw [htklen]; omega)]
        rw [htklen]
        exact pb5 (o - l) (by omega) (by omega)
      · rw [get_append_right_eq _ _ o
          (by rw [List.length_append, htklen]; omega)
          (by rw [List.length_append, htklen, List.length_drop]; omega)]
        rw [show (w.take l ++ sub).length = r from
          by rw [List.length_append, htklen]; omega]
        rw [get_drop_eq w r (o - r) (by omega)]
        rw [show r + (o - r) = o from by omega]
        exact sr3 o (by omega) ho2
    refine ⟨(swap_perm _ 0 (l + m)).trans hfull, by rw [length_swap, hfl],
      hmidlt, ?_, ?_⟩
    · intro x hx
      rw [hpivval]
      obtain ⟨j, hj1, hj2, hj3⟩ := mem_take_get _ (l + m) x hx
      rw [length_swap, hfl] at hj2
      rw [hj3]
      by_cases hj0 : j = 0
      · rw [hj0, get_swap_left _ 0 (l + m) (by rw [hfl]; omega)
          (by rw [hfl]; omega)]
        rw [hv1take, List.singleton_append]
        rw [show l + m = (l + m - 1) + 1 from by omega, get_cons_succ]
        exact hW2lt (l + m - 1) (by omega)
      · rw [get_swap_other _ 0 (l + m) j (hj0) (by omega)]
        rw [hv1take, List.singleton_append]
        rw [show j = (j - 1) + 1 from by omega, get_cons_succ]
        exact hW2lt (j - 1) (by omega)
    · intro x hx
      rw [hpivval]
      obtain ⟨j, hj1, hj2, hj3⟩ := mem_drop_get _ (l + m + 1) x hx
      rw [length_swap, hfl] at hj2
      rw [hj3]
      rw [get_swap_other _ 0 (l + m) j (by omega) (by omega)]
      rw [hv1take, List.singleton_append]
      rw [show j = (j - 1) + 1 from by omega, get_cons_succ]
      exact hW2ge (j - 1) (by omega) (by omega)

theorem cmp_refl_eq (c : α → α → Ordering) (hc : IsTotalCmp c) (a : α) :
    c a a = .eq := by
  have h2 := hc.symm a a
  cases hval : c a a with
  | lt =>
    rw [hval] at h2
    exact absurd h2 (by decide)
  | eq => rfl
  | gt =>
    rw [hval] at h2
    exact absurd h2 (by decide)

theorem get_mem (v : List α) (j : Nat) (h : j < v.length) : get v j ∈ v := by
  rw [get_eq_getElem v j h]
  exact List.getElem_mem h

/-- Specification of the `partition_equal` loop: on a slice whose elements
are all at least the pivot, it separates an equal prefix from a Greater
suffix. -/
theorem pe_go_spec (c : α → α → Ordering) (hc : IsTotalCmp c) (piv : α) :
    ∀ fuel (w : List α) l r, l ≤ r → r ≤ w.length → r - l ≤ fuel →
      (∀ i, i < l → c (get w i) piv = .eq) →
      (∀ i, r ≤ i → i < w.length → c (get w i) piv = .gt) →
      (∀ x ∈ w, c piv x ≠ .gt) →
      (pe_go c piv fuel w l r).2.Perm w ∧
      (pe_go c piv fuel w l r).2.length = w.length ∧
      (pe_go c piv fuel w l r).1 ≤ w.length ∧
      (∀ i, i < (pe_go c piv fuel w l r).1 →
        c (get (pe_go c piv fuel w l r).2 i) piv = .eq) ∧
      (∀ i, (pe_go c piv fuel w l r).1 ≤ i → i < w.length →
        c (get (pe_go c piv fuel w l r).2 i) piv = .gt) := by
  intro fuel
  induction fuel with
  | zero =>
    intro w l r hlr hrw hf hpre hsuf hall
    dsimp only [pe_go]
    exact ⟨List.Perm.refl w, rfl, by omega, hpre,
      fun i hi1 hi2 => hsuf i (by omega) hi2⟩
  | succ fuel ih =>
    intro w l r hlr hrw hf hpre hsuf hall
    simp only [pe_go]
    by_cases hlr0 : l < r
    · rw [if_pos hlr0]
      obtain ⟨e1, e2, e3, e4⟩ := scan_eq_l_spec c piv w (r - l) l r (by omega)
      obtain ⟨g1, g2, g3, g4⟩ := scan_gt_r_spec c piv w
        (r - scan_eq_l c piv w (r - l) l r) (scan_eq_l c piv w (r - l) l r) r
        (by omega)
      by_cases h22 : scan_eq_l c piv w (r - l) l r <
          scan_gt_r c piv w (r - scan_eq_l c piv w (r - l) l r)
            (scan_eq_l c piv w (r - l) l r) r
      · rw [if_pos h22]
        have he2 := e2 hlr0.le
        have hg2 := g2 he2
        have hxl2 : c (get w (scan_eq_l c piv w (r - l) l r)) piv = .gt := by
          have hne := e4 (by omega)
          have hge := cmp_swap_le c hc piv _
            (hall _ (get_mem w (scan_eq_l c piv w (r - l) l r) (by omega)))
          cases hval : c (get w (scan_eq_l c piv w (r - l) l r)) piv with
          | lt => exact absurd hval hge
          | eq => exact absurd hval hne
          | gt => rfl
        have hxr2 : c (get w (scan_gt_r c piv w
            (r - scan_eq_l c piv w (r - l) l r)
            (scan_eq_l c piv w (r - l) l r) r - 1)) piv = .eq := by
          have hne := g4 h22
          have hge := cmp_swap_le c hc piv _
            (hall _ (get_mem w (scan_gt_r c piv w
              (r - scan_eq_l c piv w (r - l) l r)
              (scan_eq_l c piv w (r - l) l r) r - 1) (by omega)))
          cases hval : c (get w (scan_gt_r c piv w
              (r - scan_eq_l c piv w (r - l) l r)
              (scan_eq_l c piv w (r - l) l r) r - 1)) piv with
          | lt => exact absurd hval hge
          | eq => rfl
          | gt => exact absurd hval hne
        have hne12 : scan_eq_l c piv w (r - l) l r ≠
            scan_gt_r c piv w (r - scan_eq_l c piv w (r - l) l r)
              (scan_eq_l c piv w (r - l) l r) r - 1 := by
          intro heq2
          rw [← heq2] at hxr2
          rw [hxl2] at hxr2
          exact absurd hxr2 (by decide)
        have hlt12 : scan_eq_l c piv w (r - l) l r + 1 ≤
            scan_gt_r c piv w (r - scan_eq_l c piv w (r - l) l r)
              (scan_eq_l c piv w (r - l) l r) r - 1 := by omega
        have hbl2 : scan_eq_l c piv w (r - l) l r < w.length := by omega
        have hbr2 : scan_gt_r c piv w (r - scan_eq_l c piv w (r - l) l r)
            (scan_eq_l c piv w (r - l) l r) r - 1 < w.length := by omega
        obtain ⟨q1, q2, q3, q4, q5⟩ := ih
          (swap w (scan_eq_l c piv w (r - l) l r)
            (scan_gt_r c piv w (r - scan_eq_l c piv w (r - l) l r)
              (scan_eq_l c piv w (r - l) l r) r - 1))
          (scan_eq_l c piv w (r - l) l r + 1)
          (scan_gt_r c piv w (r - scan_eq_l c piv w (r - l) l r)
            (scan_eq_l c piv w (r - l) l r) r - 1)
          hlt12 (by rw [length_swap]; omega) (by omega)
          (by intro i hi
              by_cases hil : i = scan_eq_l c piv w (r - l) l r
              · rw [hil, get_swap_left _ _ _ hbl2 hbr2]
                exact hxr2
              · rw [get_swap_other _ _ _ i hil (by omega)]
                by_cases hil2 : i < l
                · exact hpre i hil2
                · exact e3 i (by omega) (by omega))
          (by intro i hi1 hi2
              rw [length_swap] at hi2
              by_cases hir : i = scan_gt_r c piv w
                  (r - scan_eq_l c piv w (r - l) l r)
                  (scan_eq_l c piv w (r - l) l r) r - 1
              · rw [hir, get_swap_right _ _ _ hbl2 hbr2]
                exact hxl2
              · rw [get_swap_other _ _ _ i (by omega) hir]
                by_cases hir2 : i < r
                · exact g3 i (by omega) hir2
                · exact hsuf i (by omega) hi2)
          (by intro x hx
              exact hall x ((swap_perm _ _ _).mem_iff.mp hx))
        rw [length_swap] at q2 q3 q5
        refine ⟨q1.trans (swap_perm _ _ _), q2, q3, q4, q5⟩
      · rw [if_neg h22]
        have he2 := e2 hlr0.le
        refine ⟨List.Perm.refl w, rfl, by omega, ?_, ?_⟩
        · intro i hi
          by_cases hil : i < l
          · exact hpre i hil
          · exact e3 i (by omega) hi
        · intro i hi1 hi2
          by_cases hir : i < r
          · exact g3 i (by omega) hir
          · exact hsuf i (by omega) hi2
    · rw [if_neg hlr0]
      exact ⟨List.Perm.refl w, rfl, by omega, hpre,
        fun i hi1 hi2 => hsuf i (by omega) hi2⟩

/-- Specification of `partition_equal` on a slice whose elements are all at
least the chosen pivot: it returns the size of the equal prefix (pivot
included); past that prefix everything is strictly Greater. -/
theorem partition_equal_spec (c : α → α → Ordering) (hc : IsTotalCmp c)
    (v : List α) (mid : Nat) (hlen : 0 < v.length)
    (hall : ∀ x ∈ v, c (get (swap v 0 mid) 0) x ≠ .gt) :
    (partition_equal c v mid).2.Perm v ∧
    (partition_equal c v mid).2.length = v.length ∧
    1 ≤ (partition_equal c v mid).1 ∧
    (partition_equal c v mid).1 ≤ v.length ∧
    (∀ x ∈ (partition_equal c v mid).2.take (partition_equal c v mid).1,
      c x (get (swap v 0 mid) 0) = .eq) ∧
    (∀ x ∈ (partition_equal c v mid).2.drop (partition_equal c v mid).1,
      c x (get (swap v 0 mid) 0) = .gt) := by
  unfold partition_equal
  dsimp only
  have hv1len : (swap v 0 mid).length = v.length := length_swap v 0 mid
  have hwlen : ((swap v 0 mid).drop 1).length = v.length - 1 := by
    rw [List.length_drop, hv1len]
  obtain ⟨q1, q2, q3, q4, q5⟩ := pe_go_spec c hc (get (swap v 0 mid) 0)
    (((swap v 0 mid).drop 1).length + 1) ((swap v 0 mid).drop 1) 0
    ((swap v 0 mid).drop 1).length (by omega) (le_refl _) (by omega)
    (fun i hi => absurd hi (by omega))
    (fun i hi1 hi2 => absurd hi1 (by omega))
    (by intro x hx
        refine hall x ?_
        refine (swap_perm v 0 mid).mem_iff.mp ?_
        exact List.mem_of_mem_drop hx)
  have hv1take : (swap v 0 mid).take 1 = [get (swap v 0 mid) 0] := by
    have h1 := drop_get_cons (swap v 0 mid) 0 (by omega)
    rw [List.drop_zero] at h1
    rw [h1]
    rfl
  rw [hv1take]
  rw [List.singleton_append]
  refine ⟨?_, ?_, by omega, by omega, ?_, ?_⟩
  · refine List.Perm.trans (List.Perm.cons _ q1) ?_
    have h1 := drop_get_cons (swap v 0 mid) 0 (by omega)
    rw [List.drop_zero] at h1
    rw [← h1]
    exact swap_perm v 0 mid
  · rw [List.length_cons, q2]
    omega
  · intro x hx
    rw [List.take_succ_cons] at hx
    rcases List.mem_cons.mp hx with hx0 | hx1
    · rw [hx0]
      exact cmp_refl_eq c hc _
    · obtain ⟨j, hj1, hj2, hj3⟩ := mem_take_get _ _ x hx1
      rw [hj3]
      exact q4 j hj1
  · intro x hx
    rw [List.drop_succ_cons] at hx
    obtain ⟨j, hj1, hj2, hj3⟩ := mem_drop_get _ _ x hx
    rw [q2] at hj2
    rw [hj3]
    exact q5 j hj1 hj2

/-! ### `is_presorted` and auxiliary order facts -/

theorem choose_pivot_snd (c : α → α → Ordering) (v : List α) :
    (choose_pivot c v).2 = v.length / 4 * 2 := by
  unfold choose_pivot
  dsimp only
  by_cases h4 : 4 ≤ v.length
  · rw [if_pos h4]
  · rw [if_neg h4]

theorem has_adj_spec (c : α → α → Ordering) (o : Ordering) (v : List α) :
    ∀ fuel i, v.length ≤ i + fuel →
      (has_adj c o fuel i v = false ↔
        ∀ j, i ≤ j → j < v.length → c (get v (j - 1)) (get v j) ≠ o) := by
  intro fuel
  induction fuel with
  | zero =>
    intro i hf
    dsimp only [has_adj]
    exact ⟨fun _ j hj1 hj2 => absurd hj2 (by omega), fun _ => rfl⟩
  | succ fuel ih =>
    intro i hf
    dsimp only [has_adj]
    by_cases hi : i < v.length
    · rw [if_pos hi]
      by_cases hcmp : c (get v (i - 1)) (get v i) = o
      · rw [if_pos hcmp]
        constructor
        · intro hcon
          exact absurd hcon (by decide)
        · intro h
          exact absurd hcmp (h i (le_refl i) hi)
      · rw [if_neg hcmp]
        rw [ih (i + 1) (by omega)]
        constructor
        · intro h j hj1 hj2
          by_cases hji : j = i
          · rw [hji]
            exact hcmp
          · exact h j (by omega) hj2
        · intro h j hj1 hj2
          exact h j (by omega) hj2
    · rw [if_neg hi]
      exact ⟨fun _ j hj1 hj2 => absurd hj2 (by omega), fun _ => rfl⟩

theorem is_presorted_perm (c : α → α → Ordering) (v : List α) :
    (is_presorted c v).1.Perm v := by
  unfold is_presorted
  by_cases h2 : 2 ≤ v.length
  · rw [if_pos h2]
    by_cases hgt : c (get v 0) (get v 1) = .gt
    · rw [if_pos hgt]
      by_cases hadj : has_adj c .lt v.length 2 v = true
      · rw [if_pos hadj]
      · rw [if_neg hadj]
        exact List.reverse_perm v
    · rw [if_neg hgt]
      by_cases hadj : has_adj c .gt v.length 2 v = true
      · rw [if_pos hadj]
      · rw [if_neg hadj]
  · rw [if_neg h2]

/-- When `is_presorted` reports success, the slice it returns is ascending:
either the input was already ascending, or it was (weakly) descending and
has been reversed. -/
theorem is_presorted_true_asc (c : α → α → Ordering) (hc : IsTotalCmp c)
    (v : List α) (h : (is_presorted c v).2 = true) :
    Ascending c (is_presorted c v).1 := by
  unfold is_presorted at h ⊢
  by_cases h2 : 2 ≤ v.length
  · rw [if_pos h2] at h ⊢
    by_cases hgt : c (get v 0) (get v 1) = .gt
    · rw [if_pos hgt] at h ⊢
      by_cases hadj : has_adj c .lt v.length 2 v = true
      · rw [if_pos hadj] at h
        exact absurd h Bool.false_ne_true
      · rw [if_neg hadj]
        dsimp only
        have hfalse : has_adj c .lt v.length 2 v = false :=
          Bool.eq_false_iff.mpr hadj
        have hall := (has_adj_spec c .lt v v.length 2 (by omega)).mp hfalse
        unfold Ascending
        rw [List.chain'_reverse]
        rw [List.chain'_iff_get]
        intro i hi
        rw [List.get_eq_getElem, List.get_eq_getElem,
          ← get_eq_getElem v i (by omega), ← get_eq_getElem v (i + 1) (by omega)]
        show c (get v (i + 1)) (get v i) ≠ .gt
        refine cmp_swap_ge c hc _ _ ?_
        by_cases hi1 : i = 0
        · rw [hi1]
          rw [hgt]
          decide
        · have := hall (i + 1) (by omega) (by omega)
          rw [show i + 1 - 1 = i from by omega] at this
          exact this
    · rw [if_neg hgt] at h ⊢
      by_cases hadj : has_adj c .gt v.length 2 v = true
      · rw [if_pos hadj] at h
        exact absurd h Bool.false_ne_true
      · rw [if_neg hadj]
        dsimp only
        have hfalse : has_adj c .gt v.length 2 v = false :=
          Bool.eq_false_iff.mpr hadj
        have hall := (has_adj_spec c .gt v v.length 2 (by omega)).mp hfalse
        unfold Ascending
        rw [List.chain'_iff_get]
        intro i hi
        rw [List.get_eq_getElem, List.get_eq_getElem,
          ← get_eq_getElem v i (by omega), ← get_eq_getElem v (i + 1) (by omega)]
        by_cases hi1 : i = 0
        · rw [hi1]
          exact hgt
        · have := hall (i + 1) (by omega) (by omega)
          rw [show i + 1 - 1 = i from by omega] at this
          exact this
  · rw [if_neg h2]
    exact ascending_short c v (by omega)

/-- On an already ascending slice, `is_presorted` succeeds and returns the
slice unchanged. -/
theorem is_presorted_of_asc (c : α → α → Ordering) (v : List α)
    (h : Ascending c v) : is_presorted c v = (v, true) := by
  unfold is_presorted
  by_cases h2 : 2 ≤ v.length
  · rw [if_pos h2]
    have hadjacent : ∀ i, i + 1 < v.length →
        c (get v i) (get v (i + 1)) ≠ .gt := by
      intro i hi
      unfold Ascending at h
      rw [List.chain'_iff_get] at h
      have := h i (by omega)
      rw [List.get_eq_getElem, List.get_eq_getElem,
        ← get_eq_getElem v i (by omega),
        ← get_eq_getElem v (i + 1) (by omega)] at this
      exact this
    rw [if_neg (hadjacent 0 (by omega))]
    have hfalse : has_adj c .gt v.length 2 v = false := by
      rw [has_adj_spec c .gt v v.length 2 (by omega)]
      intro j hj1 hj2
      have := hadjacent (j - 1) (by omega)
      rw [show j - 1 + 1 = j from by omega] at this
      exact this
    rw [hfalse]
    rfl
  · rw [if_neg h2]

/-- A list of elements all comparing Equal to a common value is ascending. -/
theorem asc_of_all_eq (c : α → α → Ordering) (hc : IsTotalCmp c) (piv : α)
    (L : List α) (h : ∀ x ∈ L, c x piv = .eq) : Ascending c L := by
  unfold Ascending
  rw [List.chain'_iff_get]
  intro i hi
  have hb1 : i < L.length := by omega
  have hb2 : i + 1 < L.length := by omega
  have h1 := h (L.get ⟨i, hb1⟩) (L.get_mem i hb1)
  have h2 := h (L.get ⟨i + 1, hb2⟩) (L.get_mem (i + 1) hb2)
  refine hc.le_trans _ piv _ ?_ ?_
  · rw [h1]
    decide
  · rw [cmp_swap_eq c hc _ _ h2]
    decide

/-- The natural-order comparator is a total-order comparator. -/
theorem natCmp_total : IsTotalCmp natCmp := by
  constructor
  · intro a b
    unfold natCmp
    rcases Nat.lt_trichotomy a b with h | h | h
    · rw [Nat.compare_eq_lt.mpr h, Nat.compare_eq_gt.mpr h]
      rfl
    · rw [h, Nat.compare_eq_eq.mpr rfl]
      rfl
    · rw [Nat.compare_eq_gt.mpr h, Nat.compare_eq_lt.mpr h]
      rfl
  · intro a b k hab hbk
    unfold natCmp at hab hbk ⊢
    have h1 : a ≤ b := by
      by_contra hcon
      exact hab (Nat.compare_eq_gt.mpr (by omega))
    have h2 : b ≤ k := by
      by_contra hcon
      exact hbk (Nat.compare_eq_gt.mpr (by omega))
    intro h3
    have := Nat.compare_eq_gt.mp h3
    omega

/-- Master correctness of the fuelled `quicksort`: under a total comparator
and the invariant that any predecessor pivot is a lower bound for the slice,
a normal return is an ascending permutation of the input. -/
theorem quicksortF_spec (c : α → α → Ordering) (hc : IsTotalCmp c)
    (tSize : Nat) :
    ∀ fuel (v : List α) pred limit w,
      (∀ p, pred = some p → ∀ x ∈ v, c p x ≠ .gt) →
      quicksortF c tSize fuel v pred limit = some w →
      Ascending c w ∧ w.Perm v := by
  intro fuel
  induction fuel with
  | zero =>
    intro v pred limit w hpred h
    exact Option.noConfusion h
  | succ fuel ih =>
    intro v pred limit w hpred h
    simp only [quicksortF] at h
    have hMI : 16 ≤ (if tSize ≤ 2 * 8 then 32 else 16 : Nat) := by
      by_cases hts : tSize ≤ 2 * 8
      · rw [if_pos hts]
        omega
      · rw [if_neg hts]
    by_cases hlen : v.length ≤ (if tSize ≤ 2 * 8 then 32 else 16 : Nat)
    · rw [if_pos hlen] at h
      injection h with h2
      subst w
      exact insertion_sort_spec c hc v
    · rw [if_neg hlen] at h
      by_cases hlim : limit = 0
      · rw [if_pos hlim] at h
        injection h with h2
        subst w
        exact heapsort_spec c hc v
      · rw [if_neg hlim] at h
        have hcp : (choose_pivot c v).1.Perm v := choose_pivot_perm c v
        have hcplen : (choose_pivot c v).1.length = v.length := hcp.length_eq
        have hv0 : 0 < v.length := by omega
        have hmidlt : (choose_pivot c v).2 < (choose_pivot c v).1.length := by
          rw [choose_pivot_snd, hcplen]
          omega
        split at h
        next hgo =>
          cases pred with
          | none => exact absurd hgo Bool.false_ne_true
          | some p =>
            have hpq : c p (get (choose_pivot c v).1 (choose_pivot c v).2) =
                .eq := of_decide_eq_true hgo
            have hallv1 : ∀ x ∈ (choose_pivot c v).1,
                c (get (swap (choose_pivot c v).1 0 (choose_pivot c v).2) 0)
                  x ≠ .gt := by
              intro x hx
              rw [get_swap_left _ 0 (choose_pivot c v).2 (by omega) hmidlt]
              refine hc.le_trans _ p x ?_ ?_
              · rw [cmp_swap_eq c hc _ _ hpq]
                decide
              · exact hpred p rfl x (hcp.mem_iff.mp hx)
            obtain ⟨pq1, pq2, pq3, pq4, pq5, pq6⟩ := partition_equal_spec c
              hc (choose_pivot c v).1 (choose_pivot c v).2 (by omega) hallv1
            cases hrec : quicksortF c tSize fuel
                ((partition_equal c (choose_pivot c v).1
                  (choose_pivot c v).2).2.drop
                  (partition_equal c (choose_pivot c v).1
                    (choose_pivot c v).2).1) (some p) limit with
            | none =>
              rw [hrec] at h
              exact Option.noConfusion h
            | some w2 =>
              rw [hrec] at h
              dsimp only at h
              injection h with h2
              subst w
              obtain ⟨hAr, hPr⟩ := ih _ (some p) limit w2
                (by intro p' hp' x hx
                    injection hp' with hp''
                    rw [← hp'']
                    refine hpred p rfl x ?_
                    exact hcp.mem_iff.mp (pq1.mem_iff.mp
                      (List.mem_of_mem_drop hx)))
                hrec
              constructor
              · refine List.chain'_append.mpr ⟨?_, hAr, ?_⟩
                · exact asc_of_all_eq c hc _ _ pq5
                · intro x hx y hy
                  have hx2 := List.mem_of_mem_getLast? hx
                  have hy2 := hPr.mem_iff.mp (List.mem_of_mem_head? hy)
                  have h1 := pq5 x hx2
                  have h2 := pq6 y hy2
                  refine hc.le_trans x
                    (get (swap (choose_pivot c v).1 0 (choose_pivot c v).2) 0)
                    y ?_ ?_
                  · rw [h1]
                    decide
                  · rw [cmp_swap_gt c hc _ _ h2]
                    decide
              · refine (List.Perm.append_left _ hPr).trans ?_
                rw [List.take_append_drop]
                exact pq1.trans hcp
        next hgo =>
          cases hpart : partition c (choose_pivot c v).1 (choose_pivot c v).2
            with
          | none =>
            rw [hpart] at h
            exact Option.noConfusion h
          | some t =>
            rcases t with ⟨mid2, wasp, v2⟩
            rw [hpart] at h
            dsimp only at h
            obtain ⟨ps1, ps2, ps3, ps4, ps5⟩ := partition_spec c
              (choose_pivot c v).1 (choose_pivot c v).2 (by omega)
              mid2 wasp v2 hpart
            have hv2v : v2.Perm v := ps1.trans hcp
            have hglue2 : ∀ lw rw2 : List α, Ascending c lw →
                Ascending c rw2 → lw.Perm (v2.take mid2) →
                rw2.Perm (v2.drop (mid2 + 1)) →
                Ascending c (lw ++ (v2.drop mid2).take 1 ++ rw2) ∧
                (lw ++ (v2.drop mid2).take 1 ++ rw2).Perm v := by
              intro lw rw2 hAl hAr hPl hPr
              have hpivL : (v2.drop mid2).take 1 = [get v2 mid2] := by
                rw [drop_get_cons v2 mid2 (by omega)]
                rfl
              have hpdeq : (v2.take mid2 ++ [get v2 mid2]) ++
                  v2.drop (mid2 + 1) = v2 := by
                rw [← hpivL]
                exact take_piv_drop' v2 mid2
              rw [hpivL]
              constructor
              · rw [List.append_assoc, List.singleton_append]
                refine ascending_glue c lw rw2 (get v2 mid2) hAl hAr ?_ ?_
                · intro x hx
                  rw [ps4 x (hPl.mem_iff.mp hx)]
                  decide
                · intro y hy
                  exact cmp_swap_ge c hc _ _
                    (ps5 y (hPr.mem_iff.mp (List.mem_of_mem_head? hy)))
              · refine (List.Perm.append (hPl.append_right _) hPr).trans ?_
                rw [hpdeq]
                exact hv2v
            have main : ∀ (L R : List α) lim (lw rw2 : List α),
                L.Perm (v2.take mid2) → R.Perm (v2.drop (mid2 + 1)) →
                quicksortF c tSize fuel L pred lim = some lw →
                quicksortF c tSize fuel R (some (get v2 mid2)) lim =
                  some rw2 →
                Ascending c (lw ++ (v2.drop mid2).take 1 ++ rw2) ∧
                (lw ++ (v2.drop mid2).take 1 ++ rw2).Perm v := by
              intro L R lim lw rw2 hL hR h1 h2
              obtain ⟨hAl, hPl⟩ := ih L pred lim lw
                (fun p' hp' x hx => hpred p' hp' x
                  (hv2v.mem_iff.mp (List.mem_of_mem_take
                    (hL.mem_iff.mp hx)))) h1
              obtain ⟨hAr, hPr⟩ := ih R (some (get v2 mid2)) lim rw2
                (by intro p' hp' x hx
                    injection hp' with hp''
                    rw [← hp'']
                    exact cmp_swap_ge c hc _ _ (ps5 x (hR.mem_iff.mp hx)))
                h2
              exact hglue2 lw rw2 hAl hAr (hPl.trans hL) (hPr.trans hR)
            by_cases himb : (v2.take mid2).length < v.length / 8 ∨
                (v2.drop (mid2 + 1)).length < v.length / 8
            · rw [if_pos himb] at h
              dsimp only at h
              cases hrec1 : quicksortF c tSize fuel
                  (break_patterns (v2.take mid2)) pred (limit - 1) with
              | none =>
                rw [hrec1] at h
                exact Option.noConfusion h
              | some lw =>
                rw [hrec1] at h
                dsimp only at h
                cases hrec2 : quicksortF c tSize fuel
                    (break_patterns (v2.drop (mid2 + 1)))
                    (some (get v2 mid2)) (limit - 1) with
                | none =>
                  rw [hrec2] at h
                  exact Option.noConfusion h
                | some rw2 =>
                  rw [hrec2] at h
                  dsimp only at h
                  injection h with h2
                  subst w
                  exact main _ _ _ lw rw2 (break_patterns_perm _)
                    (break_patterns_perm _) hrec1 hrec2
            · rw [if_neg himb] at h
              by_cases hwp : wasp = true
              · rw [if_pos hwp] at h
                try dsimp only at h
                by_cases hpl :
                    (partial_insertion_sort c (v2.take mid2)).2 = true
                · rw [if_pos hpl] at h
                  try dsimp only at h
                  by_cases hpr :
                      (partial_insertion_sort c (v2.drop (mid2 + 1))).2 =
                        true
                  · rw [if_pos hpr] at h
                    try dsimp only at h
                    injection h with h2
                    subst w
                    obtain ⟨qa, qb⟩ := partial_insertion_sort_spec c hc
                      (v2.take mid2)
                    obtain ⟨ra, rb⟩ := partial_insertion_sort_spec c hc
                      (v2.drop (mid2 + 1))
                    exact hglue2 _ _ (qa hpl) (ra hpr) qb rb
                  · rw [if_neg hpr] at h
                    try dsimp only at h
                    obtain ⟨qa, qb⟩ := partial_insertion_sort_spec c hc
                      (v2.take mid2)
                    obtain ⟨ra, rb⟩ := partial_insertion_sort_spec c hc
                      (v2.drop (mid2 + 1))
                    cases hrec1 : quicksortF c tSize fuel
                        (partial_insertion_sort c (v2.take mid2)).1 pred
                        limit with
                    | none =>
                      rw [hrec1] at h
                      exact Option.noConfusion h
                    | some lw =>
                      rw [hrec1] at h
                      dsimp only at h
                      cases hrec2 : quicksortF c tSize fuel
                          (partial_insertion_sort c
                            (v2.drop (mid2 + 1))).1
                          (some (get v2 mid2)) limit with
                      | none =>
                        rw [hrec2] at h
                        exact Option.noConfusion h
                      | some rw2 =>
                        rw [hrec2] at h
                        dsimp only at h
                        injection h with h2
                        subst w
                        exact main _ _ _ lw rw2 qb rb hrec1 hrec2
                · rw [if_neg hpl] at h
                  try dsimp only at h
                  obtain ⟨qa, qb⟩ := partial_insertion_sort_spec c hc
                    (v2.take mid2)
                  cases hrec1 : quicksortF c tSize fuel
                      (partial_insertion_sort c (v2.take mid2)).1 pred
                      limit with
                  | none =>
                    rw [hrec1] at h
                    exact Option.noConfusion h
                  | some lw =>
                    rw [hrec1] at h
                    dsimp only at h
                    cases hrec2 : quicksortF c tSize fuel
                        (v2.drop (mid2 + 1)) (some (get v2 mid2)) limit with
                    | none =>
                      rw [hrec2] at h
                      exact Option.noConfusion h
                    | some rw2 =>
                      rw [hrec2] at h
                      dsimp only at h
                      injection h with h2
                      subst w
                      exact main _ _ _ lw rw2 qb (List.Perm.refl _)
                        hrec1 hrec2
              · rw [if_neg hwp] at h
                try dsimp only at h
                cases hrec1 : quicksortF c tSize fuel (v2.take mid2) pred
                    limit with
                | none =>
                  rw [hrec1] at h
                  exact Option.noConfusion h
                | some lw =>
                  rw [hrec1] at h
                  dsimp only at h
                  cases hrec2 : quicksortF c tSize fuel
                      (v2.drop (mid2 + 1)) (some (get v2 mid2)) limit with
                  | none =>
                    rw [hrec2] at h
                    exact Option.noConfusion h
                  | some rw2 =>
                    rw [hrec2] at h
                    dsimp only at h
                    injection h with h2
                    subst w
                    exact main _ _ _ lw rw2 (List.Perm.refl _)
                      (List.Perm.refl _) hrec1 hrec2


/-! ### The public entry point `sort_by`: sortedness and idempotence -/

theorem sort_by_some_asc (c : α → α → Ordering) (hc : IsTotalCmp c)
    (tSize : Nat) (hts : tSize ≠ 0) (v w : List α)
    (h : sort_by tSize c v = some w) : Ascending c w ∧ w.Perm v := by
  unfold sort_by at h
  rw [if_neg hts] at h
  dsimp only at h
  by_cases hp : (is_presorted c v).2 = true
  · rw [if_pos hp] at h
    injection h with h2
    subst w
    exact ⟨is_presorted_true_asc c hc v hp, is_presorted_perm c v⟩
  · rw [if_neg hp] at h
    obtain ⟨ha, hpm⟩ := quicksortF_spec c hc tSize (v.length + 1)
      (is_presorted c v).1 none (sortByLimit v.length) w
      (fun p hp' => Option.noConfusion hp') h
    exact ⟨ha, hpm.trans (is_presorted_perm c v)⟩

/-- C1: if the comparator `c` is a total order (reflexively `eq`, antisymmetric
in the `gt` sense captured by `IsTotalCmp`) and `sort_by` returns normally
(`some w`), then the result is sorted: for every `i` with `i + 1 < w.length`,
`c (get w i) (get w (i + 1)) ≠ .gt`.  The hypothesis `htz` is the faithful
reading of a zero-sized element type (`mem::size_of::<T>() = 0` forces all
values of `T` to be indistinguishable). -/
theorem sort_by_sorted (c : α → α → Ordering) (hc : IsTotalCmp c)
    (tSize : Nat) (v w : List α)
    (htz : tSize = 0 → ∀ a b : α, a = b)
    (h : sort_by tSize c v = some w) :
    ∀ i, i + 1 < w.length → c (get w i) (get w (i + 1)) ≠ .gt := by
  intro i hi
  by_cases hts : tSize = 0
  · unfold sort_by at h
    rw [if_pos hts] at h
    injection h with h2
    subst w
    rw [htz hts (get v i) (get v (i + 1)), cmp_refl_eq c hc]
    decide
  · obtain ⟨hA, _⟩ := sort_by_some_asc c hc tSize hts v w h
    rw [Ascending, List.chain'_iff_get] at hA
    have hh := hA i (by omega)
    rw [get_eq_getElem w i (by omega), get_eq_getElem w (i + 1) hi]
    simpa [List.get_eq_getElem] using hh

theorem sort_by_sorted_witness :
    natCmp (get ([1, 2, 3] : List Nat) 0) (get [1, 2, 3] 1) ≠ .gt :=
  sort_by_sorted natCmp natCmp_total 1 [2, 3, 1] [1, 2, 3]
    (fun h0 => absurd h0 (by decide)) rfl 0 (by decide)

/-- C9: `sort_by` is idempotent: if `c` is a total-order comparator and
`sort_by tSize c v` returns normally with result `w`, then sorting `w` again
returns `some w` unchanged (the presortedness check short-circuits). -/
theorem sort_by_idem (c : α → α → Ordering) (hc : IsTotalCmp c)
    (tSize : Nat) (v w : List α) (h : sort_by tSize c v = some w) :
    sort_by tSize c w = some w := by
  by_cases hts : tSize = 0
  · unfold sort_by
    rw [if_pos hts]
  · obtain ⟨hA, _⟩ := sort_by_some_asc c hc tSize hts v w h
    unfold sort_by
    rw [if_neg hts]
    dsimp only
    rw [is_presorted_of_asc c w hA]
    rfl

theorem sort_by_idem_witness :
    sort_by 1 natCmp [1, 2, 3] = some ([1, 2, 3] : List Nat) :=
  sort_by_idem natCmp natCmp_total 1 [2, 3, 1] [1, 2, 3] rfl


end Pdq

/-! ### Multiset preservation and panic propagation (towards C2 and C3) -/

namespace PdqM

open Pdq (get swap BLOCK MAX_INSERTIONS MIN_MEDIAN_OF_MEDIANS break_patterns
  sortByLimit swap_perm swap_perm_aux get_set_ne get_set_self break_patterns_perm
  take_piv_drop take_piv_drop' BState block_adjust block_advance block_init
  BInv AInv)

variable {α : Type u} [Inhabited α] {σ : Type v} {ε : Type w} {β γ : Type x}
variable {P : Set ε}

theorem GoodRes.mono {v₀ v₁ : List α} (hp : v₀.Perm v₁) {m : MRes σ ε α β}
    (h : GoodRes P v₀ m) : GoodRes P v₁ m := by
  cases m with
  | fuelout => trivial
  | fault => trivial
  | panic e v => exact ⟨h.1, h.2.trans hp⟩
  | ok s v r => exact List.Perm.trans h hp

theorem GoodRes.bind_good {m : MRes σ ε α β} {f : σ → List α → β → MRes σ ε α γ}
    {v₀ : List α} (hm : GoodRes P v₀ m)
    (hf : ∀ s w r, w.Perm v₀ → GoodRes P v₀ (f s w r)) :
    GoodRes P v₀ (m.bind f) := by
  cases m with
  | fuelout => trivial
  | fault => trivial
  | panic e v => exact hm
  | ok s v r => exact hf s v r hm

theorem insert_head_goM_good (cmp : Cmp σ ε α) (hP : FailsIn cmp P) (tmp : α)
    (v₀ : List α) :
    ∀ fuel s (v : List α) i, 1 ≤ i → ((v.set (i - 1) tmp).Perm v₀) →
      GoodRes P v₀ (insert_head_goM cmp tmp fuel s v (i - 1) i) := by
  intro fuel
  induction fuel with
  | zero =>
    intro s v i _ h2
    exact h2
  | succ fuel ih =>
    intro s v i h1 h2
    unfold insert_head_goM
    split
    next hlt =>
      cases hc : cmp s tmp (get v i) with
      | error e => exact ⟨hP _ _ _ _ hc, h2⟩
      | ok os =>
        obtain ⟨o, s'⟩ := os
        dsimp only
        split
        · exact h2
        · have hi1 : i - 1 < v.length := by omega
          have e1 : get (v.set (i - 1) tmp) i = get v i :=
            get_set_ne _ _ _ _ (by omega)
          have e2 : get (v.set (i - 1) tmp) (i - 1) = tmp :=
            get_set_self _ _ _ hi1
          have key0 := swap_perm_aux (v.set (i - 1) tmp) (i - 1) i
            (by simpa using hi1) (by simpa using hlt)
          rw [e1, e2, List.set_set] at key0
          have key : ((v.set (i - 1) (get v i)).set i tmp).Perm v₀ :=
            key0.trans h2
          have h3 := ih s' (v.set (i - 1) (get v i)) (i + 1) (by omega)
            (by simpa using key)
          simpa using h3
    next => exact h2

theorem insert_headM_good (cmp : Cmp σ ε α) (hP : FailsIn cmp P) (s : σ)
    (v : List α) : GoodRes P v (insert_headM cmp s v) := by
  unfold insert_headM
  split
  next h2 =>
    cases hc : cmp s (get v 0) (get v 1) with
    | error e => exact ⟨hP _ _ _ _ hc, List.Perm.refl v⟩
    | ok os =>
      obtain ⟨o, s'⟩ := os
      dsimp only
      split
      · have hkey := swap_perm_aux v 0 1 (by omega) (by omega)
        have h3 := insert_head_goM_good cmp hP (get v 0) v v.length s'
          (v.set 0 (get v 1)) 2 (by omega) (by simpa using hkey)
        simpa using h3
      · exact List.Perm.refl v
  next => exact List.Perm.refl v

theorem insert_head_atM_good (cmp : Cmp σ ε α) (hP : FailsIn cmp P) (i : Nat)
    (s : σ) (v : List α) : GoodRes P v (insert_head_atM cmp i s v) := by
  unfold insert_head_atM
  have h := insert_headM_good (P := P) cmp hP s (v.drop i)
  cases hm : insert_headM cmp s (v.drop i) with
  | fuelout => trivial
  | fault => trivial
  | panic e w =>
    rw [hm] at h
    exact ⟨h.1, (List.Perm.append_left (v.take i) h.2).trans
      (by rw [List.take_append_drop])⟩
  | ok s' w b =>
    rw [hm] at h
    exact (List.Perm.append_left (v.take i) h).trans
      (by rw [List.take_append_drop])

theorem insertion_sort_goM_good (cmp : Cmp σ ε α) (hP : FailsIn cmp P) :
    ∀ i s (v : List α), GoodRes P v (insertion_sort_goM cmp i s v) := by
  intro i
  induction i with
  | zero =>
    intro s v
    exact GoodRes.bind_good (insert_head_atM_good cmp hP 0 s v)
      (fun _ _ _ hw => hw)
  | succ i ih =>
    intro s v
    exact GoodRes.bind_good (insert_head_atM_good cmp hP (i + 1) s v)
      (fun s' w _ hw => GoodRes.mono hw (ih s' w))

theorem insertion_sortM_good (cmp : Cmp σ ε α) (hP : FailsIn cmp P) (s : σ)
    (v : List α) : GoodRes P v (insertion_sortM cmp s v) := by
  unfold insertion_sortM
  split
  · exact insertion_sort_goM_good cmp hP _ s v
  · exact List.Perm.refl v

theorem partial_insertion_sort_goM_good (cmp : Cmp σ ε α)
    (hP : FailsIn cmp P) :
    ∀ i k s (v : List α), GoodRes P v (partial_insertion_sort_goM cmp i k s v) := by
  intro i
  induction i with
  | zero =>
    intro k s v
    refine GoodRes.bind_good (insert_head_atM_good cmp hP 0 s v)
      (fun s' w _ hw => ?_)
    split <;> exact hw
  | succ i ih =>
    intro k s v
    refine GoodRes.bind_good (insert_head_atM_good cmp hP (i + 1) s v)
      (fun s' w moved hw => ?_)
    split
    · split
      · exact hw
      · exact GoodRes.mono hw (ih (k + 1) s' w)
    · exact GoodRes.mono hw (ih k s' w)

theorem partial_insertion_sortM_good (cmp : Cmp σ ε α) (hP : FailsIn cmp P)
    (s : σ) (v : List α) : GoodRes P v (partial_insertion_sortM cmp s v) := by
  unfold partial_insertion_sortM
  split
  · exact partial_insertion_sort_goM_good cmp hP _ 0 s v
  · exact List.Perm.refl v

theorem sift_downM_good (cmp : Cmp σ ε α) (hP : FailsIn cmp P) :
    ∀ fuel bound s (v : List α) x, GoodRes P v (sift_downM cmp fuel bound s v x) := by
  intro fuel
  induction fuel with
  | zero => intro bound s v x; exact List.Perm.refl v
  | succ fuel ih =>
    intro bound s v x
    unfold sift_downM
    refine GoodRes.bind_good ?_ (fun s1 v1 child hw => ?_)
    · split
      · cases hc : cmp s (get v (2 * x + 1)) (get v (2 * x + 2)) with
        | error e => exact ⟨hP _ _ _ _ hc, List.Perm.refl v⟩
        | ok os => obtain ⟨o, s'⟩ := os; dsimp only; exact List.Perm.refl v
      · exact List.Perm.refl v
    · split
      · exact hw
      · cases hc : cmp s1 (get v1 x) (get v1 child) with
        | error e => exact ⟨hP _ _ _ _ hc, hw⟩
        | ok os =>
          obtain ⟨o, s2⟩ := os
          dsimp only
          split
          · exact hw
          · exact GoodRes.mono ((swap_perm v1 x child).trans hw)
              (ih bound s2 (swap v1 x child) child)

theorem heapsort_buildM_good (cmp : Cmp σ ε α) (hP : FailsIn cmp P) :
    ∀ i s (v : List α), GoodRes P v (heapsort_buildM cmp i s v) := by
  intro i
  induction i with
  | zero => intro s v; exact sift_downM_good cmp hP _ _ s v 0
  | succ i ih =>
    intro s v
    exact GoodRes.bind_good (sift_downM_good cmp hP _ _ s v (i + 1))
      (fun s' w _ hw => GoodRes.mono hw (ih s' w))

theorem heapsort_popM_good (cmp : Cmp σ ε α) (hP : FailsIn cmp P) :
    ∀ i s (v : List α), GoodRes P v (heapsort_popM cmp i s v) := by
  intro i
  induction i with
  | zero => intro s v; exact List.Perm.refl v
  | succ i ih =>
    intro s v
    refine GoodRes.bind_good
      (GoodRes.mono (swap_perm v 0 (i + 1))
        (sift_downM_good cmp hP _ _ s (swap v 0 (i + 1)) 0))
      (fun s' w _ hw => GoodRes.mono hw (ih s' w))

theorem heapsortM_good (cmp : Cmp σ ε α) (hP : FailsIn cmp P) (s : σ)
    (v : List α) : GoodRes P v (heapsortM cmp s v) := by
  unfold heapsortM
  refine GoodRes.bind_good ?_ (fun s' w _ hw => ?_)
  · split
    · exact List.Perm.refl v
    · exact heapsort_buildM_good cmp hP _ s v
  · split
    · exact GoodRes.mono hw (heapsort_popM_good cmp hP _ s' w)
    · exact hw

theorem has_adjM_good (cmp : Cmp σ ε α) (hP : FailsIn cmp P) (o : Ordering) :
    ∀ fuel i s (v : List α), GoodRes P v (has_adjM cmp o fuel i s v) := by
  intro fuel
  induction fuel with
  | zero => intro i s v; exact List.Perm.refl v
  | succ fuel ih =>
    intro i s v
    unfold has_adjM
    split
    · cases hc : cmp s (get v (i - 1)) (get v i) with
      | error e => exact ⟨hP _ _ _ _ hc, List.Perm.refl v⟩
      | ok os =>
        obtain ⟨o', s'⟩ := os
        dsimp only
        split
        · exact List.Perm.refl v
        · exact ih (i + 1) s' v
    · exact List.Perm.refl v

theorem is_presortedM_good (cmp : Cmp σ ε α) (hP : FailsIn cmp P) (s : σ)
    (v : List α) : GoodRes P v (is_presortedM cmp s v) := by
  unfold is_presortedM
  split
  · cases hc : cmp s (get v 0) (get v 1) with
    | error e => exact ⟨hP _ _ _ _ hc, List.Perm.refl v⟩
    | ok os =>
      obtain ⟨o, s1⟩ := os
      dsimp only
      split
      · refine GoodRes.bind_good (has_adjM_good cmp hP _ _ _ s1 v)
          (fun s2 w found hw => ?_)
        split
        · exact hw
        · exact (List.reverse_perm w).trans hw
      · refine GoodRes.bind_good (has_adjM_good cmp hP _ _ _ s1 v)
          (fun s2 w found hw => ?_)
        split
        · exact hw
        · exact hw
  · exact List.Perm.refl v

theorem sort2M_good (cmp : Cmp σ ε α) (hP : FailsIn cmp P) (s : σ)
    (v : List α) (a b : Nat) : GoodRes P v (sort2M cmp s v a b) := by
  unfold sort2M
  split
  · cases hc : cmp s (get v a) (get v b) with
    | error e => exact ⟨hP _ _ _ _ hc, List.Perm.refl v⟩
    | ok os =>
      obtain ⟨o, s'⟩ := os
      dsimp only
      split
      · exact swap_perm v a b
      · exact List.Perm.refl v
  · trivial

theorem sort3M_good (cmp : Cmp σ ε α) (hP : FailsIn cmp P) (s : σ)
    (v : List α) (a b k : Nat) : GoodRes P v (sort3M cmp s v a b k) := by
  unfold sort3M
  refine GoodRes.bind_good (sort2M_good cmp hP s v a b) (fun s1 v1 _ h1 => ?_)
  refine GoodRes.bind_good (GoodRes.mono h1 (sort2M_good cmp hP s1 v1 b k))
    (fun s2 v2 _ h2 => ?_)
  exact GoodRes.mono h2 (sort2M_good cmp hP s2 v2 a b)

theorem choose_pivotM_good (cmp : Cmp σ ε α) (hP : FailsIn cmp P) (s : σ)
    (v : List α) : GoodRes P v (choose_pivotM cmp s v) := by
  unfold choose_pivotM
  dsimp only
  split
  · refine GoodRes.bind_good ?_ (fun s3 v3 _ h3 => ?_)
    · split
      · refine GoodRes.bind_good (sort3M_good cmp hP s v _ _ _)
          (fun s1 v1 _ h1 => ?_)
        refine GoodRes.bind_good (GoodRes.mono h1 (sort3M_good cmp hP s1 v1 _ _ _))
          (fun s2 v2 _ h2 => ?_)
        exact GoodRes.mono h2 (sort3M_good cmp hP s2 v2 _ _ _)
      · exact List.Perm.refl v
    · refine GoodRes.bind_good (GoodRes.mono h3 (sort3M_good cmp hP s3 v3 _ _ _))
        (fun s4 v4 _ h4 => h4)
  · exact List.Perm.refl v

theorem QuietRes.good {v₀ : List α} {m : MRes σ ε α β} (h : QuietRes P v₀ m) :
    GoodRes P v₀ m := by
  cases m with
  | fuelout => trivial
  | fault => trivial
  | panic e v => exact ⟨h.1, h.2 ▸ List.Perm.refl _⟩
  | ok s v r => exact h ▸ List.Perm.refl _

theorem trace_l_goM_quiet (cmp : Cmp σ ε α) (hP : FailsIn cmp P) (piv : α)
    (l : Nat) : ∀ k s (v : List α) i len_l offs tr,
      QuietRes P v (trace_l_goM cmp piv l k s v i len_l offs tr) := by
  intro k
  induction k with
  | zero => intro s v i len_l offs tr; rfl
  | succ k ih =>
    intro s v i len_l offs tr
    unfold trace_l_goM
    split
    · cases hc : cmp s (get v (l + i)) piv with
      | error e => exact ⟨hP _ _ _ _ hc, rfl⟩
      | ok os =>
        obtain ⟨o, s'⟩ := os
        dsimp only
        exact ih s' v (i + 1) _ _ _
    · trivial

theorem trace_r_goM_quiet (cmp : Cmp σ ε α) (hP : FailsIn cmp P) (piv : α)
    (r : Nat) : ∀ k s (v : List α) i len_r offs tr,
      QuietRes P v (trace_r_goM cmp piv r k s v i len_r offs tr) := by
  intro k
  induction k with
  | zero => intro s v i len_r offs tr; rfl
  | succ k ih =>
    intro s v i len_r offs tr
    unfold trace_r_goM
    split
    · cases hc : cmp s (get v (r - i - 1)) piv with
      | error e => exact ⟨hP _ _ _ _ hc, rfl⟩
      | ok os =>
        obtain ⟨o, s'⟩ := os
        dsimp only
        exact ih s' v (i + 1) _ _ _
    · trivial

theorem swaps_goM_perm (osl osr : List Nat) (l r : Nat) :
    ∀ k (v : List α) sl sr v' a b,
      swaps_goM osl osr l r k v sl sr = some (v', a, b) → v'.Perm v := by
  intro k
  induction k with
  | zero =>
    intro v sl sr v' a b h
    injection h with h
    injection h with h1 h2
    exact h1 ▸ List.Perm.refl v
  | succ k ih =>
    intro v sl sr v' a b h
    unfold swaps_goM at h
    split at h
    · exact (ih _ _ _ _ _ _ h).trans (Pdq.swap_perm _ _ _)
    · exact absurd h (by simp)

theorem drain_l_goM_perm (l : Nat) (offs : List Nat) :
    ∀ k (v : List α) len_l r r' v',
      drain_l_goM l offs k v len_l r = some (r', v') → v'.Perm v := by
  intro k
  induction k with
  | zero =>
    intro v len_l r r' v' h
    injection h with h
    injection h with h1 h2
    exact h2 ▸ List.Perm.refl v
  | succ k ih =>
    intro v len_l r r' v' h
    unfold drain_l_goM at h
    split at h
    · exact (ih _ _ _ _ _ h).trans (Pdq.swap_perm _ _ _)
    · exact absurd h (by simp)

theorem drain_r_goM_perm (offs : List Nat) :
    ∀ k (v : List α) len_r l r l' v',
      drain_r_goM offs k v len_r l r = some (l', v') → v'.Perm v := by
  intro k
  induction k with
  | zero =>
    intro v len_r l r l' v' h
    injection h with h
    injection h with h1 h2
    exact h2 ▸ List.Perm.refl v
  | succ k ih =>
    intro v len_r l r l' v' h
    unfold drain_r_goM at h
    split at h
    · exact (ih _ _ _ _ _ _ h).trans (Pdq.swap_perm _ _ _)
    · exact absurd h (by simp)

theorem QuietRes.bind_quiet {m : MRes σ ε α β} {f : σ → List α → β → MRes σ ε α γ}
    {v₀ : List α} (hm : QuietRes P v₀ m)
    (hf : ∀ s r, QuietRes P v₀ (f s v₀ r)) :
    QuietRes P v₀ (m.bind f) := by
  cases m with
  | fuelout => trivial
  | fault => trivial
  | panic e v => exact hm
  | ok s v r =>
    have hv : v = v₀ := hm
    subst hv
    exact hf s r

theorem block_traceLM_quiet (cmp : Cmp σ ε α) (hP : FailsIn cmp P) (piv : α)
    (s : σ) (v : List α) (b : BState) (tr : List Nat) :
    QuietRes P v (block_traceLM cmp piv s v b tr) := by
  unfold block_traceLM
  split
  · exact QuietRes.bind_quiet (trace_l_goM_quiet cmp hP piv _ _ s v 0 0 _ tr)
      (fun s' t => rfl)
  · rfl

theorem block_traceRM_quiet (cmp : Cmp σ ε α) (hP : FailsIn cmp P) (piv : α)
    (s : σ) (v : List α) (b : BState) (tr : List Nat) :
    QuietRes P v (block_traceRM cmp piv s v b tr) := by
  unfold block_traceRM
  split
  · exact QuietRes.bind_quiet (trace_r_goM_quiet cmp hP piv _ _ s v 0 0 _ tr)
      (fun s' t => rfl)
  · rfl

theorem block_iterM_good (cmp : Cmp σ ε α) (hP : FailsIn cmp P) (piv : α)
    (isd : Bool) (s : σ) (v : List α) (b : BState) (tr : List Nat) :
    GoodRes P v (block_iterM cmp piv isd s v b tr) := by
  unfold block_iterM
  refine GoodRes.bind_good
    (QuietRes.good (block_traceLM_quiet cmp hP piv s v _ tr))
    (fun s2 v2 p2 h2 => ?_)
  refine GoodRes.bind_good
    (GoodRes.mono h2 (QuietRes.good (block_traceRM_quiet cmp hP piv s2 v2 _ _)))
    (fun s3 v3 p3 h3 => ?_)
  cases hsw : swaps_goM p3.1.offsets_l p3.1.offsets_r p3.1.l p3.1.r
      (min (p3.1.len_l - p3.1.start_l) (p3.1.len_r - p3.1.start_r)) v3
      p3.1.start_l p3.1.start_r with
  | none => trivial
  | some w =>
    obtain ⟨v4, sl, sr⟩ := w
    dsimp only
    exact (swaps_goM_perm _ _ _ _ _ _ _ _ _ _ _ hsw).trans h3

theorem block_drainM_perm (b : BState) (v : List α) (m : Nat) (v' : List α)
    (h : block_drainM b v = some (m, v')) : v'.Perm v := by
  unfold block_drainM at h
  split at h
  · exact drain_l_goM_perm _ _ _ _ _ _ _ _ h
  · exact drain_r_goM_perm _ _ _ _ _ _ _ _ h

theorem block_loopM_good (cmp : Cmp σ ε α) (hP : FailsIn cmp P) (piv : α) :
    ∀ fuel s (v : List α) b tr,
      GoodRes P v (block_loopM cmp piv fuel s v b tr) := by
  intro fuel
  induction fuel with
  | zero => intro s v b tr; trivial
  | succ fuel ih =>
    intro s v b tr
    unfold block_loopM
    refine GoodRes.bind_good (block_iterM_good cmp hP piv _ s v b tr)
      (fun s' v' p hv => ?_)
    split
    · cases hd : block_drainM p.1 v' with
      | none => trivial
      | some w =>
        obtain ⟨m, v2⟩ := w
        dsimp only
        exact (block_drainM_perm _ _ _ _ hd).trans hv
    · exact GoodRes.mono hv (ih s' v' p.1 p.2)

theorem partition_in_blocksM_good (cmp : Cmp σ ε α) (hP : FailsIn cmp P)
    (piv : α) (s : σ) (v : List α) :
    GoodRes P v (partition_in_blocksM cmp piv s v) :=
  block_loopM_good cmp hP piv _ s v _ []

theorem scan_lM_spec (cmp : Cmp σ ε α) (hP : FailsIn cmp P) (piv : α) :
    ∀ fuel s (v : List α) l r, l ≤ r →
      match scan_lM cmp piv fuel s v l r with
      | .fuelout => True
      | .fault => True
      | .panic e w => e ∈ P ∧ w = v
      | .ok _ w res => w = v ∧ l ≤ res ∧ res ≤ r := by
  intro fuel
  induction fuel with
  | zero =>
    intro s v l r h
    unfold scan_lM
    exact ⟨rfl, Nat.le_refl l, h⟩
  | succ fuel ih =>
    intro s v l r h
    unfold scan_lM
    by_cases hlr : l < r
    · rw [if_pos hlr]
      cases hc : cmp s (get v l) piv with
      | error e => exact ⟨hP _ _ _ _ hc, rfl⟩
      | ok os =>
        obtain ⟨o, s'⟩ := os
        dsimp only
        by_cases ho : o = .lt
        · rw [if_pos ho]
          have h2 := ih s' v (l + 1) r hlr
          rcases h3 : scan_lM cmp piv fuel s' v (l + 1) r with _ | _ | ⟨e, w⟩ |
            ⟨s2, w, res⟩ <;> rw [h3] at h2 <;> try trivial
          exact ⟨h2.1, by omega, h2.2.2⟩
        · rw [if_neg ho]
          exact ⟨rfl, Nat.le_refl l, Nat.le_of_lt hlr⟩
    · rw [if_neg hlr]
      exact ⟨rfl, Nat.le_refl l, h⟩

theorem scan_rM_spec (cmp : Cmp σ ε α) (hP : FailsIn cmp P) (piv : α) :
    ∀ fuel s (v : List α) l r, l ≤ r →
      match scan_rM cmp piv fuel s v l r with
      | .fuelout => True
      | .fault => True
      | .panic e w => e ∈ P ∧ w = v
      | .ok _ w res => w = v ∧ l ≤ res ∧ res ≤ r := by
  intro fuel
  induction fuel with
  | zero =>
    intro s v l r h
    unfold scan_rM
    exact ⟨rfl, h, Nat.le_refl r⟩
  | succ fuel ih =>
    intro s v l r h
    unfold scan_rM
    by_cases hlr : l < r
    · rw [if_pos hlr]
      cases hc : cmp s (get v (r - 1)) piv with
      | error e => exact ⟨hP _ _ _ _ hc, rfl⟩
      | ok os =>
        obtain ⟨o, s'⟩ := os
        dsimp only
        by_cases ho : o ≠ .lt
        · rw [if_pos ho]
          have h2 := ih s' v l (r - 1) (by omega)
          rcases h3 : scan_rM cmp piv fuel s' v l (r - 1) with _ | _ | ⟨e, w⟩ |
            ⟨s2, w, res⟩ <;> rw [h3] at h2 <;> try trivial
          exact ⟨h2.1, h2.2.1, by omega⟩
        · rw [if_neg ho]
          exact ⟨rfl, h, Nat.le_refl r⟩
    · rw [if_neg hlr]
      exact ⟨rfl, h, Nat.le_refl r⟩

theorem scan_eq_lM_spec (cmp : Cmp σ ε α) (hP : FailsIn cmp P) (piv : α) :
    ∀ fuel s (v : List α) l r, l ≤ r →
      match scan_eq_lM cmp piv fuel s v l r with
      | .fuelout => True
      | .fault => True
      | .panic e w => e ∈ P ∧ w = v
      | .ok _ w res => w = v ∧ l ≤ res ∧ res ≤ r := by
  intro fuel
  induction fuel with
  | zero =>
    intro s v l r h
    unfold scan_eq_lM
    exact ⟨rfl, Nat.le_refl l, h⟩
  | succ fuel ih =>
    intro s v l r h
    unfold scan_eq_lM
    by_cases hlr : l < r
    · rw [if_pos hlr]
      cases hc : cmp s (get v l) piv with
      | error e => exact ⟨hP _ _ _ _ hc, rfl⟩
      | ok os =>
        obtain ⟨o, s'⟩ := os
        dsimp only
        by_cases ho : o = .eq
        · rw [if_pos ho]
          have h2 := ih s' v (l + 1) r hlr
          rcases h3 : scan_eq_lM cmp piv fuel s' v (l + 1) r with _ | _ | ⟨e, w⟩ |
            ⟨s2, w, res⟩ <;> rw [h3] at h2 <;> try trivial
          exact ⟨h2.1, by omega, h2.2.2⟩
        · rw [if_neg ho]
          exact ⟨rfl, Nat.le_refl l, Nat.le_of_lt hlr⟩
    · rw [if_neg hlr]
      exact ⟨rfl, Nat.le_refl l, h⟩

theorem scan_gt_rM_spec (cmp : Cmp σ ε α) (hP : FailsIn cmp P) (piv : α) :
    ∀ fuel s (v : List α) l r, l ≤ r →
      match scan_gt_rM cmp piv fuel s v l r with
      | .fuelout => True
      | .fault => True
      | .panic e w => e ∈ P ∧ w = v
      | .ok _ w res => w = v ∧ l ≤ res ∧ res ≤ r := by
  intro fuel
  induction fuel with
  | zero =>
    intro s v l r h
    unfold scan_gt_rM
    exact ⟨rfl, h, Nat.le_refl r⟩
  | succ fuel ih =>
    intro s v l r h
    unfold scan_gt_rM
    by_cases hlr : l < r
    · rw [if_pos hlr]
      cases hc : cmp s (get v (r - 1)) piv with
      | error e => exact ⟨hP _ _ _ _ hc, rfl⟩
      | ok os =>
        obtain ⟨o, s'⟩ := os
        dsimp only
        by_cases ho : o = .gt
        · rw [if_pos ho]
          have h2 := ih s' v l (r - 1) (by omega)
          rcases h3 : scan_gt_rM cmp piv fuel s' v l (r - 1) with _ | _ | ⟨e, w⟩ |
            ⟨s2, w, res⟩ <;> rw [h3] at h2 <;> try trivial
          exact ⟨h2.1, h2.2.1, by omega⟩
        · rw [if_neg ho]
          exact ⟨rfl, h, Nat.le_refl r⟩
    · rw [if_neg hlr]
      exact ⟨rfl, h, Nat.le_refl r⟩

/-- Bounds, permutation, and panic facts for the `partition_equal` loop. -/
theorem pe_goM_spec (cmp : Cmp σ ε α) (hP : FailsIn cmp P) (piv : α) :
    ∀ fuel s (w : List α) l r,
      match pe_goM cmp piv fuel s w l r with
      | .fuelout => True
      | .fault => True
      | .panic e w' => e ∈ P ∧ w'.Perm w
      | .ok _ w' res => w'.Perm w ∧ res ≤ max l r := by
  intro fuel
  induction fuel with
  | zero =>
    intro s w l r
    unfold pe_goM
    exact ⟨List.Perm.refl w, Nat.le_max_left l r⟩
  | succ fuel ih =>
    intro s w l r
    unfold pe_goM
    by_cases hlr : l < r
    · rw [if_pos hlr]
      have heq := scan_eq_lM_spec cmp hP piv (r - l) s w l r (Nat.le_of_lt hlr)
      rcases h1 : scan_eq_lM cmp piv (r - l) s w l r with _ | _ | ⟨e, w1⟩ |
        ⟨s1, w1, l2⟩ <;> rw [h1] at heq <;> try trivial
      · exact ⟨heq.1, heq.2 ▸ List.Perm.refl w⟩
      · obtain ⟨hw1, hl2a, hl2b⟩ := heq
        subst w1
        dsimp only [MRes.bind]
        have hgt := scan_gt_rM_spec cmp hP piv (r - l2) s1 w l2 r hl2b
        rcases h2 : scan_gt_rM cmp piv (r - l2) s1 w l2 r with _ | _ | ⟨e, w2⟩ |
          ⟨s2, w2, r2⟩ <;> rw [h2] at hgt <;> try trivial
        · exact ⟨hgt.1, hgt.2 ▸ List.Perm.refl w⟩
        · obtain ⟨hw2, hr2a, hr2b⟩ := hgt
          subst w2
          dsimp only
          by_cases hswap : l2 < r2
          · rw [if_pos hswap]
            have h3 := ih s2 (Pdq.swap w l2 (r2 - 1)) (l2 + 1) (r2 - 1)
            rcases h4 : pe_goM cmp piv fuel s2 (Pdq.swap w l2 (r2 - 1)) (l2 + 1)
              (r2 - 1) with _ | _ | ⟨e, w3⟩ | ⟨s3, w3, res⟩ <;> rw [h4] at h3 <;>
              try trivial
            · exact ⟨h3.1, h3.2.trans (swap_perm w l2 (r2 - 1))⟩
            · exact ⟨h3.1.trans (swap_perm w l2 (r2 - 1)), by
                have := h3.2
                simp only [Nat.max_def] at this ⊢
                split at this <;> split <;> omega⟩
          · rw [if_neg hswap]
            exact ⟨List.Perm.refl w, by omega⟩
    · rw [if_neg hlr]
      exact ⟨List.Perm.refl w, Nat.le_max_left l r⟩

theorem partition_equalM_good (cmp : Cmp σ ε α) (hP : FailsIn cmp P) (s : σ)
    (v : List α) (mid : Nat) : GoodRes P v (partition_equalM cmp s v mid) := by
  unfold partition_equalM
  dsimp only
  have hpe := pe_goM_spec cmp hP (get (swap v 0 mid) 0)
    (((swap v 0 mid).drop 1).length + 1) s ((swap v 0 mid).drop 1) 0
    ((swap v 0 mid).drop 1).length
  rcases h1 : pe_goM cmp (get (swap v 0 mid) 0)
      (((swap v 0 mid).drop 1).length + 1) s ((swap v 0 mid).drop 1) 0
      ((swap v 0 mid).drop 1).length with _ | _ | ⟨e, w'⟩ | ⟨s1, w1, l⟩ <;>
    rw [h1] at hpe <;> try trivial
  · exact ⟨hpe.1, ((List.Perm.append_left _ hpe.2).trans
      (by rw [List.take_append_drop])).trans (swap_perm v 0 mid)⟩
  · exact ((List.Perm.append_left _ hpe.1).trans
      (by rw [List.take_append_drop])).trans (swap_perm v 0 mid)

theorem partitionM_good (cmp : Cmp σ ε α) (hP : FailsIn cmp P) (s : σ)
    (v : List α) (pivot : Nat) : GoodRes P v (partitionM cmp s v pivot) := by
  unfold partitionM
  dsimp only
  have hs1 := scan_lM_spec cmp hP (get (swap v 0 pivot) 0)
    (((swap v 0 pivot).drop 1).length + 1) s ((swap v 0 pivot).drop 1) 0
    ((swap v 0 pivot).drop 1).length (Nat.zero_le _)
  rcases h1 : scan_lM cmp (get (swap v 0 pivot) 0)
      (((swap v 0 pivot).drop 1).length + 1) s ((swap v 0 pivot).drop 1) 0
      ((swap v 0 pivot).drop 1).length with _ | _ | ⟨e, w1⟩ | ⟨s1, w1, l⟩ <;>
    rw [h1] at hs1 <;> dsimp only <;> try trivial
  · exact ⟨hs1.1, by
      rw [hs1.2, List.take_append_drop]
      exact swap_perm v 0 pivot⟩
  · obtain ⟨hw1, hl0, hlw⟩ := hs1
    subst w1
    have hs2 := scan_rM_spec cmp hP (get (swap v 0 pivot) 0)
      (((swap v 0 pivot).drop 1).length + 1) s1 ((swap v 0 pivot).drop 1) l
      ((swap v 0 pivot).drop 1).length hlw
    rcases h2 : scan_rM cmp (get (swap v 0 pivot) 0)
        (((swap v 0 pivot).drop 1).length + 1) s1 ((swap v 0 pivot).drop 1) l
        ((swap v 0 pivot).drop 1).length with _ | _ | ⟨e, w2⟩ | ⟨s2, w2, r⟩ <;>
      rw [h2] at hs2 <;> dsimp only <;> try trivial
    · exact ⟨hs2.1, by
        rw [hs2.2, List.take_append_drop]
        exact swap_perm v 0 pivot⟩
    · obtain ⟨hw2, hlr, hrw⟩ := hs2
      subst w2
      have hbl := partition_in_blocksM_good cmp hP (get (swap v 0 pivot) 0) s2
        ((((swap v 0 pivot).drop 1).take r).drop l)
      rcases h3 : partition_in_blocksM cmp (get (swap v 0 pivot) 0) s2
          ((((swap v 0 pivot).drop 1).take r).drop l) with _ | _ | ⟨e, subv⟩ |
        ⟨s3, subv, p⟩ <;> rw [h3] at hbl <;> dsimp only <;> try trivial
      · refine ⟨hbl.1, ?_⟩
        have hmid : ((((swap v 0 pivot).drop 1).take l ++ subv) ++
            ((swap v 0 pivot).drop 1).drop r).Perm ((swap v 0 pivot).drop 1) := by
          refine (List.Perm.append_right _
            (List.Perm.append_left _ hbl.2)).trans ?_
          rw [Pdq.take_middle_eq _ _ _ hlr, List.take_append_drop]
        exact ((List.Perm.append_left ((swap v 0 pivot).take 1) hmid).trans
          (by rw [List.take_append_drop])).trans (swap_perm v 0 pivot)
      · have hmid : ((((swap v 0 pivot).drop 1).take l ++ subv) ++
            ((swap v 0 pivot).drop 1).drop r).Perm ((swap v 0 pivot).drop 1) := by
          refine (List.Perm.append_right _
            (List.Perm.append_left _ hbl)).trans ?_
          rw [Pdq.take_middle_eq _ _ _ hlr, List.take_append_drop]
        exact (swap_perm _ 0 (l + p.1)).trans
          (((List.Perm.append_left ((swap v 0 pivot).take 1) hmid).trans
            (by rw [List.take_append_drop])).trans (swap_perm v 0 pivot))

theorem qs_stepM_spec (cmp : Cmp σ ε α) (hP : FailsIn cmp P) (s3 : σ)
    (v3 : List α) (mid2 : Nat) (was_p : Bool) (len limit : Nat) :
    match qs_stepM cmp s3 v3 mid2 was_p len limit with
    | .fuelout => True
    | .fault => True
    | .panic e w => e ∈ P ∧ w.Perm v3
    | .ok _ w st =>
      w.Perm v3 ∧
      match st with
      | .inr w' => w'.Perm v3
      | .inl (L, R, _) => ((L ++ (v3.drop mid2).take 1) ++ R).Perm v3 := by
  unfold qs_stepM
  dsimp only
  by_cases himb : (v3.take mid2).length < len / 8 ∨
      (v3.drop (mid2 + 1)).length < len / 8
  · rw [if_pos himb]
    refine ⟨List.Perm.refl v3, ?_⟩
    refine (List.Perm.append
      (List.Perm.append (break_patterns_perm _) (List.Perm.refl _))
      (break_patterns_perm _)).trans ?_
    rw [take_piv_drop']
  · rw [if_neg himb]
    by_cases hwp : was_p = true
    · rw [if_pos hwp]
      have hgl := partial_insertion_sortM_good (P := P) cmp hP s3 (v3.take mid2)
      rcases h1 : partial_insertion_sortM cmp s3 (v3.take mid2) with _ | _ |
        ⟨e, w⟩ | ⟨s4, lw, lok⟩ <;> rw [h1] at hgl <;> dsimp only <;>
        try trivial
      · exact ⟨hgl.1, by
          refine (List.Perm.append (List.Perm.append hgl.2 (List.Perm.refl _))
            (List.Perm.refl _)).trans ?_
          rw [take_piv_drop']⟩
      · by_cases hlok : lok = true
        · rw [if_pos hlok]
          have hgr := partial_insertion_sortM_good (P := P) cmp hP s4
            (v3.drop (mid2 + 1))
          rcases h2 : partial_insertion_sortM cmp s4 (v3.drop (mid2 + 1)) with
            _ | _ | ⟨e, w⟩ | ⟨s5, rw2, rok⟩ <;> rw [h2] at hgr <;>
            dsimp only <;> try trivial
          · exact ⟨hgr.1, by
              refine (List.Perm.append (List.Perm.append hgl (List.Perm.refl _))
                hgr.2).trans ?_
              rw [take_piv_drop']⟩
          · have hperm : ((lw ++ (v3.drop mid2).take 1) ++ rw2).Perm v3 := by
              refine (List.Perm.append (List.Perm.append hgl (List.Perm.refl _))
                hgr).trans ?_
              rw [take_piv_drop']
            by_cases hrok : rok = true
            · rw [if_pos hrok]
              exact ⟨hperm, hperm⟩
            · rw [if_neg hrok]
              exact ⟨hperm, hperm⟩
        · rw [if_neg hlok]
          have hperm : ((lw ++ (v3.drop mid2).take 1) ++
              v3.drop (mid2 + 1)).Perm v3 := by
            refine (List.Perm.append (List.Perm.append hgl (List.Perm.refl _))
              (List.Perm.refl _)).trans ?_
            rw [take_piv_drop']
          exact ⟨hperm, hperm⟩
    · rw [if_neg hwp]
      refine ⟨List.Perm.refl v3, ?_⟩
      dsimp only
      rw [take_piv_drop']

theorem quicksortMF_good (cmp : Cmp σ ε α) (hP : FailsIn cmp P) (tSize : Nat) :
    ∀ fuel s (v : List α) pred limit,
      GoodRes P v (quicksortMF cmp tSize fuel s v pred limit) := by
  intro fuel
  induction fuel with
  | zero => intro s v pred limit; trivial
  | succ fuel ih =>
    intro s v pred limit
    unfold quicksortMF
    dsimp only
    generalize (if tSize ≤ 2 * 8 then 32 else 16 : Nat) = mi
    split
    · exact insertion_sortM_good cmp hP s v
    · split
      · exact heapsortM_good cmp hP s v
      · refine GoodRes.bind_good (choose_pivotM_good cmp hP s v)
          (fun s1 v1 mid h1 => ?_)
        refine GoodRes.bind_good ?_ (fun s2 v2 goEq h2 => ?_)
        · cases pred with
          | none => exact h1
          | some p =>
            dsimp only
            cases hc : cmp s1 p (get v1 mid) with
            | error e => exact ⟨hP _ _ _ _ hc, h1⟩
            | ok os =>
              obtain ⟨o, s2⟩ := os
              dsimp only
              exact h1
        · split
          · refine GoodRes.bind_good
              (GoodRes.mono h2 (partition_equalM_good cmp hP s2 v2 mid))
              (fun s3 v3 mid2 h3 => ?_)
            have h5 := ih s3 (v3.drop mid2) pred limit
            rcases h4 : quicksortMF cmp tSize fuel s3 (v3.drop mid2) pred
              limit with _ | _ | ⟨e, w⟩ | ⟨s4, w, u⟩ <;> rw [h4] at h5 <;>
              dsimp only <;> try trivial
            · exact ⟨h5.1, ((List.Perm.append_left _ h5.2).trans
                (by rw [List.take_append_drop])).trans h3⟩
            · exact ((List.Perm.append_left _ h5).trans
                (by rw [List.take_append_drop])).trans h3
          · refine GoodRes.bind_good
              (GoodRes.mono h2 (partitionM_good cmp hP s2 v2 mid))
              (fun s3 v3 p h3 => ?_)
            have hst := qs_stepM_spec cmp hP s3 v3 p.1 p.2 v.length limit
            rcases h4 : qs_stepM cmp s3 v3 p.1 p.2 v.length limit with _ | _ |
              ⟨e, w⟩ | ⟨s6, w6, st⟩ <;> rw [h4] at hst <;> try trivial
            · dsimp only [MRes.bind]
              exact ⟨hst.1, hst.2.trans h3⟩
            · dsimp only [MRes.bind]
              obtain ⟨hw6, hst2⟩ := hst
              rcases st with ⟨L, R, lim⟩ | w'
              · have hLR := hst2
                dsimp only
                have hL := ih s6 L pred lim
                rcases h6 : quicksortMF cmp tSize fuel s6 L pred lim with
                  _ | _ | ⟨e, w⟩ | ⟨s7, lw, u⟩ <;> rw [h6] at hL <;>
                  dsimp only <;> try trivial
                · exact ⟨hL.1, ((List.Perm.append
                    (List.Perm.append hL.2 (List.Perm.refl _))
                    (List.Perm.refl R)).trans hLR).trans h3⟩
                · have hR := ih s7 R (some (get v3 p.1)) lim
                  rcases h7 : quicksortMF cmp tSize fuel s7 R
                    (some (get v3 p.1)) lim with _ | _ | ⟨e, w⟩ |
                    ⟨s8, rw2, u2⟩ <;> rw [h7] at hR <;> dsimp only <;>
                    try trivial
                  · exact ⟨hR.1, ((List.Perm.append
                      (List.Perm.append hL (List.Perm.refl _)) hR.2).trans
                      hLR).trans h3⟩
                  · exact ((List.Perm.append
                      (List.Perm.append hL (List.Perm.refl _)) hR).trans
                      hLR).trans h3
              · exact hst2.trans h3

theorem sort_byM_good (cmp : Cmp σ ε α) (hP : FailsIn cmp P) (tSize : Nat)
    (s : σ) (v : List α) : GoodRes P v (sort_byM cmp tSize s v) := by
  unfold sort_byM
  split
  · exact List.Perm.refl v
  · refine GoodRes.bind_good (is_presortedM_good cmp hP s v)
      (fun s1 v1 pre h1 => ?_)
    split
    · exact h1
    · exact GoodRes.mono h1
        (quicksortMF_good cmp hP tSize _ s1 v1 none (sortByLimit v1.length))

theorem neverFails_failsIn (cmp : Cmp σ ε α) (h : NeverFails cmp)
    (P : Set ε) : FailsIn cmp P := by
  intro s a b e he
  obtain ⟨o, s', h2⟩ := h s a b
  rw [h2] at he
  exact Except.noConfusion he

theorem Lands.bind_lands {m : MRes σ ε α β} {f : σ → List α → β → MRes σ ε α γ}
    (h : Lands m) (hf : ∀ s v r, Lands (f s v r)) : Lands (m.bind f) := by
  cases m with
  | fuelout => exact h.elim
  | fault => exact h.elim
  | panic e v => trivial
  | ok s v r => exact hf s v r

theorem lands_ok {m : MRes σ ε α β} {v : List α} (h1 : Lands m)
    (h2 : GoodRes ∅ v m) : ∃ s w r, m = .ok s w r ∧ w.Perm v := by
  cases m with
  | fuelout => exact h1.elim
  | fault => exact h1.elim
  | panic e w => exact absurd h2.1 (Set.not_mem_empty e)
  | ok s w r => exact ⟨s, w, r, rfl, h2⟩

theorem insert_head_goM_lands (cmp : Cmp σ ε α) (tmp : α) :
    ∀ fuel s (v : List α) dest i,
      Lands (insert_head_goM cmp tmp fuel s v dest i) := by
  intro fuel
  induction fuel with
  | zero => intro s v dest i; trivial
  | succ fuel ih =>
    intro s v dest i
    unfold insert_head_goM
    split
    · cases hc : cmp s tmp (get v i) with
      | error e => trivial
      | ok os =>
        obtain ⟨o, s'⟩ := os
        dsimp only
        split
        · trivial
        · exact ih s' _ i (i + 1)
    · trivial

theorem insert_headM_lands (cmp : Cmp σ ε α) (s : σ) (v : List α) :
    Lands (insert_headM cmp s v) := by
  unfold insert_headM
  split
  · cases hc : cmp s (get v 0) (get v 1) with
    | error e => trivial
    | ok os =>
      obtain ⟨o, s'⟩ := os
      dsimp only
      split
      · exact insert_head_goM_lands cmp _ _ _ _ _ _
      · trivial
  · trivial

theorem insert_head_atM_lands (cmp : Cmp σ ε α) (i : Nat) (s : σ)
    (v : List α) : Lands (insert_head_atM cmp i s v) := by
  unfold insert_head_atM
  have h := insert_headM_lands cmp s (v.drop i)
  rcases e1 : insert_headM cmp s (v.drop i) with _ | _ | ⟨e, w⟩ | ⟨s', w, b⟩ <;>
    rw [e1] at h <;> dsimp only
  · exact h
  · exact h
  · trivial
  · trivial

theorem insertion_sort_goM_lands (cmp : Cmp σ ε α) :
    ∀ i s (v : List α), Lands (insertion_sort_goM cmp i s v) := by
  intro i
  induction i with
  | zero =>
    intro s v
    unfold insertion_sort_goM
    exact Lands.bind_lands (insert_head_atM_lands cmp 0 s v)
      (fun s' w _ => trivial)
  | succ i ih =>
    intro s v
    unfold insertion_sort_goM
    exact Lands.bind_lands (insert_head_atM_lands cmp (i + 1) s v)
      (fun s' w _ => ih s' w)

theorem insertion_sortM_lands (cmp : Cmp σ ε α) (s : σ) (v : List α) :
    Lands (insertion_sortM cmp s v) := by
  unfold insertion_sortM
  split
  · exact insertion_sort_goM_lands cmp _ s v
  · trivial

theorem partial_insertion_sort_goM_lands (cmp : Cmp σ ε α) :
    ∀ i k s (v : List α), Lands (partial_insertion_sort_goM cmp i k s v) := by
  intro i
  induction i with
  | zero =>
    intro k s v
    unfold partial_insertion_sort_goM
    exact Lands.bind_lands (insert_head_atM_lands cmp 0 s v)
      (fun s' w moved => by split <;> trivial)
  | succ i ih =>
    intro k s v
    unfold partial_insertion_sort_goM
    refine Lands.bind_lands (insert_head_atM_lands cmp (i + 1) s v)
      (fun s' w moved => ?_)
    split
    · split
      · trivial
      · exact ih _ s' w
    · exact ih _ s' w

theorem partial_insertion_sortM_lands (cmp : Cmp σ ε α) (s : σ)
    (v : List α) : Lands (partial_insertion_sortM cmp s v) := by
  unfold partial_insertion_sortM
  split
  · exact partial_insertion_sort_goM_lands cmp _ _ s v
  · trivial

theorem sift_downM_lands (cmp : Cmp σ ε α) :
    ∀ fuel bound s (v : List α) x, Lands (sift_downM cmp fuel bound s v x) := by
  intro fuel
  induction fuel with
  | zero => intro bound s v x; trivial
  | succ fuel ih =>
    intro bound s v x
    unfold sift_downM
    dsimp only
    refine Lands.bind_lands ?_ (fun s1 v1 child => ?_)
    · split
      · cases hc : cmp s (get v (2 * x + 1)) (get v (2 * x + 2)) with
        | error e => trivial
        | ok os =>
          obtain ⟨o, s'⟩ := os
          dsimp only
          trivial
      · trivial
    · split
      · trivial
      · cases hc : cmp s1 (get v1 x) (get v1 child) with
        | error e => trivial
        | ok os =>
          obtain ⟨o, s2⟩ := os
          dsimp only
          split
          · trivial
          · exact ih bound s2 _ child

theorem heapsort_buildM_lands (cmp : Cmp σ ε α) :
    ∀ i s (v : List α), Lands (heapsort_buildM cmp i s v) := by
  intro i
  induction i with
  | zero =>
    intro s v
    unfold heapsort_buildM
    exact sift_downM_lands cmp _ _ s v 0
  | succ i ih =>
    intro s v
    unfold heapsort_buildM
    exact Lands.bind_lands (sift_downM_lands cmp _ _ s v (i + 1))
      (fun s' w _ => ih s' w)

theorem heapsort_popM_lands (cmp : Cmp σ ε α) :
    ∀ i s (v : List α), Lands (heapsort_popM cmp i s v) := by
  intro i
  induction i with
  | zero => intro s v; trivial
  | succ i ih =>
    intro s v
    unfold heapsort_popM
    exact Lands.bind_lands (sift_downM_lands cmp _ _ s _ 0)
      (fun s' w _ => ih s' w)

theorem heapsortM_lands (cmp : Cmp σ ε α) (s : σ) (v : List α) :
    Lands (heapsortM cmp s v) := by
  unfold heapsortM
  refine Lands.bind_lands ?_ (fun s' w _ => ?_)
  · split
    · trivial
    · exact heapsort_buildM_lands cmp _ s v
  · split
    · exact heapsort_popM_lands cmp _ s' w
    · trivial

theorem has_adjM_lands (cmp : Cmp σ ε α) (o : Ordering) :
    ∀ fuel i s (v : List α), Lands (has_adjM cmp o fuel i s v) := by
  intro fuel
  induction fuel with
  | zero => intro i s v; trivial
  | succ fuel ih =>
    intro i s v
    unfold has_adjM
    split
    · cases hc : cmp s (get v (i - 1)) (get v i) with
      | error e => trivial
      | ok os =>
        obtain ⟨o', s'⟩ := os
        dsimp only
        split
        · trivial
        · exact ih (i + 1) s' v
    · trivial

theorem is_presortedM_lands (cmp : Cmp σ ε α) (s : σ) (v : List α) :
    Lands (is_presortedM cmp s v) := by
  unfold is_presortedM
  split
  · cases hc : cmp s (get v 0) (get v 1) with
    | error e => trivial
    | ok os =>
      obtain ⟨o, s1⟩ := os
      dsimp only
      split
      · exact Lands.bind_lands (has_adjM_lands cmp .lt _ 2 s1 v)
          (fun s2 w found => by split <;> trivial)
      · exact Lands.bind_lands (has_adjM_lands cmp .gt _ 2 s1 v)
          (fun s2 w found => by split <;> trivial)
  · trivial

theorem sort2M_shape (cmp : Cmp σ ε α) (s : σ) (v : List α) (a b : Nat)
    (ha : a < v.length) (hb : b < v.length) :
    match sort2M cmp s v a b with
    | .fuelout => False
    | .fault => False
    | .panic _ _ => True
    | .ok _ w _ => w.length = v.length := by
  unfold sort2M
  rw [if_pos ⟨ha, hb⟩]
  cases hc : cmp s (get v a) (get v b) with
  | error e => trivial
  | ok os =>
    obtain ⟨o, s'⟩ := os
    dsimp only
    by_cases ho : o = .gt
    · rw [if_pos ho]
      exact Pdq.length_swap v a b
    · rw [if_neg ho]

theorem sort3M_shape (cmp : Cmp σ ε α) (s : σ) (v : List α) (a b k : Nat)
    (ha : a < v.length) (hb : b < v.length) (hk : k < v.length) :
    match sort3M cmp s v a b k with
    | .fuelout => False
    | .fault => False
    | .panic _ _ => True
    | .ok _ w _ => w.length = v.length := by
  unfold sort3M
  have h1 := sort2M_shape cmp s v a b ha hb
  rcases e1 : sort2M cmp s v a b with _ | _ | ⟨e, w⟩ | ⟨s1, v1, u1⟩ <;>
    rw [e1] at h1 <;> dsimp only [MRes.bind] at h1 ⊢ <;> try trivial
  have h2 := sort2M_shape cmp s1 v1 b k (by omega) (by omega)
  rcases e2 : sort2M cmp s1 v1 b k with _ | _ | ⟨e, w⟩ | ⟨s2, v2, u2⟩ <;>
    rw [e2] at h2 <;> dsimp only [MRes.bind] at h2 ⊢ <;> try trivial
  have h3 := sort2M_shape cmp s2 v2 a b (by omega) (by omega)
  rcases e3 : sort2M cmp s2 v2 a b with _ | _ | ⟨e, w⟩ | ⟨s3, v3, u3⟩ <;>
    rw [e3] at h3 <;> dsimp only at h3 ⊢ <;> try trivial
  omega

theorem choose_pivotM_shape (cmp : Cmp σ ε α) (s : σ) (v : List α) :
    match choose_pivotM cmp s v with
    | .fuelout => False
    | .fault => False
    | .panic _ _ => True
    | .ok _ w _ => w.length = v.length := by
  unfold choose_pivotM
  dsimp only
  by_cases h4 : 4 ≤ v.length
  · rw [if_pos h4]
    by_cases h256 : MIN_MEDIAN_OF_MEDIANS ≤ v.length
    · rw [if_pos h256]
      have hm : (256 : Nat) ≤ v.length := h256
      have t1 := sort3M_shape cmp s v (v.length / 4 * 1 - 1) (v.length / 4 * 1)
        (v.length / 4 * 3 + 1) (by omega) (by omega) (by omega)
      rcases e1 : sort3M cmp s v (v.length / 4 * 1 - 1) (v.length / 4 * 1)
          (v.length / 4 * 3 + 1) with _ | _ | ⟨e, w⟩ | ⟨s1, v1, u1⟩ <;>
        rw [e1] at t1 <;> dsimp only [MRes.bind] at t1 ⊢ <;> try trivial
      have t2 := sort3M_shape cmp s1 v1 (v.length / 4 * 2 - 1)
        (v.length / 4 * 2) (v.length / 4 * 2 + 1) (by omega) (by omega)
        (by omega)
      rcases e2 : sort3M cmp s1 v1 (v.length / 4 * 2 - 1) (v.length / 4 * 2)
          (v.length / 4 * 2 + 1) with _ | _ | ⟨e, w⟩ | ⟨s2, v2, u2⟩ <;>
        rw [e2] at t2 <;> dsimp only [MRes.bind] at t2 ⊢ <;> try trivial
      have t3 := sort3M_shape cmp s2 v2 (v.length / 4 * 3 - 1)
        (v.length / 4 * 3) (v.length / 4 * 3 + 1) (by omega) (by omega)
        (by omega)
      rcases e3 : sort3M cmp s2 v2 (v.length / 4 * 3 - 1)
          (v.length / 4 * 3) (v.length / 4 * 3 + 1) with
          _ | _ | ⟨e, w⟩ | ⟨s3, v3, u3⟩ <;>
        rw [e3] at t3 <;> dsimp only [MRes.bind] at t3 ⊢ <;> try trivial
      have t4 := sort3M_shape cmp s3 v3 (v.length / 4 * 1)
        (v.length / 4 * 2) (v.length / 4 * 3) (by omega) (by omega)
        (by omega)
      rcases e4 : sort3M cmp s3 v3 (v.length / 4 * 1) (v.length / 4 * 2)
          (v.length / 4 * 3) with _ | _ | ⟨e, w⟩ | ⟨s4, v4, u4⟩ <;>
        rw [e4] at t4 <;> dsimp only [MRes.bind] at t4 ⊢ <;> try trivial
      omega
    · rw [if_neg h256]
      dsimp only [MRes.bind]
      have t4 := sort3M_shape cmp s v (v.length / 4 * 1) (v.length / 4 * 2)
        (v.length / 4 * 3) (by omega) (by omega) (by omega)
      rcases e4 : sort3M cmp s v (v.length / 4 * 1) (v.length / 4 * 2)
          (v.length / 4 * 3) with _ | _ | ⟨e, w⟩ | ⟨s4, v4, u4⟩ <;>
        rw [e4] at t4 <;> dsimp only [MRes.bind] at t4 ⊢ <;> try trivial
  · rw [if_neg h4]

theorem scan_lM_lands (cmp : Cmp σ ε α) (piv : α) :
    ∀ fuel s (v : List α) l r, Lands (scan_lM cmp piv fuel s v l r) := by
  intro fuel
  induction fuel with
  | zero => intro s v l r; trivial
  | succ fuel ih =>
    intro s v l r
    unfold scan_lM
    split
    · cases hc : cmp s (get v l) piv with
      | error e => trivial
      | ok os =>
        obtain ⟨o, s'⟩ := os
        dsimp only
        split
        · exact ih s' v (l + 1) r
        · trivial
    · trivial

theorem scan_rM_lands (cmp : Cmp σ ε α) (piv : α) :
    ∀ fuel s (v : List α) l r, Lands (scan_rM cmp piv fuel s v l r) := by
  intro fuel
  induction fuel with
  | zero => intro s v l r; trivial
  | succ fuel ih =>
    intro s v l r
    unfold scan_rM
    split
    · cases hc : cmp s (get v (r - 1)) piv with
      | error e => trivial
      | ok os =>
        obtain ⟨o, s'⟩ := os
        dsimp only
        split
        · exact ih s' v l (r - 1)
        · trivial
    · trivial

theorem scan_eq_lM_lands (cmp : Cmp σ ε α) (piv : α) :
    ∀ fuel s (v : List α) l r, Lands (scan_eq_lM cmp piv fuel s v l r) := by
  intro fuel
  induction fuel with
  | zero => intro s v l r; trivial
  | succ fuel ih =>
    intro s v l r
    unfold scan_eq_lM
    split
    · cases hc : cmp s (get v l) piv with
      | error e => trivial
      | ok os =>
        obtain ⟨o, s'⟩ := os
        dsimp only
        split
        · exact ih s' v (l + 1) r
        · trivial
    · trivial

theorem scan_gt_rM_lands (cmp : Cmp σ ε α) (piv : α) :
    ∀ fuel s (v : List α) l r, Lands (scan_gt_rM cmp piv fuel s v l r) := by
  intro fuel
  induction fuel with
  | zero => intro s v l r; trivial
  | succ fuel ih =>
    intro s v l r
    unfold scan_gt_rM
    split
    · cases hc : cmp s (get v (r - 1)) piv with
      | error e => trivial
      | ok os =>
        obtain ⟨o, s'⟩ := os
        dsimp only
        split
        · exact ih s' v l (r - 1)
        · trivial
    · trivial

theorem pe_goM_lands (cmp : Cmp σ ε α) (piv : α) :
    ∀ fuel s (w : List α) l r, Lands (pe_goM cmp piv fuel s w l r) := by
  intro fuel
  induction fuel with
  | zero => intro s w l r; trivial
  | succ fuel ih =>
    intro s w l r
    unfold pe_goM
    split
    · refine Lands.bind_lands (scan_eq_lM_lands cmp piv _ _ _ _ _)
        (fun s1 v1 l2 => ?_)
      refine Lands.bind_lands (scan_gt_rM_lands cmp piv _ _ _ _ _)
        (fun s2 v2 r2 => ?_)
      split
      · exact ih s2 _ (l2 + 1) (r2 - 1)
      · trivial
    · trivial

theorem partition_equalM_shape (cmp : Cmp σ ε α) (s : σ) (v : List α)
    (mid : Nat) (hv : 1 ≤ v.length) :
    match partition_equalM cmp s v mid with
    | .fuelout => False
    | .fault => False
    | .panic _ _ => True
    | .ok _ w m => w.length = v.length ∧ 1 ≤ m ∧ m ≤ v.length := by
  unfold partition_equalM
  dsimp only
  have hl := pe_goM_lands cmp (get (swap v 0 mid) 0)
    (((swap v 0 mid).drop 1).length + 1) s ((swap v 0 mid).drop 1) 0
    ((swap v 0 mid).drop 1).length
  have hpe := pe_goM_spec (P := Set.univ) cmp (fun _ _ _ _ _ => Set.mem_univ _)
    (get (swap v 0 mid) 0) (((swap v 0 mid).drop 1).length + 1) s
    ((swap v 0 mid).drop 1) 0 ((swap v 0 mid).drop 1).length
  rcases h1 : pe_goM cmp (get (swap v 0 mid) 0)
      (((swap v 0 mid).drop 1).length + 1) s ((swap v 0 mid).drop 1) 0
      ((swap v 0 mid).drop 1).length with _ | _ | ⟨e, w'⟩ | ⟨s1, w1, l⟩ <;>
    rw [h1] at hl hpe <;> dsimp only at hl ⊢ <;> try trivial
  have h2 : w1.length = ((swap v 0 mid).drop 1).length := hpe.1.length_eq
  rw [List.length_drop, Pdq.length_swap] at h2
  have h3 := hpe.2
  rw [Nat.zero_max, List.length_drop, Pdq.length_swap] at h3
  refine ⟨?_, by omega, by omega⟩
  rw [List.length_append, List.length_take, Pdq.length_swap]
  omega

theorem getD_set_self : ∀ (l : List Nat) (n a : Nat), n < l.length →
    (l.set n a).getD n 0 = a := by
  intro l
  induction l with
  | nil => intro n a h; exact absurd h (by simp)
  | cons x xs ih =>
    intro n a h
    cases n with
    | zero => rfl
    | succ n => exact ih n a (by simpa using h)

theorem getD_set_ne : ∀ (l : List Nat) (m n a : Nat), n ≠ m →
    (l.set m a).getD n 0 = l.getD n 0 := by
  intro l
  induction l with
  | nil => intro m n a h; rfl
  | cons x xs ih =>
    intro m n a h
    cases m with
    | zero =>
      cases n with
      | zero => exact absurd rfl h
      | succ n => rfl
    | succ m =>
      cases n with
      | zero => rfl
      | succ n => exact ih m n a (by omega)

/-- The left tracing loop never faults under its entry bounds, leaves the
slice alone, and stores only offsets below the block width. -/
theorem trace_l_goM_ok (cmp : Cmp σ ε α) (piv : α) (l : Nat) :
    ∀ k s (v : List α) i len_l offs tr,
      l + i + k ≤ v.length → len_l + k ≤ BLOCK → i + k ≤ BLOCK →
      offs.length = BLOCK →
      match trace_l_goM cmp piv l k s v i len_l offs tr with
      | .fuelout => False
      | .fault => False
      | .panic _ _ => True
      | .ok _ w t =>
          w = v ∧ t.1 ≤ len_l + k ∧ t.2.1.length = BLOCK ∧
          (∀ j, j < len_l → t.2.1.getD j 0 = offs.getD j 0) ∧
          (∀ j, len_l ≤ j → j < t.1 → t.2.1.getD j 0 < i + k) ∧
          (∀ x, x ∈ t.2.2 → x ∈ tr ∨ x < i + k) := by
  have hB : BLOCK = 64 := rfl
  intro k
  induction k with
  | zero =>
    intro s v i len_l offs tr h1 h2 h3 h0
    exact ⟨rfl, Nat.le_refl _, h0, fun j hj => rfl,
      fun j hj1 hj2 => by omega, fun x hx => Or.inl hx⟩
  | succ k ih =>
    intro s v i len_l offs tr h1 h2 h3 h0
    unfold trace_l_goM
    rw [if_pos ⟨by omega, by omega⟩]
    cases hc : cmp s (get v (l + i)) piv with
    | error e => trivial
    | ok os =>
      obtain ⟨o, s'⟩ := os
      dsimp only
      have hc0 : (if o ≠ .lt then 1 else 0) ≤ 1 := by split <;> omega
      have hih := ih s' v (i + 1) (len_l + if o ≠ .lt then 1 else 0)
        (offs.set len_l (i % 256)) (tr ++ [i]) (by omega) (by omega) (by omega)
        (by rw [List.length_set]; exact h0)
      rcases hr : trace_l_goM cmp piv l k s' v (i + 1)
          (len_l + if o ≠ .lt then 1 else 0) (offs.set len_l (i % 256))
          (tr ++ [i]) with _ | _ | ⟨e, w⟩ | ⟨s2, w, t⟩ <;>
        rw [hr] at hih <;> dsimp only at hih ⊢ <;> try trivial
      obtain ⟨hw, hlen, hoffs, hpres, hvals, htr⟩ := hih
      refine ⟨hw, by omega, hoffs, ?_, ?_, ?_⟩
      · intro j hj
        rw [hpres j (by omega)]
        exact getD_set_ne offs len_l j (i % 256) (by omega)
      · intro j hj1 hj2
        by_cases hj : len_l + (if o ≠ .lt then 1 else 0) ≤ j
        · have := hvals j hj hj2
          omega
        · have hj' : j = len_l := by omega
          subst hj'
          rw [hpres j (by omega)]
          rw [getD_set_self offs j (i % 256) (by omega)]
          have hi : i % 256 = i := Nat.mod_eq_of_lt (by omega)
          omega
      · intro x hx
        rcases htr x hx with hx2 | hx2
        · rcases List.mem_append.mp hx2 with h | h
          · exact Or.inl h
          · have : x = i := by simpa using h
            right
            omega
        · right
          omega

/-- The right tracing loop never faults under its entry bounds, leaves the
slice alone, and stores only offsets below the block width. -/
theorem trace_r_goM_ok (cmp : Cmp σ ε α) (piv : α) (r : Nat) :
    ∀ k s (v : List α) i len_r offs tr,
      r ≤ v.length → i + k ≤ r → len_r + k ≤ BLOCK → i + k ≤ BLOCK →
      offs.length = BLOCK →
      match trace_r_goM cmp piv r k s v i len_r offs tr with
      | .fuelout => False
      | .fault => False
      | .panic _ _ => True
      | .ok _ w t =>
          w = v ∧ t.1 ≤ len_r + k ∧ t.2.1.length = BLOCK ∧
          (∀ j, j < len_r → t.2.1.getD j 0 = offs.getD j 0) ∧
          (∀ j, len_r ≤ j → j < t.1 → t.2.1.getD j 0 < i + k) ∧
          (∀ x, x ∈ t.2.2 → x ∈ tr ∨ x < i + k) := by
  have hB : BLOCK = 64 := rfl
  intro k
  induction k with
  | zero =>
    intro s v i len_r offs tr h1 h2 h3 h4 h0
    exact ⟨rfl, Nat.le_refl _, h0, fun j hj => rfl,
      fun j hj1 hj2 => by omega, fun x hx => Or.inl hx⟩
  | succ k ih =>
    intro s v i len_r offs tr h1 h2 h3 h4 h0
    unfold trace_r_goM
    rw [if_pos ⟨by omega, by omega, by omega⟩]
    cases hc : cmp s (get v (r - i - 1)) piv with
    | error e => trivial
    | ok os =>
      obtain ⟨o, s'⟩ := os
      dsimp only
      have hc0 : (if o = .lt then 1 else 0) ≤ 1 := by split <;> omega
      have hih := ih s' v (i + 1) (len_r + if o = .lt then 1 else 0)
        (offs.set len_r (i % 256)) (tr ++ [i]) h1 (by omega) (by omega)
        (by omega) (by rw [List.length_set]; exact h0)
      rcases hr : trace_r_goM cmp piv r k s' v (i + 1)
          (len_r + if o = .lt then 1 else 0) (offs.set len_r (i % 256))
          (tr ++ [i]) with _ | _ | ⟨e, w⟩ | ⟨s2, w, t⟩ <;>
        rw [hr] at hih <;> dsimp only at hih ⊢ <;> try trivial
      obtain ⟨hw, hlen, hoffs, hpres, hvals, htr⟩ := hih
      refine ⟨hw, by omega, hoffs, ?_, ?_, ?_⟩
      · intro j hj
        rw [hpres j (by omega)]
        exact getD_set_ne offs len_r j (i % 256) (by omega)
      · intro j hj1 hj2
        by_cases hj : len_r + (if o = .lt then 1 else 0) ≤ j
        · have := hvals j hj hj2
          omega
        · have hj' : j = len_r := by omega
          subst hj'
          rw [hpres j (by omega)]
          rw [getD_set_self offs j (i % 256) (by omega)]
          have hi : i % 256 = i := Nat.mod_eq_of_lt (by omega)
          omega
      · intro x hx
        rcases htr x hx with hx2 | hx2
        · rcases List.mem_append.mp hx2 with h | h
          · exact Or.inl h
          · have : x = i := by simpa using h
            right
            omega
        · right
          omega

/-- The swap loop succeeds and advances both cursors by its count when the
pending offsets are in range. -/
theorem swaps_goM_ok (osl osr : List Nat) (l r : Nat) :
    ∀ k (v : List α) sl sr,
      r ≤ v.length →
      (∀ j, sl ≤ j → j < sl + k → l + osl.getD j 0 < v.length) →
      (∀ j, sr ≤ j → j < sr + k → osr.getD j 0 < r) →
      sl + k ≤ BLOCK → sr + k ≤ BLOCK →
      ∃ w, swaps_goM osl osr l r k v sl sr = some (w, sl + k, sr + k) ∧
        w.length = v.length := by
  have hB : BLOCK = 64 := rfl
  intro k
  induction k with
  | zero => intro v sl sr h1 h2 h3 h4 h5; exact ⟨v, rfl, rfl⟩
  | succ k ih =>
    intro v sl sr h1 h2 h3 h4 h5
    unfold swaps_goM
    rw [if_pos ⟨by omega, by omega, h2 sl (Nat.le_refl sl) (by omega),
      by have := h3 sr (Nat.le_refl sr) (by omega); omega,
      by have := h3 sr (Nat.le_refl sr) (by omega); omega⟩]
    obtain ⟨w, hw, hlen⟩ := ih
      (swap v (l + osl.getD sl 0) (r - osr.getD sr 0 - 1)) (sl + 1) (sr + 1)
      (by rw [Pdq.length_swap]; exact h1)
      (fun j hj1 hj2 => by
        rw [Pdq.length_swap]
        exact h2 j (by omega) (by omega))
      (fun j hj1 hj2 => h3 j (by omega) (by omega)) (by omega) (by omega)
    refine ⟨w, ?_, by rw [hlen, Pdq.length_swap]⟩
    rw [show sl + (k + 1) = sl + 1 + k from by omega,
      show sr + (k + 1) = sr + 1 + k from by omega]
    exact hw

/-- The final left drain succeeds under its entry bounds and returns
`r - k`. -/
theorem drain_l_goM_ok (l : Nat) (offs : List Nat) :
    ∀ k (v : List α) len_l r,
      k ≤ len_l → len_l ≤ BLOCK → k ≤ r → r ≤ v.length →
      (∀ j, len_l - k ≤ j → j < len_l → l + offs.getD j 0 < v.length) →
      ∃ w, drain_l_goM l offs k v len_l r = some (r - k, w) ∧
        w.length = v.length := by
  have hB : BLOCK = 64 := rfl
  intro k
  induction k with
  | zero => intro v len_l r h1 h2 h3 h4 h5; exact ⟨v, rfl, rfl⟩
  | succ k ih =>
    intro v len_l r h1 h2 h3 h4 h5
    unfold drain_l_goM
    rw [if_pos ⟨by omega, h5 (len_l - 1) (by omega) (by omega), by omega,
      by omega⟩]
    obtain ⟨w, hw, hlen⟩ := ih (swap v (l + offs.getD (len_l - 1) 0) (r - 1))
      (len_l - 1) (r - 1) (by omega) (by omega) (by omega)
      (by rw [Pdq.length_swap]; omega)
      (fun j hj0 hj => by
        rw [Pdq.length_swap]
        exact h5 j (by omega) (by omega))
    refine ⟨w, ?_, by rw [hlen, Pdq.length_swap]⟩
    rw [show r - (k + 1) = r - 1 - k from by omega]
    exact hw

/-- The final right drain succeeds under its entry bounds and returns
`l + k`. -/
theorem drain_r_goM_ok (offs : List Nat) :
    ∀ k (v : List α) len_r l r,
      k ≤ len_r → len_r ≤ BLOCK → l + k ≤ v.length → r ≤ v.length →
      (∀ j, len_r - k ≤ j → j < len_r → offs.getD j 0 < r) →
      ∃ w, drain_r_goM offs k v len_r l r = some (l + k, w) ∧
        w.length = v.length := by
  have hB : BLOCK = 64 := rfl
  intro k
  induction k with
  | zero => intro v len_r l r h1 h2 h3 h4 h5; exact ⟨v, rfl, rfl⟩
  | succ k ih =>
    intro v len_r l r h1 h2 h3 h4 h5
    unfold drain_r_goM
    rw [if_pos ⟨by omega,
      by have := h5 (len_r - 1) (by omega) (by omega); omega,
      by have := h5 (len_r - 1) (by omega) (by omega); omega,
      by have := h5 (len_r - 1) (by omega) (by omega); omega⟩]
    obtain ⟨w, hw, hlen⟩ := ih
      (swap v l (r - offs.getD (len_r - 1) 0 - 1)) (len_r - 1) (l + 1) r
      (by omega) (by omega) (by rw [Pdq.length_swap]; omega)
      (by rw [Pdq.length_swap]; exact h4)
      (fun j hj0 hj => h5 j (by omega) (by omega))
    refine ⟨w, ?_, by rw [hlen, Pdq.length_swap]⟩
    rw [show l + (k + 1) = l + 1 + k from by omega]
    exact hw

/-- One loop iteration of `partition_in_blocks` under the adjusted-state
invariant: it never faults, preserves the slice length, keeps every traced
offset below `BLOCK`, and hands back the advanced state in explicit form. -/
theorem block_iterM_ok (cmp : Cmp σ ε α) (piv : α) (isd : Bool) (s : σ)
    (v : List α) (b : BState) (tr : List Nat)
    (ha : AInv v.length (block_adjust isd b)) (htr : ∀ x ∈ tr, x < BLOCK) :
    match block_iterM cmp piv isd s v b tr with
    | .fuelout => False
    | .fault => False
    | .panic _ _ => True
    | .ok _ w p =>
        w.length = v.length ∧ (∀ x ∈ p.2, x < BLOCK) ∧
        ∃ lenL osl lenR osr sl sr,
          p.1 = block_advance
            ⟨(block_adjust isd b).l, (block_adjust isd b).block_l, sl, lenL,
              osl, (block_adjust isd b).r, (block_adjust isd b).block_r, sr,
              lenR, osr⟩ ∧
          osl.length = BLOCK ∧ osr.length = BLOCK ∧
          sl ≤ lenL ∧ sr ≤ lenR ∧
          lenL ≤ (block_adjust isd b).block_l ∧
          lenR ≤ (block_adjust isd b).block_r ∧
          (sl = lenL ∨ sr = lenR) ∧
          (∀ j, sl ≤ j → j < lenL →
            osl.getD j 0 < (block_adjust isd b).block_l) ∧
          (∀ j, sr ≤ j → j < lenR →
            osr.getD j 0 < (block_adjust isd b).block_r) := by
  have hB : BLOCK = 64 := rfl
  unfold block_iterM
  generalize hg : block_adjust isd b = b1
  rw [hg] at ha
  obtain ⟨hA1, hA2, hA3, hA4, hA5, hA6, hA7, hA8, hA9, hA10⟩ := ha
  unfold block_traceLM
  by_cases hsl : b1.start_l = b1.len_l
  · rw [if_pos hsl]
    have htl := trace_l_goM_ok cmp piv b1.l b1.block_l s v 0 0 b1.offsets_l tr
      (by omega) (by omega) (by omega) hA1
    rcases hrl : trace_l_goM cmp piv b1.l b1.block_l s v 0 0 b1.offsets_l tr
      with _ | _ | ⟨e, w0⟩ | ⟨s2, v2, t⟩ <;> rw [hrl] at htl <;>
      dsimp only [MRes.bind] at htl ⊢ <;> try trivial
    obtain ⟨hv2, ht1, ht2, ht3, ht4, ht5⟩ := htl
    subst v2
    have fL1 : (t.2.1 : List Nat).length = BLOCK := ht2
    have fL3 : t.1 ≤ b1.block_l := by omega
    have fL4 : ∀ j, 0 ≤ j → j < t.1 → t.2.1.getD j 0 < b1.block_l :=
      fun j hj1 hj2 => by
        have := ht4 j hj1 hj2
        omega
    have fTL : ∀ x ∈ t.2.2, x < BLOCK := fun x hx => by
      rcases ht5 x hx with h | h
      · exact htr x h
      · omega
    unfold block_traceRM
    try dsimp only [MRes.bind]
    by_cases hsr : b1.start_r = b1.len_r
    · rw [if_pos hsr]
      have htrr := trace_r_goM_ok cmp piv b1.r b1.block_r s2 v 0 0
        b1.offsets_r t.2.2 hA7 (by omega) (by omega) (by omega) hA2
      rcases hrr : trace_r_goM cmp piv b1.r b1.block_r s2 v 0 0 b1.offsets_r
          t.2.2 with _ | _ | ⟨e, w0⟩ | ⟨s3, v3, u⟩ <;> rw [hrr] at htrr <;>
        dsimp only [MRes.bind] at htrr ⊢ <;> try trivial
      obtain ⟨hv3, hu1, hu2, hu3, hu4, hu5⟩ := htrr
      subst v3
      have fR1 : (u.2.1 : List Nat).length = BLOCK := hu2
      have fR3 : u.1 ≤ b1.block_r := by omega
      have fR4 : ∀ j, 0 ≤ j → j < u.1 → u.2.1.getD j 0 < b1.block_r :=
        fun j hj1 hj2 => by
          have := hu4 j hj1 hj2
          omega
      have fT : ∀ x ∈ u.2.2, x < BLOCK := fun x hx => by
        rcases hu5 x hx with h | h
        · exact fTL x h
        · omega
      rcases hsw : swaps_goM t.2.1 u.2.1 b1.l b1.r
          (min (t.1 - 0) (u.1 - 0)) v 0 0 with
          _ | ⟨v4, sl2, sr2⟩ <;> try dsimp only [MRes.bind]
      · obtain ⟨v4, hsw2, hl4⟩ := swaps_goM_ok t.2.1 u.2.1 b1.l b1.r
          (min (t.1 - 0) (u.1 - 0)) v 0 0 hA7
          (fun j hj1 hj2 => by
            have := fL4 j hj1 (by omega)
            omega)
          (fun j hj1 hj2 => by
            have := fR4 j hj1 (by omega)
            omega)
          (by omega) (by omega)
        rw [hsw] at hsw2
        exact Option.noConfusion hsw2
      · obtain ⟨v4x, hsw2, hl4⟩ := swaps_goM_ok t.2.1 u.2.1 b1.l b1.r
          (min (t.1 - 0) (u.1 - 0)) v 0 0 hA7
          (fun j hj1 hj2 => by
            have := fL4 j hj1 (by omega)
            omega)
          (fun j hj1 hj2 => by
            have := fR4 j hj1 (by omega)
            omega)
          (by omega) (by omega)
        rw [hsw] at hsw2
        injection hsw2 with hsw3
        injection hsw3 with hv4 hsw4
        injection hsw4 with hsl2 hsr2
        subst hv4
        subst hsl2
        subst hsr2
        refine ⟨hl4, fT, t.1, t.2.1, u.1, u.2.1,
          0 + min (t.1 - 0) (u.1 - 0),
          0 + min (t.1 - 0) (u.1 - 0), rfl, fL1, fR1,
          by omega, by omega, fL3, fR3, by omega,
          fun j hj1 hj2 => fL4 j (by omega) hj2,
          fun j hj1 hj2 => fR4 j (by omega) hj2⟩
    · rw [if_neg hsr]
      dsimp only [MRes.bind]
      have hpr : b1.start_r < b1.len_r := by omega
      obtain ⟨fR3, fR4⟩ := hA10 hpr
      have fR1 := hA2
      have fT := fTL
      rcases hsw : swaps_goM t.2.1 b1.offsets_r b1.l b1.r
          (min (t.1 - 0) (b1.len_r - b1.start_r)) v 0 b1.start_r with
          _ | ⟨v4, sl2, sr2⟩ <;> try dsimp only [MRes.bind]
      · obtain ⟨v4, hsw2, hl4⟩ := swaps_goM_ok t.2.1 b1.offsets_r b1.l b1.r
          (min (t.1 - 0) (b1.len_r - b1.start_r)) v 0 b1.start_r hA7
          (fun j hj1 hj2 => by
            have := fL4 j hj1 (by omega)
            omega)
          (fun j hj1 hj2 => by
            have := fR4 j hj1 (by omega)
            omega)
          (by omega) (by omega)
        rw [hsw] at hsw2
        exact Option.noConfusion hsw2
      · obtain ⟨v4x, hsw2, hl4⟩ := swaps_goM_ok t.2.1 b1.offsets_r b1.l b1.r
          (min (t.1 - 0) (b1.len_r - b1.start_r)) v 0 b1.start_r hA7
          (fun j hj1 hj2 => by
            have := fL4 j hj1 (by omega)
            omega)
          (fun j hj1 hj2 => by
            have := fR4 j hj1 (by omega)
            omega)
          (by omega) (by omega)
        rw [hsw] at hsw2
        injection hsw2 with hsw3
        injection hsw3 with hv4 hsw4
        injection hsw4 with hsl2 hsr2
        subst hv4
        subst hsl2
        subst hsr2
        refine ⟨hl4, fT, t.1, t.2.1, b1.len_r, b1.offsets_r,
          0 + min (t.1 - 0) (b1.len_r - b1.start_r),
          b1.start_r + min (t.1 - 0) (b1.len_r - b1.start_r), rfl, fL1, fR1,
          by omega, by omega, fL3, fR3, by omega,
          fun j hj1 hj2 => fL4 j (by omega) hj2,
          fun j hj1 hj2 => fR4 j (by omega) hj2⟩
  · rw [if_neg hsl]
    dsimp only [MRes.bind]
    have hpl : b1.start_l < b1.len_l := by omega
    obtain ⟨fL3, fL4⟩ := hA9 hpl
    have fL1 := hA1
    unfold block_traceRM
    try dsimp only [MRes.bind]
    by_cases hsr : b1.start_r = b1.len_r
    · rw [if_pos hsr]
      have htrr := trace_r_goM_ok cmp piv b1.r b1.block_r s v 0 0
        b1.offsets_r tr hA7 (by omega) (by omega) (by omega) hA2
      rcases hrr : trace_r_goM cmp piv b1.r b1.block_r s v 0 0 b1.offsets_r
          tr with _ | _ | ⟨e, w0⟩ | ⟨s3, v3, u⟩ <;> rw [hrr] at htrr <;>
        dsimp only [MRes.bind] at htrr ⊢ <;> try trivial
      obtain ⟨hv3, hu1, hu2, hu3, hu4, hu5⟩ := htrr
      subst v3
      have fR1 : (u.2.1 : List Nat).length = BLOCK := hu2
      have fR3 : u.1 ≤ b1.block_r := by omega
      have fR4 : ∀ j, 0 ≤ j → j < u.1 → u.2.1.getD j 0 < b1.block_r :=
        fun j hj1 hj2 => by
          have := hu4 j hj1 hj2
          omega
      have fT : ∀ x ∈ u.2.2, x < BLOCK := fun x hx => by
        rcases hu5 x hx with h | h
        · exact htr x h
        · omega
      rcases hsw : swaps_goM b1.offsets_l u.2.1 b1.l b1.r
          (min (b1.len_l - b1.start_l) (u.1 - 0)) v b1.start_l 0 with
          _ | ⟨v4, sl2, sr2⟩ <;> try dsimp only [MRes.bind]
      · obtain ⟨v4, hsw2, hl4⟩ := swaps_goM_ok b1.offsets_l u.2.1 b1.l b1.r
          (min (b1.len_l - b1.start_l) (u.1 - 0)) v b1.start_l 0 hA7
          (fun j hj1 hj2 => by
            have := fL4 j hj1 (by omega)
            omega)
          (fun j hj1 hj2 => by
            have := fR4 j hj1 (by omega)
            omega)
          (by omega) (by omega)
        rw [hsw] at hsw2
        exact Option.noConfusion hsw2
      · obtain ⟨v4x, hsw2, hl4⟩ := swaps_goM_ok b1.offsets_l u.2.1 b1.l b1.r
          (min (b1.len_l - b1.start_l) (u.1 - 0)) v b1.start_l 0 hA7
          (fun j hj1 hj2 => by
            have := fL4 j hj1 (by omega)
            omega)
          (fun j hj1 hj2 => by
            have := fR4 j hj1 (by omega)
            omega)
          (by omega) (by omega)
        rw [hsw] at hsw2
        injection hsw2 with hsw3
        injection hsw3 with hv4 hsw4
        injection hsw4 with hsl2 hsr2
        subst hv4
        subst hsl2
        subst hsr2
        refine ⟨hl4, fT, b1.len_l, b1.offsets_l, u.1, u.2.1,
          b1.start_l + min (b1.len_l - b1.start_l) (u.1 - 0),
          0 + min (b1.len_l - b1.start_l) (u.1 - 0), rfl, fL1, fR1,
          by omega, by omega, fL3, fR3, by omega,
          fun j hj1 hj2 => fL4 j (by omega) hj2,
          fun j hj1 hj2 => fR4 j (by omega) hj2⟩
    · rw [if_neg hsr]
      dsimp only [MRes.bind]
      have hpr : b1.start_r < b1.len_r := by omega
      obtain ⟨fR3, fR4⟩ := hA10 hpr
      have fR1 := hA2
      have fT := htr
      rcases hsw : swaps_goM b1.offsets_l b1.offsets_r b1.l b1.r
          (min (b1.len_l - b1.start_l) (b1.len_r - b1.start_r)) v b1.start_l b1.start_r with
          _ | ⟨v4, sl2, sr2⟩ <;> try dsimp only [MRes.bind]
      · obtain ⟨v4, hsw2, hl4⟩ := swaps_goM_ok b1.offsets_l b1.offsets_r b1.l b1.r
          (min (b1.len_l - b1.start_l) (b1.len_r - b1.start_r)) v b1.start_l b1.start_r hA7
          (fun j hj1 hj2 => by
            have := fL4 j hj1 (by omega)
            omega)
          (fun j hj1 hj2 => by
            have := fR4 j hj1 (by omega)
            omega)
          (by omega) (by omega)
        rw [hsw] at hsw2
        exact Option.noConfusion hsw2
      · obtain ⟨v4x, hsw2, hl4⟩ := swaps_goM_ok b1.offsets_l b1.offsets_r b1.l b1.r
          (min (b1.len_l - b1.start_l) (b1.len_r - b1.start_r)) v b1.start_l b1.start_r hA7
          (fun j hj1 hj2 => by
            have := fL4 j hj1 (by omega)
            omega)
          (fun j hj1 hj2 => by
            have := fR4 j hj1 (by omega)
            omega)
          (by omega) (by omega)
        rw [hsw] at hsw2
        injection hsw2 with hsw3
        injection hsw3 with hv4 hsw4
        injection hsw4 with hsl2 hsr2
        subst hv4
        subst hsl2
        subst hsr2
        refine ⟨hl4, fT, b1.len_l, b1.offsets_l, b1.len_r, b1.offsets_r,
          b1.start_l + min (b1.len_l - b1.start_l) (b1.len_r - b1.start_r),
          b1.start_r + min (b1.len_l - b1.start_l) (b1.len_r - b1.start_r), rfl, fL1, fR1,
          by omega, by omega, fL3, fR3, by omega,
          fun j hj1 hj2 => fL4 j (by omega) hj2,
          fun j hj1 hj2 => fR4 j (by omega) hj2⟩

/-- The patch-up drain after the final loop iteration succeeds and returns a
split point inside the slice. -/
theorem block_drain_ok (n : Nat) (w : List α) (b1 : BState)
    (lenL : Nat) (osl : List Nat) (lenR : Nat) (osr : List Nat) (sl sr : Nat)
    (hw : w.length = n)
    (ho1 : osl.length = BLOCK) (ho2 : osr.length = BLOCK)
    (h3 : sl ≤ lenL) (h4 : sr ≤ lenR)
    (h5 : lenL ≤ b1.block_l) (h6 : lenR ≤ b1.block_r)
    (hA5 : b1.block_l ≤ BLOCK) (hA6 : b1.block_r ≤ BLOCK)
    (hA7 : b1.r ≤ n) (hA8 : b1.l + b1.block_l + b1.block_r ≤ b1.r)
    (h7 : sl = lenL ∨ sr = lenR)
    (h8 : ∀ j, sl ≤ j → j < lenL → osl.getD j 0 < b1.block_l)
    (h9 : ∀ j, sr ≤ j → j < lenR → osr.getD j 0 < b1.block_r) :
    ∃ m v2, block_drainM (block_advance
        ⟨b1.l, b1.block_l, sl, lenL, osl, b1.r, b1.block_r, sr, lenR, osr⟩) w
        = some (m, v2) ∧ m ≤ n ∧ v2.length = n := by
  have hB : BLOCK = 64 := rfl
  unfold block_advance
  dsimp only
  by_cases hxl : sl = lenL
  · rw [if_pos hxl]
    dsimp only
    by_cases hxr : sr = lenR
    · rw [if_pos hxr]
      unfold block_drainM
      dsimp only
      rw [if_neg (by omega)]
      obtain ⟨w2, hw2, hlen2⟩ := drain_r_goM_ok osr (lenR - sr) w lenR
        (b1.l + b1.block_l) (b1.r - b1.block_r) (by omega) (by omega)
        (by omega) (by omega) (fun j hj1 hj2 => by omega)
      exact ⟨b1.l + b1.block_l + (lenR - sr), w2, hw2, by omega, by omega⟩
    · rw [if_neg hxr]
      unfold block_drainM
      dsimp only
      rw [if_neg (by omega)]
      obtain ⟨w2, hw2, hlen2⟩ := drain_r_goM_ok osr (lenR - sr) w lenR
        (b1.l + b1.block_l) b1.r (by omega) (by omega) (by omega) (by omega)
        (fun j hj1 hj2 => by
          have := h9 j (by omega) hj2
          omega)
      exact ⟨b1.l + b1.block_l + (lenR - sr), w2, hw2, by omega, by omega⟩
  · rw [if_neg hxl]
    dsimp only
    have hxr : sr = lenR := by
      rcases h7 with h | h
      · exact absurd h hxl
      · exact h
    rw [if_pos hxr]
    unfold block_drainM
    dsimp only
    rw [if_pos (by omega)]
    obtain ⟨w2, hw2, hlen2⟩ := drain_l_goM_ok b1.l osl (lenL - sl) w lenL
      (b1.r - b1.block_r) (by omega) (by omega) (by omega) (by omega)
      (fun j hj1 hj2 => by
        have := h8 j (by omega) hj2
        omega)
    exact ⟨b1.r - b1.block_r - (lenL - sl), w2, hw2, by omega, by omega⟩

/-- A non-final loop iteration of `partition_in_blocks` re-establishes the
loop invariant and shrinks the untraced gap by a whole block. -/
theorem block_iterM_nf (cmp : Cmp σ ε α) (piv : α) (s : σ) (v : List α)
    (b : BState) (tr : List Nat) (hinv : BInv v.length b)
    (hnd : ¬ (b.r - b.l ≤ 2 * BLOCK)) (htr : ∀ x ∈ tr, x < BLOCK) :
    match block_iterM cmp piv false s v b tr with
    | .fuelout => False
    | .fault => False
    | .panic _ _ => True
    | .ok _ w p =>
        w.length = v.length ∧ (∀ x ∈ p.2, x < BLOCK) ∧
        BInv v.length p.1 ∧ p.1.r - p.1.l + BLOCK ≤ b.r - b.l := by
  have hB : BLOCK = 64 := rfl
  obtain ⟨hI1, hI2, hI3, hI4, hI5, hI6, hI7, hI8, hI9, hI10, hI11, hI12,
    hI13, hI14⟩ := hinv
  have hadj : block_adjust false b = b := rfl
  have ha : AInv v.length (block_adjust false b) := by
    rw [hadj]
    exact ⟨hI3, hI4, hI7, hI8, by omega, by omega, hI6, by omega,
      fun h => ⟨by omega, fun j hj1 hj2 => by
        have := hI13 j hj1 hj2
        omega⟩,
      fun h => ⟨by omega, fun j hj1 hj2 => by
        have := hI14 j hj1 hj2
        omega⟩⟩
  have hit := block_iterM_ok cmp piv false s v b tr ha htr
  rcases hres : block_iterM cmp piv false s v b tr with _ | _ | ⟨e, w⟩ |
    ⟨s', w, p⟩ <;> rw [hres] at hit <;> dsimp only at hit ⊢ <;> try trivial
  obtain ⟨hlen, htr', lenL, osl, lenR, osr, sl, sr, hpeq, ho1, ho2, h3, h4,
    h5, h6, h7, h8, h9⟩ := hit
  rw [hadj] at hpeq h5 h6 h8 h9
  refine ⟨hlen, htr', ?_⟩
  rw [hpeq]
  unfold block_advance
  dsimp only
  by_cases hxl : sl = lenL
  · rw [if_pos hxl]
    dsimp only
    by_cases hxr : sr = lenR
    · rw [if_pos hxr]
      unfold BInv
      dsimp only
      exact ⟨⟨hI1, hI2, ho1, ho2, by omega, by omega, h3, h4, by omega,
        by omega, by omega, fun h => by omega,
        fun j hj1 hj2 => by
          have := h8 j hj1 hj2
          omega,
        fun j hj1 hj2 => by
          have := h9 j hj1 hj2
          omega⟩, by omega⟩
    · rw [if_neg hxr]
      unfold BInv
      dsimp only
      exact ⟨⟨hI1, hI2, ho1, ho2, by omega, by omega, h3, h4, by omega,
        by omega, by omega, fun h => by omega,
        fun j hj1 hj2 => by
          have := h8 j hj1 hj2
          omega,
        fun j hj1 hj2 => by
          have := h9 j hj1 hj2
          omega⟩, by omega⟩
  · rw [if_neg hxl]
    dsimp only
    have hxr : sr = lenR := by
      rcases h7 with h | h
      · exact absurd h hxl
      · exact h
    rw [if_pos hxr]
    unfold BInv
    dsimp only
    exact ⟨⟨hI1, hI2, ho1, ho2, by omega, by omega, h3, h4, by omega,
      by omega, by omega, fun h => by omega,
      fun j hj1 hj2 => by
        have := h8 j hj1 hj2
        omega,
      fun j hj1 hj2 => by
        have := h9 j hj1 hj2
        omega⟩, by omega⟩

/-- The final loop iteration of `partition_in_blocks`: the subsequent drain
succeeds and yields a split point inside the slice. -/
theorem block_iterM_fin (cmp : Cmp σ ε α) (piv : α) (s : σ) (v : List α)
    (b : BState) (tr : List Nat) (hinv : BInv v.length b)
    (hd : b.r - b.l ≤ 2 * BLOCK) (htr : ∀ x ∈ tr, x < BLOCK) :
    match block_iterM cmp piv true s v b tr with
    | .fuelout => False
    | .fault => False
    | .panic _ _ => True
    | .ok _ w p =>
        w.length = v.length ∧ (∀ x ∈ p.2, x < BLOCK) ∧
        ∃ m v2, block_drainM p.1 w = some (m, v2) ∧ m ≤ v.length ∧
          v2.length = v.length := by
  have hB : BLOCK = 64 := rfl
  obtain ⟨hI1, hI2, hI3, hI4, hI5, hI6, hI7, hI8, hI9, hI10, hI11, hI12,
    hI13, hI14⟩ := hinv
  have ha : AInv v.length (block_adjust true b) := by
    by_cases hpl : b.start_l < b.len_l
    · have hadj : block_adjust true b =
          {b with block_r := b.r - b.l - BLOCK} := by
        unfold block_adjust
        rw [if_pos rfl]
        dsimp only
        rw [if_pos (Or.inl hpl), if_pos hpl]
      rw [hadj]
      unfold AInv
      dsimp only
      have hlB := hI12 (Or.inl hpl)
      refine ⟨hI3, hI4, hI7, hI8, by omega, by omega, hI6, by omega,
        fun h => ⟨by omega, fun j hj1 hj2 => by
          have := hI13 j hj1 hj2
          omega⟩,
        fun h => absurd ⟨hpl, h⟩ hI11⟩
    · by_cases hpr : b.start_r < b.len_r
      · have hadj : block_adjust true b =
            {b with block_l := b.r - b.l - BLOCK} := by
          unfold block_adjust
          rw [if_pos rfl]
          dsimp only
          rw [if_pos (Or.inr hpr), if_neg hpl, if_pos hpr]
        rw [hadj]
        unfold AInv
        dsimp only
        have hlB := hI12 (Or.inr hpr)
        refine ⟨hI3, hI4, hI7, hI8, by omega, by omega, hI6, by omega,
          fun h => absurd h hpl,
          fun h => ⟨by omega, fun j hj1 hj2 => by
            have := hI14 j hj1 hj2
            omega⟩⟩
      · have hadj : block_adjust true b =
            ⟨b.l, (b.r - b.l - 0) / 2, b.start_l, b.len_l, b.offsets_l, b.r,
              b.r - b.l - 0 - (b.r - b.l - 0) / 2, b.start_r, b.len_r,
              b.offsets_r⟩ := by
          unfold block_adjust
          rw [if_pos rfl]
          dsimp only
          rw [if_neg (by omega : ¬ (b.start_l < b.len_l ∨
            b.start_r < b.len_r)), if_neg hpl, if_neg hpr]
        rw [hadj]
        unfold AInv
        dsimp only
        refine ⟨hI3, hI4, hI7, hI8, by omega, by omega, hI6, by omega,
          fun h => absurd h hpl, fun h => absurd h hpr⟩
  have hit := block_iterM_ok cmp piv true s v b tr ha htr
  obtain ⟨hb1, hb2, hb3, hb4, hA5, hA6, hA7, hA8, hb9, hb10⟩ := ha
  rcases hres : block_iterM cmp piv true s v b tr with _ | _ | ⟨e, w⟩ |
    ⟨s', w, p⟩ <;> rw [hres] at hit <;> dsimp only at hit ⊢ <;> try trivial
  obtain ⟨hlen, htr', lenL, osl, lenR, osr, sl, sr, hpeq, ho1, ho2, h3, h4,
    h5, h6, h7, h8, h9⟩ := hit
  rw [hpeq]
  exact ⟨hlen, htr', block_drain_ok v.length w (block_adjust true b) lenL osl
    lenR osr sl sr hlen ho1 ho2 h3 h4 h5 h6 hA5 hA6 hA7 hA8 h7 h8 h9⟩

/-- The main loop of `partition_in_blocks` never faults and never exhausts
its fuel, and on normal return yields a split point inside the slice with
all traced offsets below `BLOCK`. -/
theorem block_loopM_ok (cmp : Cmp σ ε α) (piv : α) :
    ∀ fuel s (v : List α) (b : BState) tr,
      BInv v.length b → b.r - b.l < fuel → (∀ x ∈ tr, x < BLOCK) →
      match block_loopM cmp piv fuel s v b tr with
      | .fuelout => False
      | .fault => False
      | .panic _ _ => True
      | .ok _ w p => w.length = v.length ∧ p.1 ≤ v.length ∧
          ∀ x ∈ p.2, x < BLOCK := by
  have hB : BLOCK = 64 := rfl
  intro fuel
  induction fuel with
  | zero => intro s v b tr h1 h2 h3; omega
  | succ fuel ih =>
    intro s v b tr h1 h2 h3
    unfold block_loopM
    dsimp only
    by_cases hd : b.r - b.l ≤ 2 * BLOCK
    · rw [decide_eq_true hd]
      have hit := block_iterM_fin cmp piv s v b tr h1 hd h3
      rcases hres : block_iterM cmp piv true s v b tr with _ | _ | ⟨e, w⟩ |
        ⟨s', w, p⟩ <;> rw [hres] at hit <;>
        dsimp only [MRes.bind] at hit ⊢ <;> try trivial
      obtain ⟨hlen, htr', m, v2, hdr, hm, hlen2⟩ := hit
      rw [if_pos rfl, hdr]
      dsimp only
      exact ⟨hlen2, hm, htr'⟩
    · rw [decide_eq_false hd]
      have hit := block_iterM_nf cmp piv s v b tr h1 hd h3
      rcases hres : block_iterM cmp piv false s v b tr with _ | _ | ⟨e, w⟩ |
        ⟨s', w, p⟩ <;> rw [hres] at hit <;>
        dsimp only [MRes.bind] at hit ⊢ <;> try trivial
      obtain ⟨hlen, htr', hinv2, hprog⟩ := hit
      rw [if_neg Bool.false_ne_true]
      have hrec := ih s' w p.1 p.2 (by rw [hlen]; exact hinv2) (by omega) htr'
      rcases hrec2 : block_loopM cmp piv fuel s' w p.1 p.2 with _ | _ |
        ⟨e2, w2⟩ | ⟨s2, w2, q⟩ <;> rw [hrec2] at hrec <;>
        dsimp only at hrec ⊢ <;> try trivial
      obtain ⟨hq1, hq2, hq3⟩ := hrec
      exact ⟨by omega, by omega, hq3⟩

/-- The initial loop state satisfies the loop invariant. -/
theorem block_init_inv (n : Nat) : BInv n (block_init n) := by
  unfold block_init BInv
  dsimp only
  exact ⟨rfl, rfl, by simp, by simp, Nat.zero_le n, Nat.le_refl n,
    Nat.le_refl 0, Nat.le_refl 0, by omega, by omega, by omega,
    fun h => by omega, fun j hj1 hj2 => by omega, fun j hj1 hj2 => by omega⟩

/-- `partition_in_blocks` never performs an out-of-bounds unchecked access
and never exhausts its fuel; on normal return the split point is inside the
slice and every stored raw offset is below `BLOCK`. -/
theorem partition_in_blocksM_ok (cmp : Cmp σ ε α) (piv : α) (s : σ)
    (v : List α) :
    match partition_in_blocksM cmp piv s v with
    | .fuelout => False
    | .fault => False
    | .panic _ _ => True
    | .ok _ w p => w.length = v.length ∧ p.1 ≤ v.length ∧
        ∀ x ∈ p.2, x < BLOCK := by
  unfold partition_in_blocksM
  have hfuel : (block_init v.length).r - (block_init v.length).l <
      v.length + 2 := by
    show v.length - 0 < v.length + 2
    omega
  exact block_loopM_ok cmp piv (v.length + 2) s v (block_init v.length) []
    (block_init_inv v.length) hfuel
    (fun x hx => absurd hx (List.not_mem_nil x))

/-- `partition` never faults or exhausts fuel, and the returned split point
lies within the tail subslice. -/
theorem partitionM_shape (cmp : Cmp σ ε α) (s : σ) (v : List α)
    (pivot : Nat) :
    match partitionM cmp s v pivot with
    | .fuelout => False
    | .fault => False
    | .panic _ _ => True
    | .ok _ w p => p.1 ≤ v.length - 1 := by
  unfold partitionM
  dsimp only
  have hls := scan_lM_lands cmp (get (swap v 0 pivot) 0)
    (((swap v 0 pivot).drop 1).length + 1) s ((swap v 0 pivot).drop 1) 0
    ((swap v 0 pivot).drop 1).length
  have hs1 := scan_lM_spec (P := Set.univ) cmp
    (fun _ _ _ _ _ => Set.mem_univ _) (get (swap v 0 pivot) 0)
    (((swap v 0 pivot).drop 1).length + 1) s ((swap v 0 pivot).drop 1) 0
    ((swap v 0 pivot).drop 1).length (Nat.zero_le _)
  rcases h1 : scan_lM cmp (get (swap v 0 pivot) 0)
      (((swap v 0 pivot).drop 1).length + 1) s ((swap v 0 pivot).drop 1) 0
      ((swap v 0 pivot).drop 1).length with _ | _ | ⟨e, w1⟩ | ⟨s1, w1, l⟩ <;>
    rw [h1] at hls hs1 <;> dsimp only at hls hs1 ⊢ <;> try trivial
  obtain ⟨hw1, hl0, hlw⟩ := hs1
  subst w1
  have hrs := scan_rM_lands cmp (get (swap v 0 pivot) 0)
    (((swap v 0 pivot).drop 1).length + 1) s1 ((swap v 0 pivot).drop 1) l
    ((swap v 0 pivot).drop 1).length
  have hs2 := scan_rM_spec (P := Set.univ) cmp
    (fun _ _ _ _ _ => Set.mem_univ _) (get (swap v 0 pivot) 0)
    (((swap v 0 pivot).drop 1).length + 1) s1 ((swap v 0 pivot).drop 1) l
    ((swap v 0 pivot).drop 1).length hlw
  rcases h2 : scan_rM cmp (get (swap v 0 pivot) 0)
      (((swap v 0 pivot).drop 1).length + 1) s1 ((swap v 0 pivot).drop 1) l
      ((swap v 0 pivot).drop 1).length with _ | _ | ⟨e, w2⟩ | ⟨s2, w2, r⟩ <;>
    rw [h2] at hrs hs2 <;> dsimp only at hrs hs2 ⊢ <;> try trivial
  obtain ⟨hw2, hlr, hrw⟩ := hs2
  subst w2
  have hbl := partition_in_blocksM_ok cmp (get (swap v 0 pivot) 0) s2
    ((((swap v 0 pivot).drop 1).take r).drop l)
  rcases h3 : partition_in_blocksM cmp (get (swap v 0 pivot) 0) s2
      ((((swap v 0 pivot).drop 1).take r).drop l) with _ | _ | ⟨e, subv⟩ |
    ⟨s3, subv, p⟩ <;> rw [h3] at hbl <;> dsimp only at hbl ⊢ <;> try trivial
  obtain ⟨hblen, hbm, hbtr⟩ := hbl
  have hwlen : ((swap v 0 pivot).drop 1).length = v.length - 1 := by
    rw [List.length_drop, Pdq.length_swap]
  have hsub : ((((swap v 0 pivot).drop 1).take r).drop l).length =
      min r ((swap v 0 pivot).drop 1).length - l := by
    rw [List.length_drop, List.length_take]
  rw [hsub] at hbm
  omega

/-- The post-partition step of `quicksort` returns normally (under a
comparator that returns normally) and hands back strictly shorter slices to
recurse on. -/
theorem qs_stepM_shape (cmp : Cmp σ ε α) (hnf : NeverFails cmp) (s3 : σ)
    (v3 : List α) (mid2 : Nat) (was_p : Bool) (len limit : Nat)
    (hv : v3.length = len) (hm : mid2 ≤ len - 1) (hl : 1 ≤ len) :
    match qs_stepM cmp s3 v3 mid2 was_p len limit with
    | .fuelout => False
    | .fault => False
    | .panic _ _ => True
    | .ok _ w st =>
        ∀ L R lim, st = .inl (L, R, lim) →
          L.length ≤ len - 1 ∧ R.length ≤ len - 1 := by
  unfold qs_stepM
  dsimp only
  by_cases himb : (v3.take mid2).length < len / 8 ∨
      (v3.drop (mid2 + 1)).length < len / 8
  · rw [if_pos himb]
    intro L R lim hst
    injection hst with h
    injection h with hL h
    injection h with hR hlim
    subst hL
    subst hR
    constructor
    · rw [(Pdq.break_patterns_perm (v3.take mid2)).length_eq,
        List.length_take]
      omega
    · rw [(Pdq.break_patterns_perm (v3.drop (mid2 + 1))).length_eq,
        List.length_drop]
      omega
  · rw [if_neg himb]
    by_cases hwp : was_p = true
    · rw [if_pos hwp]
      have hp1L := partial_insertion_sortM_lands cmp s3 (v3.take mid2)
      have hp1G := partial_insertion_sortM_good cmp
        (neverFails_failsIn cmp hnf ∅) s3 (v3.take mid2)
      rcases hq1 : partial_insertion_sortM cmp s3 (v3.take mid2) with
          _ | _ | ⟨e, w⟩ | ⟨s4, lw, lok⟩ <;> rw [hq1] at hp1L hp1G <;>
        dsimp only at hp1L hp1G ⊢ <;> try trivial
      have hlwlen := List.Perm.length_eq hp1G
      by_cases hlok : lok = true
      · rw [if_pos hlok]
        have hp2L := partial_insertion_sortM_lands cmp s4
          (v3.drop (mid2 + 1))
        have hp2G := partial_insertion_sortM_good cmp
          (neverFails_failsIn cmp hnf ∅) s4 (v3.drop (mid2 + 1))
        rcases hq2 : partial_insertion_sortM cmp s4 (v3.drop (mid2 + 1))
            with _ | _ | ⟨e, w⟩ | ⟨s5, rw2, rok⟩ <;> rw [hq2] at hp2L hp2G <;>
          dsimp only at hp2L hp2G ⊢ <;> try trivial
        have hrwlen := List.Perm.length_eq hp2G
        by_cases hrok : rok = true
        · rw [if_pos hrok]
          intro L R lim hst
          cases hst
        · rw [if_neg hrok]
          intro L R lim hst
          injection hst with h
          injection h with hL h
          injection h with hR hlim
          subst hL
          subst hR
          rw [List.length_take] at hlwlen
          rw [List.length_drop] at hrwlen
          omega
      · rw [if_neg hlok]
        intro L R lim hst
        injection hst with h
        injection h with hL h
        injection h with hR hlim
        subst hL
        subst hR
        rw [List.length_take] at hlwlen
        constructor
        · omega
        · rw [List.length_drop]
          omega
    · rw [if_neg hwp]
      intro L R lim hst
      injection hst with h
      injection h with hL h
      injection h with hR hlim
      subst hL
      subst hR
      constructor
      · rw [List.length_take]
        omega
      · rw [List.length_drop]
        omega

/-- `quicksort` with fuel exceeding the slice length, run against a
comparator whose calls all return normally, terminates with a normal
return — the depth limit (heapsort fallback) bounds the recursion, never
the fuel. -/
theorem quicksortMF_ok (cmp : Cmp σ ε α) (hnf : NeverFails cmp)
    (tSize : Nat) :
    ∀ fuel s (v : List α) pred limit, v.length < fuel →
      ∃ s' w, quicksortMF cmp tSize fuel s v pred limit = .ok s' w () := by
  intro fuel
  induction fuel with
  | zero => intro s v pred limit h; omega
  | succ fuel ih =>
    intro s v pred limit h
    unfold quicksortMF
    dsimp only
    generalize (if tSize ≤ 2 * 8 then 32 else 16 : Nat) = mi
    by_cases h1 : v.length ≤ mi
    · rw [if_pos h1]
      obtain ⟨s', w, u, hok, hperm⟩ := lands_ok (insertion_sortM_lands cmp s v)
        (insertion_sortM_good cmp (neverFails_failsIn cmp hnf ∅) s v)
      cases u
      exact ⟨s', w, hok⟩
    · rw [if_neg h1]
      by_cases h2 : limit = 0
      · rw [if_pos h2]
        obtain ⟨s', w, u, hok, hperm⟩ := lands_ok (heapsortM_lands cmp s v)
          (heapsortM_good cmp (neverFails_failsIn cmp hnf ∅) s v)
        cases u
        exact ⟨s', w, hok⟩
      · rw [if_neg h2]
        have hcpS := choose_pivotM_shape cmp s v
        have hcpG := choose_pivotM_good cmp (neverFails_failsIn cmp hnf ∅) s v
        rcases hc1 : choose_pivotM cmp s v with _ | _ | ⟨e, w⟩ |
            ⟨s1, v1, mid⟩ <;> rw [hc1] at hcpS hcpG <;>
          dsimp only [MRes.bind] at hcpS hcpG ⊢
        · exact absurd hcpG.1 (Set.not_mem_empty e)
        · cases pred with
          | none =>
            dsimp only [MRes.bind]
            rw [if_neg Bool.false_ne_true]
            have hpS := partitionM_shape cmp s1 v1 mid
            have hpG := partitionM_good cmp (neverFails_failsIn cmp hnf ∅) s1 v1 mid
            rcases hp1 : partitionM cmp s1 v1 mid with _ | _ | ⟨e, w⟩ | ⟨s3, v3, p⟩ <;>
              rw [hp1] at hpS hpG <;> dsimp only [MRes.bind] at hpS hpG ⊢
            · exact absurd hpG.1 (Set.not_mem_empty e)
            · have hv3 : v3.length = v1.length := List.Perm.length_eq hpG
              have hqsS := qs_stepM_shape cmp hnf s3 v3 p.1 p.2 v.length limit
                (by omega) (by omega) (by omega)
              have hqsG := qs_stepM_spec cmp (neverFails_failsIn cmp hnf ∅) s3 v3 p.1
                p.2 v.length limit
              rcases hq : qs_stepM cmp s3 v3 p.1 p.2 v.length limit with _ | _ |
                  ⟨e, w⟩ | ⟨s6, w6, st⟩ <;> rw [hq] at hqsS hqsG <;>
                dsimp only [MRes.bind] at hqsS hqsG ⊢
              · exact absurd hqsG.1 (Set.not_mem_empty e)
              · cases st with
                | inr w2 => exact ⟨s6, w2, rfl⟩
                | inl LRl =>
                  obtain ⟨L, R, lim⟩ := LRl
                  dsimp only
                  obtain ⟨hL, hR⟩ := hqsS L R lim rfl
                  obtain ⟨s7, w7, hrec1⟩ := ih s6 L none lim (by omega)
                  rw [hrec1]
                  dsimp only
                  obtain ⟨s8, w8, hrec2⟩ := ih s7 R (some (get v3 p.1)) lim (by omega)
                  rw [hrec2]
                  exact ⟨s8, w7 ++ (v3.drop p.1).take 1 ++ w8, rfl⟩
          | some pv =>
            obtain ⟨o, s2, hcmp⟩ := hnf s1 pv (get v1 mid)
            dsimp only
            rw [hcmp]
            dsimp only [MRes.bind]
            by_cases ho : o = .eq
            · rw [decide_eq_true ho, if_pos rfl]
              have hpeS := partition_equalM_shape cmp s2 v1 mid (by omega)
              have hpeG := partition_equalM_good cmp
                (neverFails_failsIn cmp hnf ∅) s2 v1 mid
              rcases hp1 : partition_equalM cmp s2 v1 mid with _ | _ |
                  ⟨e, w⟩ | ⟨s3, v3, mid2⟩ <;> rw [hp1] at hpeS hpeG <;>
                dsimp only [MRes.bind] at hpeS hpeG ⊢
              · exact absurd hpeG.1 (Set.not_mem_empty e)
              · obtain ⟨hv3len, hm1, hm2⟩ := hpeS
                obtain ⟨s4, w4, hrec⟩ := ih s3 (v3.drop mid2) (some pv) limit
                  (by rw [List.length_drop]; omega)
                rw [hrec]
                exact ⟨s4, v3.take mid2 ++ w4, rfl⟩
            · rw [decide_eq_false ho, if_neg Bool.false_ne_true]
              have hpS := partitionM_shape cmp s2 v1 mid
              have hpG := partitionM_good cmp (neverFails_failsIn cmp hnf ∅) s2 v1 mid
              rcases hp1 : partitionM cmp s2 v1 mid with _ | _ | ⟨e, w⟩ | ⟨s3, v3, p⟩ <;>
                rw [hp1] at hpS hpG <;> dsimp only [MRes.bind] at hpS hpG ⊢
              · exact absurd hpG.1 (Set.not_mem_empty e)
              · have hv3 : v3.length = v1.length := List.Perm.length_eq hpG
                have hqsS := qs_stepM_shape cmp hnf s3 v3 p.1 p.2 v.length limit
                  (by omega) (by omega) (by omega)
                have hqsG := qs_stepM_spec cmp (neverFails_failsIn cmp hnf ∅) s3 v3 p.1
                  p.2 v.length limit
                rcases hq : qs_stepM cmp s3 v3 p.1 p.2 v.length limit with _ | _ |
                    ⟨e, w⟩ | ⟨s6, w6, st⟩ <;> rw [hq] at hqsS hqsG <;>
                  dsimp only [MRes.bind] at hqsS hqsG ⊢
                · exact absurd hqsG.1 (Set.not_mem_empty e)
                · cases st with
                  | inr w2 => exact ⟨s6, w2, rfl⟩
                  | inl LRl =>
                    obtain ⟨L, R, lim⟩ := LRl
                    dsimp only
                    obtain ⟨hL, hR⟩ := hqsS L R lim rfl
                    obtain ⟨s7, w7, hrec1⟩ := ih s6 L (some pv) lim (by omega)
                    rw [hrec1]
                    dsimp only
                    obtain ⟨s8, w8, hrec2⟩ := ih s7 R (some (get v3 p.1)) lim (by omega)
                    rw [hrec2]
                    exact ⟨s8, w7 ++ (v3.drop p.1).take 1 ++ w8, rfl⟩

/-- C2: for every input slice and every comparator — stateful, total-order
or not — if `sort_by` returns normally then the final contents are a
permutation of the input contents (no element lost or duplicated) and the
length is unchanged. -/
theorem sort_byM_perm (cmp : Cmp σ ε α) (tSize : Nat) (s : σ) (v : List α)
    (s' : σ) (w : List α) (u : Unit)
    (h : sort_byM cmp tSize s v = .ok s' w u) :
    w.Perm v ∧ w.length = v.length := by
  have hg := sort_byM_good (P := Set.univ) cmp
    (fun _ _ _ _ _ => Set.mem_univ _) tSize s v
  rw [h] at hg
  exact ⟨hg, hg.length_eq⟩

/-- C2 witness: a concrete run of `sort_by`. -/
theorem sort_byM_perm_witness :
    sort_byM (liftCmp (ε := Unit) Pdq.natCmp) 8 () [3, 1, 2] =
      .ok () [1, 2, 3] () ∧
    ([1, 2, 3] : List Nat).Perm [3, 1, 2] ∧
    ([1, 2, 3] : List Nat).length = ([3, 1, 2] : List Nat).length := by
  refine ⟨rfl, ?_⟩
  exact sort_byM_perm (liftCmp (ε := Unit) Pdq.natCmp) 8 () [3, 1, 2] ()
    [1, 2, 3] () rfl

/-- C3: a comparator failure is propagated unchanged out of `sort_by` — the
payload observed by the caller is one the comparator itself produced — and
at that point the slice contents are a permutation of the input contents
(the in-flight hole of `insert_head` having been restored by the guard
before the unwind leaves). -/
theorem sort_byM_panic (cmp : Cmp σ ε α) (P : Set ε) (hP : FailsIn cmp P)
    (tSize : Nat) (s : σ) (v : List α) (e : ε) (w : List α)
    (h : sort_byM cmp tSize s v = .panic e w) : e ∈ P ∧ w.Perm v := by
  have hg := sort_byM_good cmp hP tSize s v
  rw [h] at hg
  exact hg

/-- C3 witness: a comparator that always fails with payload `7`. -/
theorem sort_byM_panic_witness :
    sort_byM (failCmp (α := Nat) 7) 8 () [2, 1, 3] = .panic 7 [2, 1, 3] ∧
    7 ∈ ({7} : Set Nat) ∧ ([2, 1, 3] : List Nat).Perm [2, 1, 3] := by
  refine ⟨rfl, ?_⟩
  exact sort_byM_panic (failCmp 7) {7}
    (fun s a b e h => by
      injection h with h1
      exact Set.mem_singleton_iff.mpr h1.symm)
    8 () [2, 1, 3] 7 [2, 1, 3] rfl

/-- The adjacency scan, run with the counting comparator over a stretch with
no `o`-adjacency, performs one comparison per remaining index and reports
`false`. -/
theorem has_adjM_count (c : α → α → Ordering) (o : Ordering) (v : List α) :
    ∀ fuel i s, 1 ≤ i → v.length ≤ fuel + i →
      (∀ j, i ≤ j → j < v.length → c (get v (j - 1)) (get v j) ≠ o) →
      has_adjM (countCmp (ε := ε) c) o fuel i s v =
        .ok (s + (v.length - i)) v false := by
  intro fuel
  induction fuel with
  | zero =>
    intro i s h1 h2 h3
    unfold has_adjM
    have : v.length - i = 0 := by omega
    rw [this, Nat.add_zero]
  | succ fuel ih =>
    intro i s h1 h2 h3
    unfold has_adjM
    split
    next hlt =>
      show (if c (get v (i - 1)) (get v i) = o then _ else _) = _
      rw [if_neg (h3 i (Nat.le_refl i) hlt)]
      rw [ih (i + 1) (s + 1) (by omega) (by omega)
        (fun j hj1 hj2 => h3 j (by omega) hj2)]
      have : s + 1 + (v.length - (i + 1)) = s + (v.length - i) := by omega
      rw [this]
    next hge =>
      have : v.length - i = 0 := by omega
      rw [this, Nat.add_zero]

/-- `is_presorted`, run with the counting comparator on an ascending slice,
returns `true`, leaves the slice unchanged, and makes exactly `n - 1`
comparisons. -/
theorem is_presortedM_count (c : α → α → Ordering) (v : List α)
    (ha : Pdq.Ascending c v) (s : Nat) :
    is_presortedM (countCmp (ε := ε) c) s v =
      .ok (s + (v.length - 1)) v true := by
  unfold is_presortedM
  split
  next h2 =>
    have hadj := List.chain'_iff_get.mp ha
    have hadj' : ∀ i, i + 1 < v.length → c (get v i) (get v (i + 1)) ≠ .gt := by
      intro i hi
      have h := hadj i (by omega)
      rw [List.get_eq_getElem, List.get_eq_getElem] at h
      rw [Pdq.get_eq_getElem v i (by omega),
        Pdq.get_eq_getElem v (i + 1) (by omega)]
      exact h
    have h01 : c (get v 0) (get v 1) ≠ .gt := hadj' 0 (by omega)
    show (if c (get v 0) (get v 1) = .gt then _ else _) = _
    rw [if_neg (by
      intro hgt
      exact h01 hgt)]
    rw [has_adjM_count c .gt v v.length 2 (s + 1) (by omega) (by omega)
      (fun j hj1 hj2 => by
        have h := hadj' (j - 1) (by omega)
        rw [show j - 1 + 1 = j from by omega] at h
        exact h)]
    show MRes.ok _ _ _ = _
    have : s + 1 + (v.length - 2) = s + (v.length - 1) := by omega
    rw [this]
  next h2 =>
    have : v.length - 1 = 0 := by omega
    rw [this, Nat.add_zero]

/-- C6 (amended): for a nonzero-sized element type and an input slice of
length `n ≥ 1` that is already ascending under the (pure) comparator,
`sort_by` calls the comparator exactly `n - 1` times and leaves the slice
unchanged.  (For zero-sized `T` the comparator is never called.) -/
theorem sort_byM_presorted_count (c : α → α → Ordering) (tSize : Nat)
    (ht : tSize ≠ 0) (v : List α) (h1 : 1 ≤ v.length)
    (ha : Pdq.Ascending c v) :
    sort_byM (countCmp (ε := ε) c) tSize 0 v = .ok (v.length - 1) v () := by
  unfold sort_byM
  rw [if_neg ht]
  rw [is_presortedM_count c v ha 0, Nat.zero_add]
  rfl

/-- C6 (counterexample): for a zero-sized element type (`tSize = 0`) the
claim fails — an ascending two-element slice gets zero comparator calls,
not `n - 1 = 1`. -/
theorem sort_byM_count_counterexample :
    Pdq.Ascending (fun _ _ : Nat => Ordering.lt) [0, 0] ∧
    1 ≤ ([0, 0] : List Nat).length ∧
    sort_byM (countCmp (ε := Unit) (fun _ _ : Nat => Ordering.lt)) 0 0 [0, 0] =
      .ok 0 [0, 0] () ∧
    (0 : Nat) ≠ ([0, 0] : List Nat).length - 1 := by
  refine ⟨?_, by decide, rfl, by decide⟩
  unfold Pdq.Ascending
  rw [List.chain'_iff_get]
  decide

/-- C6 witness: the amended statement at a concrete ascending slice. -/
theorem sort_byM_presorted_count_witness :
    (8 : Nat) ≠ 0 ∧ 1 ≤ ([1, 2, 2, 5] : List Nat).length ∧
    Pdq.Ascending Pdq.natCmp [1, 2, 2, 5] ∧
    sort_byM (countCmp (ε := Unit) Pdq.natCmp) 8 0 [1, 2, 2, 5] =
      .ok (([1, 2, 2, 5] : List Nat).length - 1) [1, 2, 2, 5] () :=
  ⟨by decide, by decide, by unfold Pdq.Ascending; rw [List.chain'_iff_get]; decide,
    sort_byM_presorted_count Pdq.natCmp 8 (by decide) [1, 2, 2, 5] (by decide)
      (by unfold Pdq.Ascending; rw [List.chain'_iff_get]; decide)⟩

/-- C7: for every input slice and every comparator whose calls all return
normally — even one violating the strict-weak-order contract
(non-transitive, non-total, inconsistent) — `sort_by` terminates with a
normal return, leaving some permutation of the input: the recursion depth
limit (with its heapsort fallback) bounds the recursion, and no comparator
behaviour can drive it unboundedly. -/
theorem sort_byM_terminates (cmp : Cmp σ ε α) (hnf : NeverFails cmp)
    (tSize : Nat) (s : σ) (v : List α) :
    ∃ s' w, sort_byM cmp tSize s v = .ok s' w () ∧ w.Perm v := by
  unfold sort_byM
  by_cases ht : tSize = 0
  · rw [if_pos ht]
    exact ⟨s, v, rfl, List.Perm.refl v⟩
  · rw [if_neg ht]
    have hprS := is_presortedM_lands cmp s v
    have hprG := is_presortedM_good cmp (neverFails_failsIn cmp hnf ∅) s v
    rcases h1 : is_presortedM cmp s v with _ | _ | ⟨e, w⟩ | ⟨s1, v1, pre⟩ <;>
      rw [h1] at hprS hprG <;>
      dsimp only [Lands, GoodRes, MRes.bind] at hprS hprG ⊢
    · exact absurd hprG.1 (Set.not_mem_empty e)
    · by_cases hpre : pre = true
      · rw [if_pos hpre]
        exact ⟨s1, v1, rfl, hprG⟩
      · rw [if_neg hpre]
        obtain ⟨s2, w2, hq⟩ := quicksortMF_ok cmp hnf tSize (v1.length + 1)
          s1 v1 none (sortByLimit v1.length) (by omega)
        have hqg := quicksortMF_good cmp (neverFails_failsIn cmp hnf ∅) tSize
          (v1.length + 1) s1 v1 none (sortByLimit v1.length)
        rw [hq] at hqg
        rw [hq]
        exact ⟨s2, w2, rfl, List.Perm.trans hqg hprG⟩

/-- C7 witness: a constant (hence non-total, contract-violating) comparator
still terminates normally with a permutation. -/
theorem sort_byM_terminates_witness :
    NeverFails (liftCmp (ε := Unit) (fun _ _ : Nat => Ordering.lt)) ∧
    ∃ s' w, sort_byM (liftCmp (ε := Unit) (fun _ _ : Nat => Ordering.lt)) 8 ()
        [2, 1, 3] = .ok s' w () ∧ w.Perm [2, 1, 3] :=
  ⟨fun s a b => ⟨Ordering.lt, (), rfl⟩,
    sort_byM_terminates (liftCmp (fun _ _ => Ordering.lt))
      (fun s a b => ⟨Ordering.lt, (), rfl⟩) 8 () [2, 1, 3]⟩

/-- C8: for every slice, pivot, comparator state and comparator — including
comparators that panic or return arbitrary orderings — `partition_in_blocks`
never performs an out-of-bounds unchecked access (no `fault`) and never
exhausts its recursion fuel; on normal return every raw offset stored into
the `u8` buffers is strictly below `BLOCK = 64` (so the `as u8` cast is
lossless) and the returned count is at most the slice length.  The bounds
are established from `n`, the block widths and the offset buffers alone, so
no index depends on a comparator verdict. -/
theorem partition_in_blocksM_safe (cmp : Cmp σ ε α) (piv : α) (s : σ)
    (v : List α) :
    partition_in_blocksM cmp piv s v ≠ .fault ∧
    partition_in_blocksM cmp piv s v ≠ .fuelout ∧
    ∀ s' w m tr, partition_in_blocksM cmp piv s v = .ok s' w (m, tr) →
      (∀ x ∈ tr, x < BLOCK) ∧ m ≤ v.length := by
  have hok := partition_in_blocksM_ok cmp piv s v
  rcases h1 : partition_in_blocksM cmp piv s v with _ | _ | ⟨e, w⟩ |
    ⟨s1, w1, p⟩ <;> rw [h1] at hok <;> dsimp only at hok
  · exact ⟨fun h => MRes.noConfusion h, fun h => MRes.noConfusion h,
      fun s' w m tr h => MRes.noConfusion h⟩
  · refine ⟨fun h => MRes.noConfusion h, fun h => MRes.noConfusion h,
      fun s' w m tr h => ?_⟩
    injection h with hs hw hp
    subst hp
    exact ⟨fun x hx => hok.2.2 x hx, hok.2.1⟩

/-- C8 witness: a concrete run of `partition_in_blocks`. -/
theorem partition_in_blocksM_safe_witness :
    partition_in_blocksM (liftCmp (ε := Unit) Pdq.natCmp) 2 () [3, 1] =
      .ok () [1, 3] (1, [0, 0]) ∧
    ((∀ x ∈ ([0, 0] : List Nat), x < BLOCK) ∧
      1 ≤ ([3, 1] : List Nat).length) :=
  ⟨rfl, (partition_in_blocksM_safe (liftCmp (ε := Unit) Pdq.natCmp) 2 ()
    [3, 1]).2.2 () [1, 3] 1 [0, 0] rfl⟩

/-- C10: for every non-empty slice, pivot index within bounds, and
comparator run that returns normally, `partition_equal` returns a value
between `1` and the slice length inclusive (the pivot itself is counted in
the equal prefix), so the tail slice the caller recurses on is strictly
shorter. -/
theorem partition_equalM_bounds (cmp : Cmp σ ε α) (s : σ) (v : List α)
    (mid : Nat) (hmid : mid < v.length) (hv : 1 ≤ v.length) (s' : σ)
    (w : List α) (m : Nat)
    (h : partition_equalM cmp s v mid = .ok s' w m) :
    1 ≤ m ∧ m ≤ v.length ∧ (w.drop m).length < v.length := by
  unfold partition_equalM at h
  dsimp only at h
  have hpe := pe_goM_spec (P := Set.univ) cmp
    (fun _ _ _ _ _ => Set.mem_univ _) (get (swap v 0 mid) 0)
    (((swap v 0 mid).drop 1).length + 1) s ((swap v 0 mid).drop 1) 0
    ((swap v 0 mid).drop 1).length
  rcases h1 : pe_goM cmp (get (swap v 0 mid) 0)
      (((swap v 0 mid).drop 1).length + 1) s ((swap v 0 mid).drop 1) 0
      ((swap v 0 mid).drop 1).length with _ | _ | ⟨e, w'⟩ | ⟨s1, w1, l⟩ <;>
    rw [h1] at hpe h <;> dsimp only at h <;> cases h
  have hlw : ((swap v 0 mid).drop 1).length = v.length - 1 := by
    rw [List.length_drop, Pdq.length_swap]
  have hl : l ≤ v.length - 1 := by
    have h2 := hpe.2
    rw [Nat.zero_max, hlw] at h2
    exact h2
  have hw1 : w1.length = v.length - 1 := by
    rw [hpe.1.length_eq, hlw]
  have htake : ((swap v 0 mid).take 1).length = 1 := by
    rw [List.length_take, Pdq.length_swap]
    omega
  refine ⟨by omega, by omega, ?_⟩
  rw [List.length_drop, List.length_append, htake, hw1]
  omega

/-- C10 witness: a concrete run of `partition_equal`. -/
theorem partition_equalM_bounds_witness :
    (0 : Nat) < ([1, 1, 2] : List Nat).length ∧
    1 ≤ ([1, 1, 2] : List Nat).length ∧
    partition_equalM (liftCmp (ε := Unit) Pdq.natCmp) () [1, 1, 2] 0 =
      .ok () [1, 1, 2] 2 ∧
    (1 ≤ 2 ∧ 2 ≤ ([1, 1, 2] : List Nat).length ∧
      (([1, 1, 2] : List Nat).drop 2).length < ([1, 1, 2] : List Nat).length) :=
  ⟨by decide, by decide, rfl,
    partition_equalM_bounds (liftCmp (ε := Unit) Pdq.natCmp) () [1, 1, 2] 0
      (by decide) (by decide) () [1, 1, 2] 2 rfl⟩

end PdqM
